import Mathlib

/-!
Verification of libmkvtag against its specification.

The development shallowly embeds the C sources:
  - `ebml_vint.c`   : EBML variable-length integer codec
  - `ebml_writer.c` : EBML element serialization
  - `ebml_reader.c` : stream-based EBML element reading
  - `mkv_tags.c`    : Tags parsing and serialization
  - `mkvtag.c`      : public surface (read/set/remove, placement planner)
  - `string_util.c` : byte-string helpers

Machine integers are modelled as `Nat` (values kept below `2^64` by the
same masks the C code applies); fallible functions return `Except Int α`
where the `Int` is the C error code.  Byte strings are `List Nat` with
each byte below 256.  The `tag_common` buffered file stream is not part
of the sources; it is modelled from the specification (§4.A) as a byte
list plus a position.
-/

namespace MkvTag

/-- Error codes from `mkvtag_error.h`. -/
def MKVTAG_OK : Int := 0
def MKVTAG_ERR_INVALID_ARG : Int := -1
def MKVTAG_ERR_NO_MEMORY : Int := -2
def MKVTAG_ERR_IO : Int := -3
def MKVTAG_ERR_NOT_OPEN : Int := -4
def MKVTAG_ERR_ALREADY_OPEN : Int := -5
def MKVTAG_ERR_READ_ONLY : Int := -6
def MKVTAG_ERR_NOT_EBML : Int := -10
def MKVTAG_ERR_NOT_MKV : Int := -11
def MKVTAG_ERR_CORRUPT : Int := -12
def MKVTAG_ERR_TRUNCATED : Int := -13
def MKVTAG_ERR_INVALID_VINT : Int := -14
def MKVTAG_ERR_VINT_OVERFLOW : Int := -15
def MKVTAG_ERR_NO_TAGS : Int := -20
def MKVTAG_ERR_TAG_NOT_FOUND : Int := -21
def MKVTAG_ERR_TAG_TOO_LARGE : Int := -22
def MKVTAG_ERR_NO_SPACE : Int := -30
def MKVTAG_ERR_WRITE_FAILED : Int := -31
def MKVTAG_ERR_SEEK_FAILED : Int := -32

/-- Element IDs from `ebml_ids.h` (the ones the tag paths use). -/
def EBML_ID_EBML : Nat := 0x1A45DFA3
def EBML_ID_VOID : Nat := 0xEC
def MKV_ID_SEGMENT : Nat := 0x18538067
def MKV_ID_SEEKHEAD : Nat := 0x114D9B74
def MKV_ID_SEEK : Nat := 0x4DBB
def MKV_ID_SEEK_ID : Nat := 0x53AB
def MKV_ID_SEEK_POSITION : Nat := 0x53AC
def MKV_ID_TAGS : Nat := 0x1254C367
def MKV_ID_TAG : Nat := 0x7373
def MKV_ID_TARGETS : Nat := 0x63C0
def MKV_ID_TARGET_TYPE_VALUE : Nat := 0x68CA
def MKV_ID_TARGET_TYPE : Nat := 0x63CA
def MKV_ID_TAG_TRACK_UID : Nat := 0x63C5
def MKV_ID_TAG_EDITION_UID : Nat := 0x63C9
def MKV_ID_TAG_CHAPTER_UID : Nat := 0x63C4
def MKV_ID_TAG_ATTACHMENT_UID : Nat := 0x63C6
def MKV_ID_SIMPLE_TAG : Nat := 0x67C8
def MKV_ID_TAG_NAME : Nat := 0x45A3
def MKV_ID_TAG_LANGUAGE : Nat := 0x447A
def MKV_ID_TAG_LANGUAGE_BCP47 : Nat := 0x447B
def MKV_ID_TAG_DEFAULT : Nat := 0x4484
def MKV_ID_TAG_STRING : Nat := 0x4487
def MKV_ID_TAG_BINARY : Nat := 0x4485

/-- `MKVTAG_TARGET_ALBUM` from `mkvtag_types.h`. -/
def MKVTAG_TARGET_ALBUM : Nat := 50

/-- Byte strings: lists of byte values. -/
abbrev Bytes := List Nat

/-- Big-endian byte expansion of `v` to exactly `n` bytes
(the right-to-left `value & 0xFF; value >>= 8` loops of the C code). -/
def bigEndianBytes (v n : Nat) : Bytes :=
  (List.range n).map (fun i => v / 256 ^ (n - 1 - i) % 256)

/-!  ## VINT codec (`ebml_vint.c`)  -/

/-- `EBML_VINT_MAX_n` from `ebml_vint.h`: `2^(7n) - 2`. -/
def EBML_VINT_MAX (n : Nat) : Nat := 2 ^ (7 * n) - 2

/-- `ebml_vint_size`: minimal VINT byte length for a value, 0 on overflow. -/
def ebml_vint_size (value : Nat) : Nat :=
  if value ≤ EBML_VINT_MAX 1 then 1
  else if value ≤ EBML_VINT_MAX 2 then 2
  else if value ≤ EBML_VINT_MAX 3 then 3
  else if value ≤ EBML_VINT_MAX 4 then 4
  else if value ≤ EBML_VINT_MAX 5 then 5
  else if value ≤ EBML_VINT_MAX 6 then 6
  else if value ≤ EBML_VINT_MAX 7 then 7
  else if value ≤ EBML_VINT_MAX 8 then 8
  else 0

/-- `ebml_vint_length`: VINT length from the first byte, 0 if the byte is 0. -/
def ebml_vint_length (first_byte : Nat) : Nat :=
  if first_byte &&& 0x80 ≠ 0 then 1
  else if first_byte &&& 0x40 ≠ 0 then 2
  else if first_byte &&& 0x20 ≠ 0 then 3
  else if first_byte &&& 0x10 ≠ 0 then 4
  else if first_byte &&& 0x08 ≠ 0 then 5
  else if first_byte &&& 0x04 ≠ 0 then 6
  else if first_byte &&& 0x02 ≠ 0 then 7
  else if first_byte &&& 0x01 ≠ 0 then 8
  else 0

/-- `ebml_vint_decode`: value and consumed byte count from a buffer. -/
def ebml_vint_decode (data : Bytes) : Except Int (Nat × Nat) :=
  match data with
  | [] => .error MKVTAG_ERR_TRUNCATED
  | b0 :: _ =>
    let length := ebml_vint_length b0
    if length = 0 then .error MKVTAG_ERR_INVALID_VINT
    else if data.length < length then .error MKVTAG_ERR_TRUNCATED
    else
      let first := b0 &&& (0xFF >>> length)
      .ok (((data.take length).drop 1).foldl (fun acc b => acc * 256 + b) first, length)

/-- `ebml_id_decode`: element ID (marker bits retained), at most 4 bytes. -/
def ebml_id_decode (data : Bytes) : Except Int (Nat × Nat) :=
  match data with
  | [] => .error MKVTAG_ERR_TRUNCATED
  | b0 :: _ =>
    let length := ebml_vint_length b0
    if length = 0 then .error MKVTAG_ERR_INVALID_VINT
    else if length > 4 then .error MKVTAG_ERR_VINT_OVERFLOW
    else if data.length < length then .error MKVTAG_ERR_TRUNCATED
    else
      .ok ((data.take length).foldl (fun acc b => acc * 256 + b) 0, length)

/-- `ebml_vint_encode_fixed`: encode `value` in exactly `length` bytes,
marker bit OR'd into byte 0. -/
def ebml_vint_encode_fixed (value : Nat) (length : Nat) : Except Int Bytes :=
  if length < 1 ∨ length > 8 then .error MKVTAG_ERR_INVALID_ARG
  else if value > EBML_VINT_MAX length then .error MKVTAG_ERR_VINT_OVERFLOW
  else
    match bigEndianBytes value length with
    | [] => .ok []
    | b0 :: rest => .ok ((b0 ||| (0x80 >>> (length - 1))) :: rest)

/-- `ebml_vint_encode`: minimal-length encoding. -/
def ebml_vint_encode (value : Nat) : Except Int Bytes :=
  let length := ebml_vint_size value
  if length = 0 then .error MKVTAG_ERR_VINT_OVERFLOW
  else ebml_vint_encode_fixed value length

/-- Byte width of a raw element ID value (`ebml_id_encode` ladder). -/
def idByteLen (id : Nat) : Nat :=
  if id ≤ 0xFF then 1
  else if id ≤ 0xFFFF then 2
  else if id ≤ 0xFFFFFF then 3
  else 4

/-- `ebml_id_encode`: IDs keep their marker bits, so this is plain
big-endian expansion of the raw value. -/
def ebml_id_encode (id : Nat) : Except Int Bytes :=
  if id = 0 then .error MKVTAG_ERR_INVALID_VINT
  else .ok (bigEndianBytes id (idByteLen id))

/-- `ebml_vint_is_unknown`: all data bits set. -/
def ebml_vint_is_unknown (value : Nat) (length : Nat) : Bool :=
  if 1 ≤ length ∧ length ≤ 8 then value = 2 ^ (7 * length) - 1 else false

/-- `ebml_id_size` from `ebml_ids.h`. -/
def ebml_id_size (id : Nat) : Nat :=
  if id ≤ 0xFF then 1
  else if id ≤ 0xFFFF then 2
  else if id ≤ 0xFFFFFF then 3
  else 4

/-!  ## EBML writer (`ebml_writer.c`)

Buffers are modelled as the byte lists an element write appends;
`buffer_append` never fails in the model (allocation failure is not
modelled). -/

/-- `uint_data_size`: bytes needed for a uint value (0 for value 0). -/
def uint_data_size (value : Nat) : Nat :=
  if value = 0 then 0
  else if value ≤ 0xFF then 1
  else if value ≤ 0xFFFF then 2
  else if value ≤ 0xFFFFFF then 3
  else if value ≤ 0xFFFFFFFF then 4
  else if value ≤ 0xFFFFFFFFFF then 5
  else if value ≤ 0xFFFFFFFFFFFF then 6
  else if value ≤ 0xFFFFFFFFFFFFFF then 7
  else 8

/-- `ebml_write_master_element_header`: ID bytes then size VINT. -/
def ebml_write_master_element_header (id : Nat) (content_size : Nat) :
    Except Int Bytes := do
  let idb ← ebml_id_encode id
  let szb ← ebml_vint_encode content_size
  return idb ++ szb

/-- `ebml_write_uint_element`: header plus big-endian content of
`uint_data_size` bytes (at least 1). -/
def ebml_write_uint_element (id : Nat) (value : Nat) : Except Int Bytes := do
  let data_size := max (uint_data_size value) 1
  let idb ← ebml_id_encode id
  let szb ← ebml_vint_encode data_size
  return idb ++ szb ++ bigEndianBytes value data_size

/-- The width ladder of `ebml_write_int_element`.  NOTE the source
jumps from 4 bytes straight to 8. -/
def int_data_size (value : Int) : Nat :=
  if value = 0 then 1
  else if -128 ≤ value ∧ value ≤ 127 then 1
  else if -32768 ≤ value ∧ value ≤ 32767 then 2
  else if -8388608 ≤ value ∧ value ≤ 8388607 then 3
  else if -2147483648 ≤ value ∧ value ≤ 2147483647 then 4
  else 8

/-- `ebml_write_int_element`: signed value, two's complement truncated to
the chosen width. -/
def ebml_write_int_element (id : Nat) (value : Int) : Except Int Bytes := do
  let data_size := int_data_size value
  let idb ← ebml_id_encode id
  let szb ← ebml_vint_encode data_size
  let uval := (value % (2 ^ 64 : Int)).toNat
  return idb ++ szb ++ bigEndianBytes uval data_size

/-- C `strlen` on a byte string: bytes before the first NUL. -/
def strlenB (s : Bytes) : Bytes := s.takeWhile (fun b => b ≠ 0)

/-- `ebml_write_string_element`: size is `strlen`, no trailing NUL. -/
def ebml_write_string_element (id : Nat) (s : Bytes) : Except Int Bytes := do
  let str := strlenB s
  let idb ← ebml_id_encode id
  let szb ← ebml_vint_encode str.length
  return idb ++ szb ++ str

/-- `ebml_write_binary_element`. -/
def ebml_write_binary_element (id : Nat) (data : Bytes) : Except Int Bytes := do
  let idb ← ebml_id_encode id
  let szb ← ebml_vint_encode data.length
  return idb ++ szb ++ data

/-- The `vint_len` search loop of `ebml_write_void_element`: first length
in `tries` whose minimal width is at most the tried width. -/
def void_try (total_size : Nat) : List Nat → Except Int Bytes
  | [] => .error MKVTAG_ERR_VINT_OVERFLOW
  | vint_len :: rest =>
    let content_size := total_size - 1 - vint_len
    let needed := ebml_vint_size content_size
    if needed = vint_len ∨ needed < vint_len then do
      let szb ← ebml_vint_encode_fixed content_size vint_len
      return szb ++ List.replicate content_size 0
    else void_try total_size rest

/-- `ebml_write_void_element`: Void ID, then a size VINT and zero padding
filling exactly `total_size` bytes. -/
def ebml_write_void_element (total_size : Nat) : Except Int Bytes :=
  if total_size < 2 then .error MKVTAG_ERR_INVALID_ARG
  else do
    let body ← void_try total_size [1, 2, 3, 4, 5, 6, 7, 8]
    return EBML_ID_VOID :: body

/-!  ## Tag model (`mkvtag_types.h`)

Linked lists become Lean lists; `NULL` strings become `none`. -/

/-- `mkvtag_simple_tag_t`: name/value with language, default flag,
binary payload and nested children. -/
inductive SimpleTag where
  | mk (name : Option Bytes) (value : Option Bytes) (binary : Option Bytes)
       (language : Option Bytes) (is_default : Nat) (nested : List SimpleTag)

def SimpleTag.name : SimpleTag → Option Bytes
  | .mk n _ _ _ _ _ => n

def SimpleTag.value : SimpleTag → Option Bytes
  | .mk _ v _ _ _ _ => v

def SimpleTag.binary : SimpleTag → Option Bytes
  | .mk _ _ b _ _ _ => b

def SimpleTag.language : SimpleTag → Option Bytes
  | .mk _ _ _ l _ _ => l

def SimpleTag.is_default : SimpleTag → Nat
  | .mk _ _ _ _ d _ => d

def SimpleTag.nested : SimpleTag → List SimpleTag
  | .mk _ _ _ _ _ n => n

/-- `mkvtag_tag_t`: targets descriptor plus simple tags. -/
structure Tag where
  target_type : Nat
  target_type_str : Option Bytes
  track_uids : List Nat
  edition_uids : List Nat
  chapter_uids : List Nat
  attachment_uids : List Nat
  simple_tags : List SimpleTag

/-- `mkvtag_collection_t`. -/
structure Collection where
  tags : List Tag

/-!  ## Tags serialization (`mkv_tags.c`)  -/

/-- Serialize a list of elements with a per-element writer, concatenating. -/
def writeUids (id : Nat) : List Nat → Except Int Bytes
  | [] => .ok []
  | uid :: rest => do
    let b ← ebml_write_uint_element id uid
    let r ← writeUids id rest
    return b ++ r

/-- The write of an optional string field (`if (x) { ... }` in the source). -/
def optWriteString (id : Nat) : Option Bytes → Except Int Bytes
  | some s => ebml_write_string_element id s
  | none => .ok []

/-- The write of the optional binary payload (skipped when empty). -/
def optWriteBinary : Option Bytes → Except Int Bytes
  | some b =>
    if b.length > 0 then ebml_write_binary_element MKV_ID_TAG_BINARY b
    else .ok []
  | none => .ok []

/-- The write of the TagDefault element (only for a false flag). -/
def defaultWrite (d : Nat) : Except Int Bytes :=
  if d = 0 then ebml_write_uint_element MKV_ID_TAG_DEFAULT 0 else .ok []

mutual

/-- `serialize_simple_tag`: TagName (when non-NULL), TagLanguage,
TagDefault (only when false), TagString, TagBinary (only when non-empty),
then nested SimpleTags; wrapped in a SimpleTag master header. -/
def serialize_simple_tag : SimpleTag → Except Int Bytes
  | .mk name value binary language is_default nested => do
    let cName ← optWriteString MKV_ID_TAG_NAME name
    let cLang ← optWriteString MKV_ID_TAG_LANGUAGE language
    let cDef ← defaultWrite is_default
    let cVal ← optWriteString MKV_ID_TAG_STRING value
    let cBin ← optWriteBinary binary
    let cNested ← serialize_simple_tag_list nested
    let content := cName ++ cLang ++ cDef ++ cVal ++ cBin ++ cNested
    let hdr ← ebml_write_master_element_header MKV_ID_SIMPLE_TAG content.length
    return hdr ++ content

/-- The `while (nested)` loops of `serialize_simple_tag`/`serialize_tag`. -/
def serialize_simple_tag_list : List SimpleTag → Except Int Bytes
  | [] => .ok []
  | st :: rest => do
    let b ← serialize_simple_tag st
    let r ← serialize_simple_tag_list rest
    return b ++ r

end

/-- `serialize_targets`: TargetTypeValue, optional TargetType string, then
the four UID sequences, wrapped in a Targets master header. -/
def serialize_targets (tag : Tag) : Except Int Bytes := do
  let cTtv ← ebml_write_uint_element MKV_ID_TARGET_TYPE_VALUE tag.target_type
  let cTts ← match tag.target_type_str with
    | some s => ebml_write_string_element MKV_ID_TARGET_TYPE s
    | none => .ok []
  let cTrack ← writeUids MKV_ID_TAG_TRACK_UID tag.track_uids
  let cEdition ← writeUids MKV_ID_TAG_EDITION_UID tag.edition_uids
  let cChapter ← writeUids MKV_ID_TAG_CHAPTER_UID tag.chapter_uids
  let cAttachment ← writeUids MKV_ID_TAG_ATTACHMENT_UID tag.attachment_uids
  let content := cTtv ++ cTts ++ cTrack ++ cEdition ++ cChapter ++ cAttachment
  let hdr ← ebml_write_master_element_header MKV_ID_TARGETS content.length
  return hdr ++ content

/-- `serialize_tag`: Targets first, then SimpleTags, in a Tag master. -/
def serialize_tag (tag : Tag) : Except Int Bytes := do
  let cTargets ← serialize_targets tag
  let cSimple ← serialize_simple_tag_list tag.simple_tags
  let content := cTargets ++ cSimple
  let hdr ← ebml_write_master_element_header MKV_ID_TAG content.length
  return hdr ++ content

/-- The tag loop of `mkv_tags_serialize`. -/
def serialize_tag_list : List Tag → Except Int Bytes
  | [] => .ok []
  | t :: rest => do
    let b ← serialize_tag t
    let r ← serialize_tag_list rest
    return b ++ r

/-- `mkv_tags_serialize`: concatenation of the serialized tags (the
content of a Tags element, without the Tags header). -/
def mkv_tags_serialize (collection : Collection) : Except Int Bytes :=
  serialize_tag_list collection.tags

/-!  ## EBML reader (`ebml_reader.c`)

The `tag_common` buffered stream (not under the sources) is modelled
from the spec (§4.A): a file is a byte list; `seek` to a non-negative
offset always succeeds; an exact read fails when the requested range
extends past end of file, leaving the logical position at the start of
the request; a read of zero bytes always succeeds. -/

/-- Exact read of `n` bytes at absolute position `pos`. -/
def file_read_exact (f : Bytes) (pos n : Nat) : Except Int Bytes :=
  if n = 0 then .ok []
  else if pos + n ≤ f.length then .ok ((f.drop pos).take n)
  else .error MKVTAG_ERR_TRUNCATED

/-- `ebml_element_t`. -/
structure EbmlElem where
  id : Nat
  size : Nat
  data_offset : Nat
  end_offset : Nat
  size_length : Nat
  id_length : Nat
  is_unknown_size : Bool
  deriving DecidableEq

/-- `EBML_SIZE_UNKNOWN` (`UINT64_MAX`). -/
def EBML_SIZE_UNKNOWN : Nat := 2 ^ 64 - 1

/-- `ebml_read_element_header`: ID VINT, size VINT, offsets.  Read
failures surface as `MKVTAG_ERR_TRUNCATED`, exactly as in the source. -/
def ebml_read_element_header (f : Bytes) (pos : Nat) : Except Int EbmlElem := do
  let b0 := (← file_read_exact f pos 1).headD 0
  let id_length := ebml_vint_length b0
  if id_length = 0 ∨ id_length > 4 then throw MKVTAG_ERR_INVALID_VINT
  let idBytes ← file_read_exact f pos id_length
  let idPair ← ebml_id_decode idBytes
  let s0 := (← file_read_exact f (pos + id_length) 1).headD 0
  let size_length := ebml_vint_length s0
  if size_length = 0 ∨ size_length > 8 then throw MKVTAG_ERR_INVALID_VINT
  let sizeBytes ← file_read_exact f (pos + id_length) size_length
  let szPair ← ebml_vint_decode sizeBytes
  let unknown := ebml_vint_is_unknown szPair.1 size_length
  let size := if unknown then EBML_SIZE_UNKNOWN else szPair.1
  let data_offset := pos + id_length + size_length
  let end_offset := if unknown then f.length else data_offset + size
  return { id := idPair.1, size := size, data_offset := data_offset,
           end_offset := end_offset, size_length := size_length,
           id_length := id_length, is_unknown_size := unknown }

/-- `ebml_read_uint`: big-endian content, at most 8 bytes, size 0 is 0. -/
def ebml_read_uint (f : Bytes) (e : EbmlElem) : Except Int Nat :=
  if e.size > 8 then .error MKVTAG_ERR_VINT_OVERFLOW
  else if e.size = 0 then .ok 0
  else do
    let buf ← file_read_exact f e.data_offset e.size
    return buf.foldl (fun acc b => acc * 256 + b) 0

/-- `ebml_read_int`: sign-extended from the high bit of byte 0. -/
def ebml_read_int (f : Bytes) (e : EbmlElem) : Except Int Int :=
  if e.size > 8 then .error MKVTAG_ERR_VINT_OVERFLOW
  else if e.size = 0 then .ok 0
  else do
    let buf ← file_read_exact f e.data_offset e.size
    let init : Int := if buf.headD 0 &&& 0x80 ≠ 0 then -1 else 0
    return buf.foldl (fun (acc : Int) (b : Nat) => acc * 256 + (b : Int)) init

/-- Trailing-NUL trimming of `ebml_read_string` (EBML string padding). -/
def dropTrailingZeros (s : Bytes) : Bytes :=
  (s.reverse.dropWhile (fun b => b = 0)).reverse

/-- `ebml_read_string_alloc` (via `ebml_read_string`): reads `size`
bytes and trims trailing NULs. -/
def ebml_read_string_alloc (f : Bytes) (e : EbmlElem) : Except Int Bytes := do
  let buf ← file_read_exact f e.data_offset e.size
  return dropTrailingZeros buf

/-- `ebml_read_binary_alloc`: `NULL` (none) for an empty element. -/
def ebml_read_binary_alloc (f : Bytes) (e : EbmlElem) :
    Except Int (Option Bytes) :=
  if e.size = 0 then .ok none
  else do
    let buf ← file_read_exact f e.data_offset e.size
    return some buf

/-- `ebml_at_element_end`: position reached the parent's end. -/
def ebml_at_element_end (pos : Nat) (parent : EbmlElem) : Bool :=
  pos ≥ parent.end_offset

/-- Stream position after a leaf handler followed by `ebml_skip_element`:
for a known size the skip seeks to `end_offset`; for an unknown size the
skip fails and the position stays where the handler's read left it. -/
def child_cont (f : Bytes) (e : EbmlElem) : Nat :=
  if e.is_unknown_size then
    (if e.size ≠ 0 ∧ e.data_offset + e.size ≤ f.length then
        e.data_offset + e.size
     else e.data_offset)
  else e.end_offset

/-!  ## Tags parsing (`mkv_tags.c`)

Each C `while (!ebml_at_element_end(...))` loop becomes a fuel-indexed
recursion; the fuel only bounds the iteration count (one unit per
header read), and every caller supplies at least the byte length of the
region being parsed, which the advancing position makes sufficient. -/

/-- The child loop of `parse_targets`. -/
def parse_targets_loop (f : Bytes) (elem : EbmlElem) :
    Nat → Tag → Nat → Tag × Nat
  | pos, acc, 0 => (acc, pos)
  | pos, acc, fuel + 1 =>
    if ebml_at_element_end pos elem then (acc, pos)
    else match ebml_read_element_header f pos with
      | .error _ => (acc, pos)
      | .ok child =>
        let acc :=
          if child.id = MKV_ID_TARGET_TYPE_VALUE then
            match ebml_read_uint f child with
            | .ok val => { acc with target_type := val }
            | .error _ => acc
          else if child.id = MKV_ID_TARGET_TYPE then
            match ebml_read_string_alloc f child with
            | .ok s => { acc with target_type_str := some s }
            | .error _ => acc
          else if child.id = MKV_ID_TAG_TRACK_UID then
            match ebml_read_uint f child with
            | .ok uid => { acc with track_uids := acc.track_uids ++ [uid] }
            | .error _ => acc
          else if child.id = MKV_ID_TAG_EDITION_UID then
            match ebml_read_uint f child with
            | .ok uid => { acc with edition_uids := acc.edition_uids ++ [uid] }
            | .error _ => acc
          else if child.id = MKV_ID_TAG_CHAPTER_UID then
            match ebml_read_uint f child with
            | .ok uid => { acc with chapter_uids := acc.chapter_uids ++ [uid] }
            | .error _ => acc
          else if child.id = MKV_ID_TAG_ATTACHMENT_UID then
            match ebml_read_uint f child with
            | .ok uid => { acc with attachment_uids := acc.attachment_uids ++ [uid] }
            | .error _ => acc
          else acc
        parse_targets_loop f elem (child_cont f child) acc fuel

/-- `parse_targets`: sets the default target type, then folds children. -/
def parse_targets (f : Bytes) (elem : EbmlElem) (tag : Tag) (fuel : Nat) :
    Tag × Nat :=
  parse_targets_loop f elem elem.data_offset
    { tag with target_type := MKVTAG_TARGET_ALBUM } fuel

/-- A freshly `calloc`ed simple tag with `is_default = 1`. -/
def emptySimpleTag : SimpleTag := .mk none none none none 1 []

/-- The child loop of `parse_simple_tag`.  NOTE nested SimpleTags are
PREPENDED to the accumulator, as in the source.  The nested recursive
call starts the child's own loop (the body of `parse_simple_tag`). -/
def parse_simple_tag_loop (f : Bytes) (elem : EbmlElem) :
    Nat → SimpleTag → Nat → SimpleTag × Nat
  | pos, acc, 0 => (acc, pos)
  | pos, acc, fuel + 1 =>
    if ebml_at_element_end pos elem then (acc, pos)
    else match ebml_read_element_header f pos with
      | .error _ => (acc, pos)
      | .ok child =>
        match acc with
        | .mk name value binary language is_default nested =>
          if child.id = MKV_ID_SIMPLE_TAG then
            let inner :=
              parse_simple_tag_loop f child child.data_offset emptySimpleTag fuel
            let cont := if child.is_unknown_size then inner.2 else child.end_offset
            parse_simple_tag_loop f elem cont
              (.mk name value binary language is_default (inner.1 :: nested)) fuel
          else
            let acc :=
              if child.id = MKV_ID_TAG_NAME then
                match ebml_read_string_alloc f child with
                | .ok s => SimpleTag.mk (some s) value binary language is_default nested
                | .error _ => acc
              else if child.id = MKV_ID_TAG_STRING then
                match ebml_read_string_alloc f child with
                | .ok s => SimpleTag.mk name (some s) binary language is_default nested
                | .error _ => acc
              else if child.id = MKV_ID_TAG_BINARY then
                match ebml_read_binary_alloc f child with
                | .ok b => SimpleTag.mk name value b language is_default nested
                | .error _ => acc
              else if child.id = MKV_ID_TAG_LANGUAGE ∨
                      child.id = MKV_ID_TAG_LANGUAGE_BCP47 then
                match ebml_read_string_alloc f child with
                | .ok s => SimpleTag.mk name value binary (some s) is_default nested
                | .error _ => acc
              else if child.id = MKV_ID_TAG_DEFAULT then
                match ebml_read_uint f child with
                | .ok val => SimpleTag.mk name value binary language val nested
                | .error _ => acc
              else acc
            parse_simple_tag_loop f elem (child_cont f child) acc fuel

/-- `parse_simple_tag`. -/
def parse_simple_tag (f : Bytes) (elem : EbmlElem) (fuel : Nat) :
    SimpleTag × Nat :=
  parse_simple_tag_loop f elem elem.data_offset emptySimpleTag fuel

/-- The child loop of `parse_tag`.  NOTE SimpleTags are PREPENDED. -/
def parse_tag_loop (f : Bytes) (elem : EbmlElem) :
    Nat → Tag → Nat → Tag × Nat
  | pos, acc, 0 => (acc, pos)
  | pos, acc, fuel + 1 =>
    if ebml_at_element_end pos elem then (acc, pos)
    else match ebml_read_element_header f pos with
      | .error _ => (acc, pos)
      | .ok child =>
        if child.id = MKV_ID_TARGETS then
          let inner := parse_targets f child acc fuel
          let cont := if child.is_unknown_size then inner.2 else child.end_offset
          parse_tag_loop f elem cont inner.1 fuel
        else if child.id = MKV_ID_SIMPLE_TAG then
          let inner := parse_simple_tag f child fuel
          let cont := if child.is_unknown_size then inner.2 else child.end_offset
          parse_tag_loop f elem cont
            { acc with simple_tags := inner.1 :: acc.simple_tags } fuel
        else
          parse_tag_loop f elem (child_cont f child) acc fuel

/-- A freshly `calloc`ed tag, with the `parse_tag` default target type. -/
def emptyTag : Tag :=
  { target_type := MKVTAG_TARGET_ALBUM, target_type_str := none,
    track_uids := [], edition_uids := [], chapter_uids := [],
    attachment_uids := [], simple_tags := [] }

/-- `parse_tag`. -/
def parse_tag (f : Bytes) (elem : EbmlElem) (fuel : Nat) : Tag × Nat :=
  parse_tag_loop f elem elem.data_offset emptyTag fuel

/-- The Tag loop of `mkv_tags_parse`: tags are APPENDED (order kept). -/
def parse_tags_loop (f : Bytes) (elem : EbmlElem) :
    Nat → List Tag → Nat → List Tag
  | _, acc, 0 => acc
  | pos, acc, fuel + 1 =>
    if ebml_at_element_end pos elem then acc
    else match ebml_read_element_header f pos with
      | .error _ => acc
      | .ok child =>
        if child.id = MKV_ID_TAG then
          let inner := parse_tag f child fuel
          let cont := if child.is_unknown_size then inner.2 else child.end_offset
          parse_tags_loop f elem cont (acc ++ [inner.1]) fuel
        else
          parse_tags_loop f elem (child_cont f child) acc fuel

/-- `mkv_tags_parse`: in the model the initial seek always succeeds, so
the result is always `ok` (the C loop breaks on child errors but still
returns the collection built so far). -/
def mkv_tags_parse (f : Bytes) (tags_element : EbmlElem) :
    Except Int Collection :=
  .ok ⟨parse_tags_loop f tags_element tags_element.data_offset [] (f.length + 1)⟩

/-!  ## String utilities (`string_util.c`)  -/

/-- C-locale `tolower` on a byte. -/
def c_tolower (c : Nat) : Nat :=
  if 65 ≤ c ∧ c ≤ 90 then c + 32 else c

/-- `str_casecmp` on byte strings; a list models the bytes up to the
NUL terminator, and an embedded 0 byte terminates comparison as in C. -/
def str_casecmp : Bytes → Bytes → Int
  | x :: xs, y :: ys =>
    if x ≠ 0 ∧ y ≠ 0 then
      let d : Int := (c_tolower x : Int) - (c_tolower y : Int)
      if d ≠ 0 then d else str_casecmp xs ys
    else (c_tolower x : Int) - (c_tolower y : Int)
  | x :: _, [] => (c_tolower x : Int)
  | [], y :: _ => -(c_tolower y : Int)
  | [], [] => 0

/-- `str_dup`: copies up to the NUL terminator. -/
def str_dup (s : Bytes) : Bytes := strlenB s

/-- `str_copy dst_size src`: returns the stored string and the C result
(`-1` when truncated, else the copied length). -/
def str_copy (src : Option Bytes) (dst_size : Nat) : Int × Bytes :=
  if dst_size = 0 then (-1, [])
  else match src with
    | none => (0, [])
    | some s =>
      let str := strlenB s
      if str.length ≥ dst_size then (-1, str.take (dst_size - 1))
      else ((str.length : Int), str)

/-!  ## Tag lookup (`mkvtag_read_tag_string`, search part)

The C search walks all tags and all top-level simple tags and returns
the first value whose name matches case-insensitively.  (The final
`str_copy` call in `mkvtag_read_tag_string` passes its arguments in an
order that does not match `str_copy`'s declaration; the search itself
is modelled here.) -/

/-- The inner simple-tag scan of `mkvtag_read_tag_string`. -/
def find_simple_value (name : Bytes) : List SimpleTag → Option Bytes
  | [] => none
  | st :: rest =>
    match st.name with
    | some n =>
      if str_casecmp n name = 0 then
        match st.value with
        | some v => some v
        | none => find_simple_value name rest
      else find_simple_value name rest
    | none => find_simple_value name rest

/-- The tag scan of `mkvtag_read_tag_string`. -/
def find_tag_value (name : Bytes) : List Tag → Option Bytes
  | [] => none
  | t :: rest =>
    match find_simple_value name t.simple_tags with
    | some v => some v
    | none => find_tag_value name rest

/-!  ## `mkvtag_set_tag_string`: the collection transformation
(lines 626-743 of `mkvtag.c`)  -/

/-- A simple tag as built by `mkvtag_tag_add_simple`: duplicated name and
value, no binary, no language, `is_default = 1`, no children. -/
def addedSimpleTag (name : Bytes) (value : Option Bytes) : SimpleTag :=
  .mk (some (str_dup name)) (value.map str_dup) none none 1 []

/-- The per-simple-tag copy loop of `mkvtag_set_tag_string`: on an
album-level tag a name match is replaced (or dropped when removing);
everything else is re-added via `mkvtag_tag_add_simple` (which keeps
only name, value and, when present, language). -/
def clone_simple_list (isAlbum : Bool) (name : Bytes) (value : Option Bytes) :
    List SimpleTag → List SimpleTag
  | [] => []
  | st :: rest =>
    if isAlbum ∧ st.name ≠ none ∧ str_casecmp (st.name.getD []) name = 0 then
      (match value with
       | none => clone_simple_list isAlbum name value rest
       | some v => addedSimpleTag name (some v) ::
           clone_simple_list isAlbum name value rest)
    else
      (SimpleTag.mk (some (str_dup (st.name.getD []))) (st.value.map str_dup)
         none (st.language.map str_dup) 1 []) ::
        clone_simple_list isAlbum name value rest

/-- The per-tag copy of `mkvtag_set_tag_string`: target type, target
type string and track UIDs are copied; the other three UID sequences
are not. -/
def clone_tag (name : Bytes) (value : Option Bytes) (src : Tag) : Tag :=
  { target_type := src.target_type,
    target_type_str := src.target_type_str.map str_dup,
    track_uids := src.track_uids,
    edition_uids := [], chapter_uids := [], attachment_uids := [],
    simple_tags :=
      clone_simple_list (src.target_type = MKVTAG_TARGET_ALBUM) name value
        src.simple_tags }

/-- The `found_anywhere` scan over the existing collection. -/
def found_anywhere (ex : Collection) (name : Bytes) : Bool :=
  ex.tags.any (fun t =>
    t.target_type = MKVTAG_TARGET_ALBUM ∧
      t.simple_tags.any (fun s =>
        s.name ≠ none ∧ str_casecmp (s.name.getD []) name = 0))

/-- A tag as built by `mkvtag_collection_add_tag`. -/
def addedTag (target : Nat) : Tag :=
  { target_type := target, target_type_str := none, track_uids := [],
    edition_uids := [], chapter_uids := [], attachment_uids := [],
    simple_tags := [] }

/-- Append a simple tag to the first album-level tag of the working
collection, creating one at the end when none exists. -/
def add_simple_first_album (st : SimpleTag) : List Tag → List Tag
  | [] => [{ addedTag MKVTAG_TARGET_ALBUM with simple_tags := [st] }]
  | t :: rest =>
    if t.target_type = MKVTAG_TARGET_ALBUM then
      { t with simple_tags := t.simple_tags ++ [st] } :: rest
    else t :: add_simple_first_album st rest

/-- The working collection `mkvtag_set_tag_string` builds before the
planner write: copy of the existing collection with the album-level
matches replaced/removed, plus (when setting and no album-level match
existed) the new simple tag in the first album-level tag. -/
def set_tag_transform (existing : Option Collection) (name : Bytes)
    (value : Option Bytes) : Collection :=
  match existing with
  | some ex =>
    let copied := ex.tags.map (clone_tag name value)
    (match value with
     | none => ⟨copied⟩
     | some v =>
       if found_anywhere ex name then ⟨copied⟩
       else ⟨add_simple_first_album (addedSimpleTag name (some v)) copied⟩)
  | none =>
    (match value with
     | none => ⟨[]⟩
     | some v =>
       ⟨[{ addedTag MKVTAG_TARGET_ALBUM with
            simple_tags := [addedSimpleTag name (some v)] }]⟩)

/-!  ## File model and context state

The `tag_common` file layer is modelled from the spec (§4.A): a file is
its byte list; `seek` to a non-negative offset succeeds; `write`
overwrites in place and extends the file when the write passes the end;
`flush`/`sync` always succeed.  Allocation failures are not modelled.
Each C function seeks before reading or writing, so the model passes
absolute positions instead of a stream position. -/

/-- `file_write` at an absolute position (extending past end of file). -/
def file_write_at (f : Bytes) (pos : Nat) (d : Bytes) : Bytes :=
  let base := if pos ≤ f.length then f else f ++ List.replicate (pos - f.length) 0
  base.take pos ++ d ++ base.drop (pos + d.length)

/-- The `mkv_file_t` fields the write path uses (offsets are `int64_t`,
`-1` meaning absent). -/
structure MkvFileRec where
  segment_offset : Int
  segment_data_offset : Int
  segment_size : Nat
  segment_unknown_size : Bool
  seekhead_offset : Int
  tags_offset : Int
  void_offset : Int
  void_size : Nat

/-- `mkvtag_context_t`. -/
structure Ctx where
  file : Bytes
  mkv : MkvFileRec
  is_open : Bool
  is_writable : Bool
  cached_tags : Option Collection

/-!  ## SeekHead update (`mkv_seekhead.c`)  -/

/-- The Seek-children loop of `mkv_seekhead_update_tags`: collects the
(4-byte-truncated) SeekID and the SeekPosition content location. -/
def seekhead_entry_loop (f : Bytes) (seek_elem : EbmlElem) :
    Nat → Nat → Option (Nat × Nat) → Nat → Nat × Option (Nat × Nat) × Nat
  | pos, sid, pd, 0 => (sid, pd, pos)
  | pos, sid, pd, fuel + 1 =>
    if ebml_at_element_end pos seek_elem then (sid, pd, pos)
    else match ebml_read_element_header f pos with
      | .error _ => (sid, pd, pos)
      | .ok child =>
        if child.id = MKV_ID_SEEK_ID then
          let to_read := min child.size 4
          let res := file_read_exact f child.data_offset to_read
          let sid2 := match res with
            | .ok buf =>
              if to_read > 0 then buf.foldl (fun a b => a * 256 + b) 0 else sid
            | .error _ => sid
          let cont := if child.is_unknown_size then
              (match res with
               | .ok _ => child.data_offset + to_read
               | .error _ => child.data_offset)
            else child.end_offset
          seekhead_entry_loop f seek_elem cont sid2 pd fuel
        else if child.id = MKV_ID_SEEK_POSITION then
          let cont := if child.is_unknown_size then child.data_offset
            else child.end_offset
          seekhead_entry_loop f seek_elem cont sid
            (some (child.data_offset, child.size)) fuel
        else
          seekhead_entry_loop f seek_elem (child_cont f child) sid pd fuel

/-- The Seek-entries loop of `mkv_seekhead_update_tags`: the first Seek
whose SeekID is the Tags ID gets its SeekPosition content overwritten
in place (same width, big-endian); a value that does not fit the width
is silently skipped. -/
def seekhead_scan_loop (f : Bytes) (sh : EbmlElem) (new_pos : Nat) :
    Nat → Nat → Int × Bytes
  | _, 0 => (MKVTAG_OK, f)
  | pos, fuel + 1 =>
    if ebml_at_element_end pos sh then (MKVTAG_OK, f)
    else match ebml_read_element_header f pos with
      | .error _ => (MKVTAG_OK, f)
      | .ok seek_elem =>
        if seek_elem.id ≠ MKV_ID_SEEK then
          seekhead_scan_loop f sh new_pos (child_cont f seek_elem) fuel
        else
          match seekhead_entry_loop f seek_elem seek_elem.data_offset 0 none fuel with
          | (sid, pd, fin) =>
            match pd with
            | some (pos_off, pos_size) =>
              if sid = MKV_ID_TAGS ∧ pos_size > 0 then
                (if new_pos ≥ 256 ^ pos_size then (MKVTAG_OK, f)
                 else (MKVTAG_OK,
                   file_write_at f pos_off (bigEndianBytes new_pos pos_size)))
              else seekhead_scan_loop f sh new_pos fin fuel
            | none => seekhead_scan_loop f sh new_pos fin fuel

/-- `mkv_seekhead_update_tags`: no SeekHead, an unreadable SeekHead
header or a missing Tags entry are silent successes. -/
def mkv_seekhead_update_tags (mkv : MkvFileRec) (f : Bytes)
    (tags_offset : Int) : Int × Bytes :=
  if mkv.seekhead_offset < 0 then (MKVTAG_OK, f)
  else match ebml_read_element_header f mkv.seekhead_offset.toNat with
    | .error _ => (MKVTAG_OK, f)
    | .ok sh =>
      if sh.id ≠ MKV_ID_SEEKHEAD then (MKVTAG_OK, f)
      else
        let new_pos := ((tags_offset - mkv.segment_data_offset) % (2 ^ 64 : Int)).toNat
        seekhead_scan_loop f sh new_pos sh.data_offset (f.length + 1)

/-!  ## Placement planner (`mkvtag.c`, lines 288-604)  -/

/-- `write_tags_at`: serialize, bail out with `NoSpace` when the buffer
exceeds the slot, else write the Tags bytes and fill the remainder with
a Void (or one zero byte for a 1-byte remainder). -/
def write_tags_at (f : Bytes) (offset : Nat) (available_space : Nat)
    (tags : Collection) : Int × Bytes :=
  match mkv_tags_serialize tags with
  | .error e => (e, f)
  | .ok content =>
    match ebml_write_master_element_header MKV_ID_TAGS content.length with
    | .error e => (e, f)
    | .ok hdr =>
      let tags_buf := hdr ++ content
      if tags_buf.length > available_space then (MKVTAG_ERR_NO_SPACE, f)
      else
        let f1 := file_write_at f offset tags_buf
        let remaining := available_space - tags_buf.length
        if remaining ≥ 2 then
          match ebml_write_void_element remaining with
          | .error e => (e, f1)
          | .ok void_buf =>
            (MKVTAG_OK, file_write_at f1 (offset + tags_buf.length) void_buf)
        else if remaining = 1 then
          (MKVTAG_OK, file_write_at f1 (offset + tags_buf.length) [0])
        else (MKVTAG_OK, f1)

/-- `try_replace_existing_tags` (Strategy 1): slot is the existing Tags
span plus an immediately following Void; `tags_offset` is unchanged. -/
def try_replace_existing_tags (ctx : Ctx) (tags : Collection) : Int × Ctx :=
  if ctx.mkv.tags_offset < 0 then (MKVTAG_ERR_NO_TAGS, ctx)
  else
    let toff := ctx.mkv.tags_offset.toNat
    match ebml_read_element_header ctx.file toff with
    | .error e => (e, ctx)
    | .ok existing =>
      let base := existing.end_offset - toff
      let available :=
        match ebml_read_element_header ctx.file existing.end_offset with
        | .ok next =>
          if next.id = EBML_ID_VOID then
            base + (next.end_offset - existing.end_offset)
          else base
        | .error _ => base
      let wr := write_tags_at ctx.file toff available tags
      if wr.1 = MKVTAG_OK then
        let upd := mkv_seekhead_update_tags ctx.mkv wr.2 ctx.mkv.tags_offset
        (MKVTAG_OK, { ctx with file := upd.2 })
      else (wr.1, { ctx with file := wr.2 })

/-- `try_replace_void` (Strategy 2): write into the largest Void. -/
def try_replace_void (ctx : Ctx) (tags : Collection) : Int × Ctx :=
  if ctx.mkv.void_offset < 0 ∨ ctx.mkv.void_size = 0 then
    (MKVTAG_ERR_NO_SPACE, ctx)
  else
    let wr := write_tags_at ctx.file ctx.mkv.void_offset.toNat
      ctx.mkv.void_size tags
    if wr.1 = MKVTAG_OK then
      let mkv2 := { ctx.mkv with tags_offset := ctx.mkv.void_offset }
      let upd := mkv_seekhead_update_tags mkv2 wr.2 mkv2.tags_offset
      (MKVTAG_OK, { ctx with file := upd.2, mkv := mkv2 })
    else (wr.1, { ctx with file := wr.2 })

/-- `try_append_tags` (Strategy 3): append at the Segment content end,
patching the Segment size VINT in place (same width, else `NoSpace`),
then Void-out the old Tags and update SeekHead. -/
def try_append_tags (ctx : Ctx) (tags : Collection) : Int × Ctx :=
  let segment_content_end : Int :=
    if ctx.mkv.segment_unknown_size then (ctx.file.length : Int)
    else ctx.mkv.segment_data_offset + (ctx.mkv.segment_size : Int)
  match mkv_tags_serialize tags with
  | .error e => (e, ctx)
  | .ok content =>
    match ebml_write_master_element_header MKV_ID_TAGS content.length with
    | .error e => (e, ctx)
    | .ok hdr =>
      let tags_buf := hdr ++ content
      let patched : Int × Ctx :=
        if ¬ctx.mkv.segment_unknown_size then
          let new_segment_size := ctx.mkv.segment_size + tags_buf.length
          let size_offset := ctx.mkv.segment_offset + (ebml_id_size MKV_ID_SEGMENT : Int)
          match file_read_exact ctx.file size_offset.toNat 1 with
          | .error e => (e, ctx)
          | .ok fb =>
            let current_size_len := ebml_vint_length (fb.headD 0)
            match ebml_vint_encode_fixed new_segment_size current_size_len with
            | .error _ => (MKVTAG_ERR_NO_SPACE, ctx)
            | .ok new_size_bytes =>
              (MKVTAG_OK,
               { ctx with
                  file := file_write_at ctx.file size_offset.toNat new_size_bytes,
                  mkv := { ctx.mkv with segment_size := new_segment_size } })
        else (MKVTAG_OK, ctx)
      if patched.1 ≠ MKVTAG_OK then patched
      else
        let c1 := patched.2
        let new_tags_offset := segment_content_end
        let f2 := file_write_at c1.file segment_content_end.toNat tags_buf
        let f3 :=
          if c1.mkv.tags_offset ≥ 0 then
            match ebml_read_element_header f2 c1.mkv.tags_offset.toNat with
            | .ok old_tags =>
              let old_total := old_tags.end_offset - c1.mkv.tags_offset.toNat
              if old_total ≥ 2 then
                match ebml_write_void_element old_total with
                | .ok void_buf => file_write_at f2 c1.mkv.tags_offset.toNat void_buf
                | .error _ => f2
              else f2
            | .error _ => f2
          else f2
        let mkv2 := { c1.mkv with tags_offset := new_tags_offset }
        let upd := mkv_seekhead_update_tags mkv2 f3 new_tags_offset
        (MKVTAG_OK, { c1 with file := upd.2, mkv := mkv2 })

/-- `mkvtag_write_tags`: the three strategies in order; a success ends
with `file_sync` (which the model never fails).  NOTE any failure of
Strategy 1 or 2 — not only `NoSpace` — falls through to the next
strategy, and the state they changed is kept. -/
def mkvtag_write_tags (ctx : Ctx) (tags : Collection) : Int × Ctx :=
  if ¬ctx.is_open then (MKVTAG_ERR_NOT_OPEN, ctx)
  else if ¬ctx.is_writable then (MKVTAG_ERR_READ_ONLY, ctx)
  else
    let ctx0 := { ctx with cached_tags := none }
    let afterS1 : Int × Ctx :=
      if ctx0.mkv.tags_offset ≥ 0 then try_replace_existing_tags ctx0 tags
      else (MKVTAG_ERR_NO_TAGS, ctx0)
    if ctx0.mkv.tags_offset ≥ 0 ∧ afterS1.1 = MKVTAG_OK then (MKVTAG_OK, afterS1.2)
    else
      let c1 := afterS1.2
      let s2 := try_replace_void c1 tags
      if s2.1 = MKVTAG_OK then (MKVTAG_OK, s2.2)
      else try_append_tags s2.2 tags

/-- `mkvtag_read_tags`: cached collection, else parse the Tags element
at the recorded offset. -/
def mkvtag_read_tags (ctx : Ctx) : Int × Ctx × Option Collection :=
  if ¬ctx.is_open then (MKVTAG_ERR_NOT_OPEN, ctx, none)
  else match ctx.cached_tags with
    | some c => (MKVTAG_OK, ctx, some c)
    | none =>
      if ctx.mkv.tags_offset < 0 then (MKVTAG_ERR_NO_TAGS, ctx, none)
      else match ebml_read_element_header ctx.file ctx.mkv.tags_offset.toNat with
        | .error e => (e, ctx, none)
        | .ok tags_element =>
          if tags_element.id ≠ MKV_ID_TAGS then (MKVTAG_ERR_CORRUPT, ctx, none)
          else match mkv_tags_parse ctx.file tags_element with
            | .error e => (e, ctx, none)
            | .ok coll =>
              (MKVTAG_OK, { ctx with cached_tags := some coll }, some coll)

/-- `mkvtag_set_tag_string`: read (or start empty), build the working
collection, commit through the planner, return the planner's result. -/
def mkvtag_set_tag_string (ctx : Ctx) (name : Bytes) (value : Option Bytes) :
    Int × Ctx :=
  if ¬ctx.is_open then (MKVTAG_ERR_NOT_OPEN, ctx)
  else if ¬ctx.is_writable then (MKVTAG_ERR_READ_ONLY, ctx)
  else
    let rd := mkvtag_read_tags ctx
    let working :=
      if rd.1 = MKVTAG_OK ∧ rd.2.2.isSome then set_tag_transform rd.2.2 name value
      else set_tag_transform none name value
    mkvtag_write_tags rd.2.1 working

/-- `mkvtag_remove_tag`: exactly `mkvtag_set_tag_string(name, NULL)`. -/
def mkvtag_remove_tag (ctx : Ctx) (name : Bytes) : Int × Ctx :=
  mkvtag_set_tag_string ctx name none

/-- The search part of `mkvtag_read_tag_string` (lines 251-282): read
the collection and return the first case-insensitive match's value. -/
def mkvtag_read_tag_string_found (ctx : Ctx) (name : Bytes) :
    Int × Option Bytes :=
  let rd := mkvtag_read_tags ctx
  if rd.1 ≠ MKVTAG_OK then (rd.1, none)
  else match rd.2.2 with
    | none => (MKVTAG_ERR_TAG_NOT_FOUND, none)
    | some coll =>
      match find_tag_value name coll.tags with
      | some v => (MKVTAG_OK, some v)
      | none => (MKVTAG_ERR_TAG_NOT_FOUND, none)

/-!  ## Auxiliary definitions for the specification statements  -/

mutual

/-- Recursively reverse every simple-tag list (the order `mkv_tags_parse`
actually produces, since `parse_tag`/`parse_simple_tag` prepend). -/
def revSimpleTag : SimpleTag → SimpleTag
  | .mk name value binary language is_default nested =>
    .mk name value binary language is_default (revSimpleTagList nested).reverse

def revSimpleTagList : List SimpleTag → List SimpleTag
  | [] => []
  | st :: rest => revSimpleTag st :: revSimpleTagList rest

end

/-- A tag with its simple-tag list (recursively) reversed. -/
def revTag (t : Tag) : Tag :=
  { t with simple_tags := (revSimpleTagList t.simple_tags).reverse }

/-- A collection with every simple-tag list (recursively) reversed. -/
def revCollection (c : Collection) : Collection :=
  ⟨c.tags.map revTag⟩

/-- Well-formed C string content: no NUL bytes, all below 256. -/
def wfStr (s : Bytes) : Prop := ∀ b ∈ s, 0 < b ∧ b < 256

/-- Well-formed binary payload: non-empty, bytes below 256. -/
def wfBin (s : Bytes) : Prop := s ≠ [] ∧ ∀ b ∈ s, b < 256

mutual

/-- Well-formedness of a simple tag for the round-trip statements:
strings NUL-free, binary non-empty, `is_default` boolean. -/
def wfSimpleTag : SimpleTag → Prop
  | .mk name value binary language is_default nested =>
    (∀ s, name = some s → wfStr s) ∧
    (∀ s, value = some s → wfStr s) ∧
    (∀ s, binary = some s → wfBin s) ∧
    (∀ s, language = some s → wfStr s) ∧
    is_default ≤ 1 ∧ wfSimpleTagList nested

def wfSimpleTagList : List SimpleTag → Prop
  | [] => True
  | st :: rest => wfSimpleTag st ∧ wfSimpleTagList rest

end

/-- Well-formedness of a tag: bounded target type and UIDs, NUL-free
target type string, well-formed simple tags. -/
def wfTag (t : Tag) : Prop :=
  t.target_type < 2 ^ 64 ∧
  (∀ s, t.target_type_str = some s → wfStr s) ∧
  (∀ u ∈ t.track_uids, u < 2 ^ 64) ∧
  (∀ u ∈ t.edition_uids, u < 2 ^ 64) ∧
  (∀ u ∈ t.chapter_uids, u < 2 ^ 64) ∧
  (∀ u ∈ t.attachment_uids, u < 2 ^ 64) ∧
  wfSimpleTagList t.simple_tags

/-- Well-formedness of a collection. -/
def wfCollection (c : Collection) : Prop :=
  ∀ t ∈ c.tags, wfTag t

/-- The byte string `ebml_vint_encode` produces for an encodable value:
minimal width, marker bit OR'd into the leading byte. -/
def vintBytes (v : Nat) : Bytes :=
  (v / 256 ^ (ebml_vint_size v - 1) ||| 2 ^ (8 - ebml_vint_size v)) ::
    bigEndianBytes v (ebml_vint_size v - 1)

/-- A complete serialized element: ID bytes, size VINT, content. -/
def elemBytes (id : Nat) (content : Bytes) : Bytes :=
  bigEndianBytes id (idByteLen id) ++ vintBytes content.length ++ content

/-- The bytes of one serialized uint element. -/
def uintElemBytes (id u : Nat) : Bytes :=
  elemBytes id (bigEndianBytes u (max (uint_data_size u) 1))

/-- The bytes of a serialized UID sequence. -/
def uidsBytes (id : Nat) (uids : List Nat) : Bytes :=
  (uids.map (uintElemBytes id)).flatten

/-- The string chunk an optional string field serializes to. -/
def optStrBytes (id : Nat) : Option Bytes → Bytes
  | some s => elemBytes id (strlenB s)
  | none => []

/-- The binary chunk bytes. -/
def optBinBytes : Option Bytes → Bytes
  | some b => if b.length > 0 then elemBytes MKV_ID_TAG_BINARY b else []
  | none => []

/-- The TagDefault chunk bytes (written only for a false flag). -/
def defaultBytes (d : Nat) : Bytes :=
  if d = 0 then uintElemBytes MKV_ID_TAG_DEFAULT 0 else []

mutual

/-- Structural size of a simple tag, for the round-trip induction. -/
def sizeST : SimpleTag → Nat
  | .mk _ _ _ _ _ ns => 1 + sizeSTL ns

def sizeSTL : List SimpleTag → Nat
  | [] => 0
  | st :: rest => 1 + sizeST st + sizeSTL rest

end

/-- The minimum byte count preserving a two's-complement `int64` value
(the width §4.D says `ebml_write_int_element` uses). -/
def twosComplementMinBytes (v : Int) : Nat :=
  if -128 ≤ v ∧ v ≤ 127 then 1
  else if -32768 ≤ v ∧ v ≤ 32767 then 2
  else if -8388608 ≤ v ∧ v ≤ 8388607 then 3
  else if -2147483648 ≤ v ∧ v ≤ 2147483647 then 4
  else if -(2 ^ 39 : Int) ≤ v ∧ v ≤ 2 ^ 39 - 1 then 5
  else if -(2 ^ 47 : Int) ≤ v ∧ v ≤ 2 ^ 47 - 1 then 6
  else if -(2 ^ 55 : Int) ≤ v ∧ v ≤ 2 ^ 55 - 1 then 7
  else 8

/-!  ## Concrete fixtures for counterexamples and witnesses  -/

/-- A simple tag named "A" with value "X". -/
def exSimpleA : SimpleTag := .mk (some [65]) (some [88]) none none 1 []

/-- A simple tag named "B" with value "Y". -/
def exSimpleB : SimpleTag := .mk (some [66]) (some [89]) none none 1 []

/-- One album tag holding "A" then "B", in that order. -/
def exTag : Tag :=
  { target_type := 50, target_type_str := none, track_uids := [],
    edition_uids := [], chapter_uids := [], attachment_uids := [],
    simple_tags := [exSimpleA, exSimpleB] }

/-- The example collection. -/
def exColl : Collection := ⟨[exTag]⟩

/-- The bytes `mkv_tags_serialize` produces for the example collection. -/
def exBytes : Bytes :=
  match mkv_tags_serialize exColl with
  | .ok w => w
  | .error _ => []

/-- A Tags element descriptor covering exactly `exBytes`. -/
def exTagsElem : EbmlElem :=
  { id := MKV_ID_TAGS, size := exBytes.length, data_offset := 0,
    end_offset := exBytes.length, size_length := 1, id_length := 4,
    is_unknown_size := false }

/-- The shape `mkvtag_tag_add_simple` gives every re-added simple tag in
the `mkvtag_set_tag_string` copy: name, value and language are kept
(duplicated); binary, the default flag and the nested children are not. -/
def stripSimpleTag (st : SimpleTag) : SimpleTag :=
  .mk (some (str_dup (st.name.getD []))) (st.value.map str_dup)
    none (st.language.map str_dup) 1 []

/-- A source tag exercising every field `mkvtag_set_tag_string` drops:
non-track UIDs, a binary payload, a false default flag and a nested
simple tag. -/
def c8SrcTag : Tag :=
  { target_type := 50, target_type_str := some [80], track_uids := [1],
    edition_uids := [7], chapter_uids := [8], attachment_uids := [9],
    simple_tags := [.mk (some [84]) (some [86]) (some [5])
      (some [101, 110, 103]) 0 [.mk (some [78]) none none none 1 []]] }

/-- A hand-written Tags content region: one Tag whose children are, in
file order, Targets, a SimpleTag named "A" (0x41), then a SimpleTag
named "B" (0x42). -/
def exFileBytes : Bytes :=
  [0x73, 0x73, 0x9D,
   0x63, 0xC0, 0x84, 0x68, 0xCA, 0x81, 50,
   0x67, 0xC8, 0x88, 0x45, 0xA3, 0x81, 65, 0x44, 0x87, 0x81, 88,
   0x67, 0xC8, 0x88, 0x45, 0xA3, 0x81, 66, 0x44, 0x87, 0x81, 89]

/-- A Tags element descriptor covering exactly `exFileBytes`. -/
def exFileElem : EbmlElem :=
  { id := MKV_ID_TAGS, size := 32, data_offset := 0, end_offset := 32,
    size_length := 1, id_length := 4, is_unknown_size := false }

/-- A context whose recorded Tags offset points at a `0x00` byte (an
invalid VINT marker), with a usable Void slot for Strategy 2 and no
SeekHead. -/
def c6Ctx : Ctx :=
  { file := List.replicate 32 0,
    mkv := { segment_offset := 0, segment_data_offset := 0,
             segment_size := 0, segment_unknown_size := true,
             seekhead_offset := -1, tags_offset := 0,
             void_offset := 8, void_size := 16 },
    is_open := true, is_writable := true, cached_tags := none }

/-- A context whose file is exactly an empty Tags element (5 bytes)
followed by an empty Void element (2 bytes), Tags offset 0, no
SeekHead. -/
def c9Ctx : Ctx :=
  { file := [0x12, 0x54, 0xC3, 0x67, 0x80, 0xEC, 0x80],
    mkv := { segment_offset := 0, segment_data_offset := 0,
             segment_size := 7, segment_unknown_size := false,
             seekhead_offset := -1, tags_offset := 0,
             void_offset := -1, void_size := 0 },
    is_open := true, is_writable := true, cached_tags := none }

/-- A minimal well-formed file: a Segment (4-byte ID, 1-byte size VINT
`0x87`) holding an empty Tags element and an empty Void element. -/
def c1Ctx : Ctx :=
  { file := [0x18, 0x53, 0x80, 0x67, 0x87,
             0x12, 0x54, 0xC3, 0x67, 0x80, 0xEC, 0x80],
    mkv := { segment_offset := 0, segment_data_offset := 5,
             segment_size := 7, segment_unknown_size := false,
             seekhead_offset := -1, tags_offset := 5,
             void_offset := -1, void_size := 0 },
    is_open := true, is_writable := true, cached_tags := none }

/-!
# Theorems
-/

/-!  ## Byte-level lemmas  -/

theorem bigEndianBytes_length (v n : Nat) : (bigEndianBytes v n).length = n := by
  simp [bigEndianBytes]

theorem bigEndianBytes_succ (v n : Nat) :
    bigEndianBytes v (n + 1) = (v / 256 ^ n % 256) :: bigEndianBytes v n := by
  simp only [bigEndianBytes, List.range_succ_eq_map, List.map_cons, List.map_map]
  congr 1
  apply List.map_congr_left
  intro a _
  simp only [Function.comp_apply]
  have h : n + 1 - 1 - Nat.succ a = n - 1 - a := by omega
  rw [h]

theorem foldl_bigEndianBytes (v n : Nat) :
    ∀ a, (bigEndianBytes v n).foldl (fun acc b => acc * 256 + b) a
      = a * 256 ^ n + v % 256 ^ n := by
  induction n with
  | zero => intro a; simp [bigEndianBytes, Nat.mod_one]
  | succ n ih =>
    intro a
    rw [bigEndianBytes_succ, List.foldl_cons, ih]
    have h256 : (256 : Nat) ^ (n + 1) = 256 ^ n * 256 := by ring
    have hmod : v % 256 ^ (n + 1) = v % 256 ^ n + 256 ^ n * (v / 256 ^ n % 256) := by
      rw [h256, Nat.mod_mul]
    rw [hmod]
    ring

theorem testBit_true_of_range {b k : Nat} (h1 : 2 ^ k ≤ b) (h2 : b < 2 ^ (k + 1)) :
    b.testBit k = true := by
  rw [Nat.testBit_to_div_mod]
  have hdiv : b / 2 ^ k = 1 := by
    apply Nat.div_eq_of_lt_le
    · simpa using h1
    · rw [pow_succ] at h2
      omega
  rw [hdiv]
  decide

theorem and_two_pow_ne_zero {b k : Nat} (h1 : 2 ^ k ≤ b) (h2 : b < 2 ^ (k + 1)) :
    b &&& 2 ^ k ≠ 0 := by
  rw [Nat.and_two_pow, testBit_true_of_range h1 h2]
  simp only [Bool.toNat_true, one_mul]
  positivity

theorem and_two_pow_eq_zero {b k : Nat} (h : b < 2 ^ k) : b &&& 2 ^ k = 0 := by
  rw [Nat.and_two_pow, Nat.testBit_eq_false_of_lt h]
  simp

theorem vint_length_of_range {n b : Nat} (h1 : 1 ≤ n) (h2 : n ≤ 8)
    (hl : 2 ^ (8 - n) ≤ b) (hu : b < 2 ^ (9 - n)) : ebml_vint_length b = n := by
  have hz : ∀ k : Nat, b < 2 ^ k → b &&& 2 ^ k = 0 := fun _ hk => and_two_pow_eq_zero hk
  have hnz : ∀ k : Nat, 2 ^ k ≤ b → b < 2 ^ (k + 1) → b &&& 2 ^ k ≠ 0 :=
    fun _ ha hb => and_two_pow_ne_zero ha hb
  interval_cases n
  · have e7 : b &&& 128 ≠ 0 := hnz 7 hl hu
    simp [ebml_vint_length, e7]
  · have e7 : b &&& 128 = 0 := hz 7 hu
    have e6 : b &&& 64 ≠ 0 := hnz 6 hl hu
    simp [ebml_vint_length, e7, e6]
  · have e7 : b &&& 128 = 0 := hz 7 (by have : b < 64 := hu; omega)
    have e6 : b &&& 64 = 0 := hz 6 hu
    have e5 : b &&& 32 ≠ 0 := hnz 5 hl hu
    simp [ebml_vint_length, e7, e6, e5]
  · have hu0 : b < 32 := hu
    have e7 : b &&& 128 = 0 := hz 7 (by omega)
    have e6 : b &&& 64 = 0 := hz 6 (by omega)
    have e5 : b &&& 32 = 0 := hz 5 hu
    have e4 : b &&& 16 ≠ 0 := hnz 4 hl hu
    simp [ebml_vint_length, e7, e6, e5, e4]
  · have hu0 : b < 16 := hu
    have e7 : b &&& 128 = 0 := hz 7 (by omega)
    have e6 : b &&& 64 = 0 := hz 6 (by omega)
    have e5 : b &&& 32 = 0 := hz 5 (by omega)
    have e4 : b &&& 16 = 0 := hz 4 hu
    have e3 : b &&& 8 ≠ 0 := hnz 3 hl hu
    simp [ebml_vint_length, e7, e6, e5, e4, e3]
  · have hu0 : b < 8 := hu
    have e7 : b &&& 128 = 0 := hz 7 (by omega)
    have e6 : b &&& 64 = 0 := hz 6 (by omega)
    have e5 : b &&& 32 = 0 := hz 5 (by omega)
    have e4 : b &&& 16 = 0 := hz 4 (by omega)
    have e3 : b &&& 8 = 0 := hz 3 hu
    have e2 : b &&& 4 ≠ 0 := hnz 2 hl hu
    simp [ebml_vint_length, e7, e6, e5, e4, e3, e2]
  · have hu0 : b < 4 := hu
    have e7 : b &&& 128 = 0 := hz 7 (by omega)
    have e6 : b &&& 64 = 0 := hz 6 (by omega)
    have e5 : b &&& 32 = 0 := hz 5 (by omega)
    have e4 : b &&& 16 = 0 := hz 4 (by omega)
    have e3 : b &&& 8 = 0 := hz 3 (by omega)
    have e2 : b &&& 4 = 0 := hz 2 hu
    have e1 : b &&& 2 ≠ 0 := hnz 1 hl hu
    simp [ebml_vint_length, e7, e6, e5, e4, e3, e2, e1]
  · have hu0 : b < 2 := hu
    have e7 : b &&& 128 = 0 := hz 7 (by omega)
    have e6 : b &&& 64 = 0 := hz 6 (by omega)
    have e5 : b &&& 32 = 0 := hz 5 (by omega)
    have e4 : b &&& 16 = 0 := hz 4 (by omega)
    have e3 : b &&& 8 = 0 := hz 3 (by omega)
    have e2 : b &&& 4 = 0 := hz 2 (by omega)
    have e1 : b &&& 2 = 0 := hz 1 hu
    have e0 : b &&& 1 ≠ 0 := hnz 0 hl hu
    simp [ebml_vint_length, e7, e6, e5, e4, e3, e2, e1, e0]
    omega

theorem two_pow_le_or (b0 m : Nat) : 2 ^ m ≤ b0 ||| 2 ^ m := by
  by_contra h
  push_neg at h
  have hb := Nat.testBit_eq_false_of_lt h
  rw [Nat.testBit_or] at hb
  simp [Nat.testBit_two_pow_self] at hb

theorem or_marker_masked {b0 m : Nat} (h : b0 < 2 ^ m) :
    (b0 ||| 2 ^ m) &&& (2 ^ m - 1) = b0 := by
  have h1 : (b0 ||| 2 ^ m) &&& (2 ^ m - 1)
      = (b0 &&& (2 ^ m - 1)) ||| (2 ^ m &&& (2 ^ m - 1)) := by
    rw [Nat.and_comm, Nat.and_or_distrib_left, Nat.and_comm (2 ^ m - 1) b0,
        Nat.and_comm (2 ^ m - 1) (2 ^ m)]
  rw [h1, Nat.and_pow_two_sub_one_eq_mod, Nat.and_pow_two_sub_one_eq_mod,
      Nat.mod_eq_of_lt h, Nat.mod_self]
  simp

theorem marker_shift (n : Nat) (h1 : 1 ≤ n) (h2 : n ≤ 8) :
    128 >>> (n - 1) = 2 ^ (8 - n) := by
  interval_cases n <;> decide

theorem mask_shift (n : Nat) (h1 : 1 ≤ n) (h2 : n ≤ 8) :
    255 >>> n = 2 ^ (8 - n) - 1 := by
  interval_cases n <;> decide

theorem vint_size_pos {v : Nat} (hv : v ≤ 2 ^ 56 - 2) :
    1 ≤ ebml_vint_size v ∧ ebml_vint_size v ≤ 8 ∧
      v ≤ 2 ^ (7 * ebml_vint_size v) - 2 := by
  unfold ebml_vint_size EBML_VINT_MAX
  norm_num at hv ⊢
  split_ifs <;> omega

/-- The encoded bytes of a minimal-length VINT. -/
theorem vint_encode_fixed_ok {v n : Nat} (h1 : 1 ≤ n) (h2 : n ≤ 8)
    (hv : v ≤ 2 ^ (7 * n) - 2) :
    ebml_vint_encode_fixed v n =
      .ok ((v / 256 ^ (n - 1) ||| 2 ^ (8 - n)) :: bigEndianBytes v (n - 1)) := by
  have hm : ¬(n < 1 ∨ n > 8) := by omega
  have hle : ¬(v > EBML_VINT_MAX n) := by
    unfold EBML_VINT_MAX
    omega
  unfold ebml_vint_encode_fixed
  rw [if_neg hm, if_neg hle]
  obtain ⟨m, hn⟩ : ∃ m, n = m + 1 := ⟨n - 1, by omega⟩
  subst hn
  rw [bigEndianBytes_succ, marker_shift (m + 1) h1 h2]
  simp only [Nat.add_sub_cancel]
  have hpow : (256 : Nat) ^ m = 2 ^ (8 * m) := by
    rw [show (256 : Nat) = 2 ^ 8 from rfl, ← pow_mul]
  have hdivlt : v / 256 ^ m < 2 ^ (8 - (m + 1)) := by
    rw [hpow]
    apply Nat.div_lt_of_lt_mul
    rw [← pow_add]
    have he : 8 * m + (8 - (m + 1)) = 7 * (m + 1) := by omega
    rw [he]
    have hxp : 0 < (2 : Nat) ^ (7 * (m + 1)) := by positivity
    omega
  have hmod : v / 256 ^ m % 256 = v / 256 ^ m := by
    apply Nat.mod_eq_of_lt
    have h8 : (2 : Nat) ^ (8 - (m + 1)) ≤ 2 ^ 8 := Nat.pow_le_pow_right (by omega) (by omega)
    calc v / 256 ^ m < 2 ^ (8 - (m + 1)) := hdivlt
    _ ≤ 2 ^ 8 := h8
    _ = 256 := rfl
  rw [hmod]

/-- Decoding the minimal-length encoding recovers the value and width. -/
theorem vint_decode_encoded {v n : Nat} (h1 : 1 ≤ n) (h2 : n ≤ 8)
    (hv : v ≤ 2 ^ (7 * n) - 2) :
    ebml_vint_decode ((v / 256 ^ (n - 1) ||| 2 ^ (8 - n)) :: bigEndianBytes v (n - 1))
      = .ok (v, n) := by
  have hpow : (256 : Nat) ^ (n - 1) = 2 ^ (8 * (n - 1)) := by
    rw [show (256 : Nat) = 2 ^ 8 from rfl, ← pow_mul]
  have hdivlt : v / 256 ^ (n - 1) < 2 ^ (8 - n) := by
    rw [hpow]
    apply Nat.div_lt_of_lt_mul
    rw [← pow_add]
    have he : 8 * (n - 1) + (8 - n) = 7 * n := by omega
    rw [he]
    have hxp : 0 < (2 : Nat) ^ (7 * n) := by positivity
    omega
  set b0 := v / 256 ^ (n - 1) ||| 2 ^ (8 - n) with hb0
  have hlen : ebml_vint_length b0 = n := by
    apply vint_length_of_range h1 h2
    · exact two_pow_le_or _ _
    · apply Nat.or_lt_two_pow
      · calc v / 256 ^ (n - 1) < 2 ^ (8 - n) := hdivlt
        _ ≤ 2 ^ (9 - n) := Nat.pow_le_pow_right (by omega) (by omega)
      · exact Nat.pow_lt_pow_right (by omega) (by omega)
  unfold ebml_vint_decode
  simp only [hlen]
  have hl0 : ¬(n = 0) := by omega
  have hlistlen : (b0 :: bigEndianBytes v (n - 1)).length = n := by
    simp [bigEndianBytes_length]
    omega
  rw [if_neg hl0, hlistlen, if_neg (by omega : ¬ n < n)]
  have htake : (b0 :: bigEndianBytes v (n - 1)).take n = b0 :: bigEndianBytes v (n - 1) :=
    List.take_of_length_le (by omega)
  rw [htake]
  simp only [List.drop_succ_cons, List.drop_zero]
  rw [mask_shift n h1 h2, or_marker_masked hdivlt, foldl_bigEndianBytes]
  have hdm : v / 256 ^ (n - 1) * 256 ^ (n - 1) + v % 256 ^ (n - 1) = v := by
    rw [mul_comm]
    exact Nat.div_add_mod v (256 ^ (n - 1))
  rw [hdm]

/-!  ## C7: VINT encode/decode round-trip  -/

/-- C7: for every `v ∈ [0, 2^56 − 2]`, `ebml_vint_encode` succeeds and
`ebml_vint_decode` of the produced bytes returns `(v, ebml_vint_size v)`:
the decoded value is `v` and the bytes consumed are the minimal VINT
length of `v`. -/
theorem vint_encode_decode_roundtrip (v : Nat) (hv : v ≤ 2 ^ 56 - 2) :
    ∃ bs : Bytes, ebml_vint_encode v = .ok bs ∧
      ebml_vint_decode bs = .ok (v, ebml_vint_size v) := by
  obtain ⟨h1, h2, h3⟩ := vint_size_pos hv
  refine ⟨_, ?_, vint_decode_encoded h1 h2 h3⟩
  unfold ebml_vint_encode
  rw [if_neg (by omega)]
  exact vint_encode_fixed_ok h1 h2 h3

/-- Witness for C7 at `v = 300`. -/
theorem vint_encode_decode_roundtrip_witness :
    (300 : Nat) ≤ 2 ^ 56 - 2 ∧
      ∃ bs : Bytes, ebml_vint_encode 300 = .ok bs ∧
        ebml_vint_decode bs = .ok (300, ebml_vint_size 300) :=
  ⟨by norm_num, vint_encode_decode_roundtrip 300 (by norm_num)⟩

/-!  ## C5: signed integer element width  -/

theorem foldl_bigEndianBytes_int (v n : Nat) :
    ∀ a : Int, (bigEndianBytes v n).foldl
        (fun (acc : Int) (b : Nat) => acc * 256 + (b : Int)) a
      = a * 256 ^ n + ((v % 256 ^ n : Nat) : Int) := by
  induction n with
  | zero => intro a; simp [bigEndianBytes, Nat.mod_one]
  | succ n ih =>
    intro a
    rw [bigEndianBytes_succ, List.foldl_cons, ih]
    have hmod : v % 256 ^ (n + 1) = v % 256 ^ n + 256 ^ n * (v / 256 ^ n % 256) := by
      rw [show (256 : Nat) ^ (n + 1) = 256 ^ n * 256 from by ring, Nat.mod_mul]
    rw [hmod]
    push_cast
    ring

theorem and128_ne_zero_iff {h : Nat} (hh : h < 256) : (h &&& 128 ≠ 0) ↔ 128 ≤ h := by
  constructor
  · intro hne
    by_contra hlt
    push_neg at hlt
    exact hne (and_two_pow_eq_zero (k := 7) hlt)
  · intro hge
    exact and_two_pow_ne_zero (k := 7) hge hh

/-- Reading back an `n`-byte two's-complement big-endian content
recovers the value (the `ebml_read_int` sign extension). -/
theorem read_int_bigEndianBytes (v : Int) (n : Nat) (h1 : 1 ≤ n) (h2 : n ≤ 8)
    (hlo : -(2 ^ (8 * n - 1) : Int) ≤ v) (hhi : v < 2 ^ (8 * n - 1)) :
    ebml_read_int (bigEndianBytes (v % (2 ^ 64 : Int)).toNat n)
      { id := 0, size := n, data_offset := 0, end_offset := n,
        size_length := 0, id_length := 0, is_unknown_size := false } = .ok v := by
  set u : Nat := (v % (2 ^ 64 : Int)).toNat with hu
  obtain ⟨m, hn⟩ : ∃ m, n = m + 1 := ⟨n - 1, by omega⟩
  have huv : (u : Int) = v % 2 ^ 64 := by
    rw [hu]
    exact Int.toNat_of_nonneg (Int.emod_nonneg v (by positivity))
  have hpowN : ∀ k : Nat, (256 : Nat) ^ k = 2 ^ (8 * k) := by
    intro k
    rw [show (256 : Nat) = 2 ^ 8 from rfl, ← pow_mul]
  have hdvd : ((2 : Int) ^ (8 * n)) ∣ 2 ^ 64 := pow_dvd_pow 2 (by omega)
  have hmm : ((u % 2 ^ (8 * n) : Nat) : Int) = v % 2 ^ (8 * n) := by
    push_cast
    rw [huv]
    exact Int.emod_emod_of_dvd v hdvd
  have hML : (2 : Int) ^ (8 * n) = 2 * 2 ^ (8 * n - 1) := by
    rw [← pow_succ']
    congr 1
    omega
  have hMLn : (2 : Nat) ^ (8 * n) = 2 * 2 ^ (8 * n - 1) := by
    rw [← pow_succ']
    congr 1
    omega
  have hMpos : (0 : Int) < 2 ^ (8 * n - 1) := by positivity
  have hcastM : (((2 : Nat) ^ (8 * n - 1) : Nat) : Int) = 2 ^ (8 * n - 1) := by
    push_cast
    ring_nf
  have hcastL : (((2 : Nat) ^ (8 * n) : Nat) : Int) = 2 ^ (8 * n) := by
    push_cast
    ring_nf
  have hvmod : v % 2 ^ (8 * n) = if 0 ≤ v then v else v + 2 ^ (8 * n) := by
    split_ifs with hs
    · exact Int.emod_eq_of_lt hs (by omega)
    · push_neg at hs
      have h0 : (v + 2 ^ (8 * n) * 1) % 2 ^ (8 * n) = v % 2 ^ (8 * n) :=
        Int.add_mul_emod_self_left v (2 ^ (8 * n)) 1
      rw [mul_one] at h0
      rw [← h0]
      exact Int.emod_eq_of_lt (by omega) (by omega)
  -- the Nat remainder m'
  set mr : Nat := u % 2 ^ (8 * n) with hmr
  have hmrlt : mr < 2 ^ (8 * n) := Nat.mod_lt _ (by positivity)
  have hposCase : 0 ≤ v → (mr : Int) = v ∧ mr < 2 ^ (8 * n - 1) := by
    intro hs
    have h3 : (mr : Int) = v := by rw [hmr, hmm, hvmod, if_pos hs]
    refine ⟨h3, ?_⟩
    omega
  have hnegCase : v < 0 → (mr : Int) = v + 2 ^ (8 * n) ∧ 2 ^ (8 * n - 1) ≤ mr := by
    intro hs
    have h3 : (mr : Int) = v + 2 ^ (8 * n) := by
      rw [hmr, hmm, hvmod, if_neg (by omega)]
    refine ⟨h3, ?_⟩
    omega
  -- the head byte
  have hhead : u / 256 ^ m % 256 = mr / 2 ^ (8 * m) := by
    rw [hmr, ← Nat.mod_mul_right_div_self u (256 ^ m) 256, ← pow_succ, ← hn,
        hpowN n, hpowN m]
  have h128mul : (128 : Nat) * 2 ^ (8 * m) = 2 ^ (8 * n - 1) := by
    rw [show 8 * n - 1 = 7 + 8 * m from by omega, pow_add]
    norm_num
  have hheadPos : 0 ≤ v → u / 256 ^ m % 256 < 128 := by
    intro hs
    rw [hhead]
    apply Nat.div_lt_of_lt_mul
    rw [mul_comm, h128mul]
    exact (hposCase hs).2
  have hheadNeg : v < 0 → 128 ≤ u / 256 ^ m % 256 := by
    intro hs
    rw [hhead]
    rw [Nat.le_div_iff_mul_le (by positivity)]
    rw [h128mul]
    exact (hnegCase hs).2
  -- unfold the reader
  have hsz2 : ¬(n = 0) := by omega
  have hread : file_read_exact (bigEndianBytes u n) 0 n = .ok (bigEndianBytes u n) := by
    unfold file_read_exact
    rw [if_neg hsz2, if_pos (by rw [bigEndianBytes_length]; omega)]
    rw [List.drop_zero, List.take_of_length_le (by simp [bigEndianBytes_length])]
  have hheadD : (bigEndianBytes u n).headD 0 = u / 256 ^ m % 256 := by
    rw [hn, bigEndianBytes_succ]
    rfl
  unfold ebml_read_int
  rw [if_neg (by omega : ¬ n > 8), if_neg hsz2, hread]
  simp only [bind, Except.bind, pure, Except.pure]
  rw [hheadD]
  have hheadlt : u / 256 ^ m % 256 < 256 := Nat.mod_lt _ (by norm_num)
  rcases le_or_lt 0 v with hs | hs
  · -- nonnegative: high bit clear
    have hbit : ¬(u / 256 ^ m % 256 &&& 128 ≠ 0) := by
      rw [and128_ne_zero_iff hheadlt]
      have := hheadPos hs
      omega
    rw [if_neg hbit, foldl_bigEndianBytes_int]
    have hfin : ((u % 256 ^ n : Nat) : Int) = v := by
      rw [hpowN n]
      rw [← hmr] at *
      rw [(hposCase hs).1]
    rw [hfin]
    norm_num
  · -- negative: high bit set
    have hbit : (u / 256 ^ m % 256 &&& 128 ≠ 0) := by
      rw [and128_ne_zero_iff hheadlt]
      exact hheadNeg hs
    rw [if_pos hbit, foldl_bigEndianBytes_int]
    have hfin : ((u % 256 ^ n : Nat) : Int) = v + 2 ^ (8 * n) := by
      rw [hpowN n]
      rw [← hmr] at *
      rw [(hnegCase hs).1]
    rw [hfin]
    have hpowcast : (256 : Int) ^ n = 2 ^ (8 * n) := by
      rw [show ((256 : Int)) = 2 ^ 8 from by norm_num, ← pow_mul]
    rw [hpowcast]
    ring

theorem id_encode_ok {id : Nat} (h : id ≠ 0) :
    ebml_id_encode id = .ok (bigEndianBytes id (idByteLen id)) := by
  unfold ebml_id_encode
  rw [if_neg h]

theorem vint_encode_small {k : Nat} (h1 : 1 ≤ k) (h2 : k ≤ 126) :
    ebml_vint_encode k = .ok [k ||| 128] := by
  have hsize : ebml_vint_size k = 1 := by
    unfold ebml_vint_size EBML_VINT_MAX
    rw [if_pos (by norm_num; omega)]
  unfold ebml_vint_encode
  rw [hsize, if_neg (by norm_num)]
  have hfx := vint_encode_fixed_ok (v := k) (n := 1) (by norm_num) (by norm_num)
    (by norm_num; omega)
  simpa [bigEndianBytes] using hfx

theorem int_data_size_bounds (v : Int) :
    1 ≤ int_data_size v ∧ int_data_size v ≤ 8 := by
  unfold int_data_size
  split_ifs <;> norm_num

theorem int_data_size_min (v : Int) :
    int_data_size v =
      if twosComplementMinBytes v ≤ 4 then twosComplementMinBytes v else 8 := by
  unfold int_data_size twosComplementMinBytes
  norm_num
  split_ifs <;> omega

theorem int_data_size_range (v : Int) (hlo : -(2 ^ 63) ≤ v) (hhi : v < 2 ^ 63) :
    -(2 ^ (8 * int_data_size v - 1) : Int) ≤ v ∧ v < 2 ^ (8 * int_data_size v - 1) := by
  unfold int_data_size
  split_ifs <;> norm_num <;> omega

/-- `ebml_write_int_element` output shape for a valid ID. -/
theorem write_int_element_unfold (id : Nat) (v : Int) (hid : id ≠ 0) :
    ebml_write_int_element id v =
      .ok (bigEndianBytes id (idByteLen id) ++ [int_data_size v ||| 128] ++
        bigEndianBytes (v % (2 ^ 64 : Int)).toNat (int_data_size v)) := by
  obtain ⟨hb1, hb2⟩ := int_data_size_bounds v
  unfold ebml_write_int_element
  dsimp only
  rw [id_encode_ok hid, vint_encode_small hb1 (by omega)]
  simp only [bind, Except.bind, pure, Except.pure]

/-- C5 (amended): the int writer uses the minimal two's-complement width
for values fitting in 1-4 bytes and a full 8 bytes for everything else,
and the written content reads back (sign-extended) to the value. -/
theorem write_int_element_width (id : Nat) (v : Int) (hid : id ≠ 0)
    (hlo : -(2 ^ 63) ≤ v) (hhi : v < 2 ^ 63) :
    ∃ idb szb content : Bytes,
      ebml_write_int_element id v = .ok (idb ++ szb ++ content) ∧
      content.length =
        (if twosComplementMinBytes v ≤ 4 then twosComplementMinBytes v else 8) ∧
      ebml_read_int content
        { id := 0, size := content.length, data_offset := 0,
          end_offset := content.length, size_length := 0, id_length := 0,
          is_unknown_size := false } = .ok v := by
  obtain ⟨hb1, hb2⟩ := int_data_size_bounds v
  obtain ⟨hr1, hr2⟩ := int_data_size_range v hlo hhi
  refine ⟨bigEndianBytes id (idByteLen id), [int_data_size v ||| 128],
    bigEndianBytes (v % (2 ^ 64 : Int)).toNat (int_data_size v),
    write_int_element_unfold id v hid, ?_, ?_⟩
  · rw [bigEndianBytes_length, int_data_size_min]
  · rw [bigEndianBytes_length]
    exact read_int_bigEndianBytes v (int_data_size v) hb1 hb2 hr1 hr2

/-- Witness for the amended C5 at `id = TagDefault`, `v = -300`. -/
theorem write_int_element_width_witness :
    (0x4484 : Nat) ≠ 0 ∧ -(2 ^ 63 : Int) ≤ -300 ∧ (-300 : Int) < 2 ^ 63 ∧
      ∃ idb szb content : Bytes,
        ebml_write_int_element 0x4484 (-300) = .ok (idb ++ szb ++ content) ∧
        content.length =
          (if twosComplementMinBytes (-300) ≤ 4 then twosComplementMinBytes (-300) else 8) ∧
        ebml_read_int content
          { id := 0, size := content.length, data_offset := 0,
            end_offset := content.length, size_length := 0, id_length := 0,
            is_unknown_size := false } = .ok (-300) :=
  ⟨by norm_num, by norm_num, by norm_num,
    write_int_element_width 0x4484 (-300) (by norm_num) (by norm_num) (by norm_num)⟩

/-!  ## Element-level encode/decode lemmas  -/

theorem ebml_vint_encode_eq {v : Nat} (h : v ≤ 2 ^ 56 - 2) :
    ebml_vint_encode v = .ok (vintBytes v) := by
  obtain ⟨h1, h2, h3⟩ := vint_size_pos h
  unfold ebml_vint_encode
  rw [if_neg (by omega)]
  exact vint_encode_fixed_ok h1 h2 h3

theorem vintBytes_length {v : Nat} (h : v ≤ 2 ^ 56 - 2) :
    (vintBytes v).length = ebml_vint_size v := by
  obtain ⟨h1, _, _⟩ := vint_size_pos h
  simp [vintBytes, bigEndianBytes_length]
  omega

theorem vint_decode_vintBytes {v : Nat} (h : v ≤ 2 ^ 56 - 2) :
    ebml_vint_decode (vintBytes v) = .ok (v, ebml_vint_size v) := by
  obtain ⟨h1, h2, h3⟩ := vint_size_pos h
  exact vint_decode_encoded h1 h2 h3

theorem vintBytes_head_length {v : Nat} (h : v ≤ 2 ^ 56 - 2) :
    ebml_vint_length ((vintBytes v).headD 0) = ebml_vint_size v := by
  obtain ⟨h1, h2, h3⟩ := vint_size_pos h
  have hpow : (256 : Nat) ^ (ebml_vint_size v - 1) = 2 ^ (8 * (ebml_vint_size v - 1)) := by
    rw [show (256 : Nat) = 2 ^ 8 from rfl, ← pow_mul]
  have hdivlt : v / 256 ^ (ebml_vint_size v - 1) < 2 ^ (8 - ebml_vint_size v) := by
    rw [hpow]
    apply Nat.div_lt_of_lt_mul
    rw [← pow_add]
    have he : 8 * (ebml_vint_size v - 1) + (8 - ebml_vint_size v)
        = 7 * ebml_vint_size v := by omega
    rw [he]
    have hxp : 0 < (2 : Nat) ^ (7 * ebml_vint_size v) := by positivity
    omega
  show ebml_vint_length
      (v / 256 ^ (ebml_vint_size v - 1) ||| 2 ^ (8 - ebml_vint_size v)) = _
  apply vint_length_of_range h1 h2
  · exact two_pow_le_or _ _
  · apply Nat.or_lt_two_pow
    · calc v / 256 ^ (ebml_vint_size v - 1)
          < 2 ^ (8 - ebml_vint_size v) := hdivlt
      _ ≤ 2 ^ (9 - ebml_vint_size v) := Nat.pow_le_pow_right (by omega) (by omega)
    · exact Nat.pow_lt_pow_right (by omega) (by omega)

theorem vint_is_unknown_false {v n : Nat} (h1 : 1 ≤ n) (h2 : n ≤ 8)
    (hv : v ≤ 2 ^ (7 * n) - 2) : ebml_vint_is_unknown v n = false := by
  have hX : 2 ≤ (2 : Nat) ^ (7 * n) :=
    le_trans (by norm_num) (Nat.pow_le_pow_right (by norm_num) (by omega : 1 ≤ 7 * n))
  have hne : v ≠ 2 ^ (7 * n) - 1 := by
    revert hv hX
    generalize (2 : Nat) ^ (7 * n) = X
    intro hv hX
    omega
  unfold ebml_vint_is_unknown
  rw [if_pos ⟨h1, h2⟩]
  exact decide_eq_false hne

theorem id_lt_pow {id : Nat} (h : id ≤ 0xFFFFFFFF) :
    id < 256 ^ idByteLen id := by
  unfold idByteLen
  split_ifs <;> norm_num <;> omega

theorem idByteLen_bounds (id : Nat) : 1 ≤ idByteLen id ∧ idByteLen id ≤ 4 := by
  unfold idByteLen
  split_ifs <;> norm_num

theorem elemBytes_length (id : Nat) {content : Bytes}
    (h : content.length ≤ 2 ^ 56 - 2) :
    (elemBytes id content).length =
      idByteLen id + ebml_vint_size content.length + content.length := by
  simp [elemBytes, bigEndianBytes_length, vintBytes_length h]
  omega

theorem ebml_write_master_element_header_eq {id : Nat} (hid : id ≠ 0) {n : Nat}
    (hn : n ≤ 2 ^ 56 - 2) :
    ebml_write_master_element_header id n =
      .ok (bigEndianBytes id (idByteLen id) ++ vintBytes n) := by
  unfold ebml_write_master_element_header
  rw [id_encode_ok hid, ebml_vint_encode_eq hn]
  simp only [bind, Except.bind, pure, Except.pure]

theorem ebml_write_string_element_eq {id : Nat} (hid : id ≠ 0) {s : Bytes}
    (hs : (strlenB s).length ≤ 2 ^ 56 - 2) :
    ebml_write_string_element id s = .ok (elemBytes id (strlenB s)) := by
  unfold ebml_write_string_element elemBytes
  dsimp only
  rw [id_encode_ok hid, ebml_vint_encode_eq hs]
  simp only [bind, Except.bind, pure, Except.pure]

theorem ebml_write_binary_element_eq {id : Nat} (hid : id ≠ 0) {data : Bytes}
    (hd : data.length ≤ 2 ^ 56 - 2) :
    ebml_write_binary_element id data = .ok (elemBytes id data) := by
  unfold ebml_write_binary_element elemBytes
  rw [id_encode_ok hid, ebml_vint_encode_eq hd]
  simp only [bind, Except.bind, pure, Except.pure]

theorem uint_data_size_bounds (v : Nat) :
    1 ≤ max (uint_data_size v) 1 ∧ max (uint_data_size v) 1 ≤ 8 := by
  unfold uint_data_size
  split_ifs <;> simp

theorem ebml_write_uint_element_eq {id : Nat} (hid : id ≠ 0) (v : Nat) :
    ebml_write_uint_element id v =
      .ok (elemBytes id (bigEndianBytes v (max (uint_data_size v) 1))) := by
  obtain ⟨hb1, hb2⟩ := uint_data_size_bounds v
  unfold ebml_write_uint_element elemBytes
  dsimp only
  rw [id_encode_ok hid, ebml_vint_encode_eq (by omega : max (uint_data_size v) 1 ≤ 2 ^ 56 - 2)]
  rw [bigEndianBytes_length]
  simp only [bind, Except.bind, pure, Except.pure]

theorem take_append_le {α : Type} {l₁ l₂ : List α} {n : Nat} (h : n ≤ l₁.length) :
    (l₁ ++ l₂).take n = l₁.take n := by
  conv_lhs => rw [← List.take_append_drop n l₁, List.append_assoc]
  rw [List.take_left' (by simp [List.length_take]; omega)]

theorem file_read_exact_at (pre chunk post : Bytes) (n : Nat)
    (hn : n ≤ chunk.length) :
    file_read_exact (pre ++ chunk ++ post) pre.length n = .ok (chunk.take n) := by
  unfold file_read_exact
  by_cases h0 : n = 0
  · rw [if_pos h0, h0]
    simp
  · rw [if_neg h0, if_pos (by simp; omega)]
    rw [List.append_assoc, List.drop_left]
    rw [take_append_le hn]

/-- `ebml_id_decode` of the raw big-endian ID bytes. -/
theorem ebml_id_decode_bytes {id : Nat} (hid4 : id ≤ 0xFFFFFFFF)
    (hmark : ebml_vint_length ((bigEndianBytes id (idByteLen id)).headD 0)
      = idByteLen id) :
    ebml_id_decode (bigEndianBytes id (idByteLen id)) = .ok (id, idByteLen id) := by
  obtain ⟨hb1, hb2⟩ := idByteLen_bounds id
  obtain ⟨m, hm⟩ : ∃ m, idByteLen id = m + 1 := ⟨idByteLen id - 1, by omega⟩
  have hcons : bigEndianBytes id (idByteLen id)
      = (id / 256 ^ m % 256) :: bigEndianBytes id m := by
    rw [hm, bigEndianBytes_succ]
  unfold ebml_id_decode
  rw [hcons]
  rw [hcons] at hmark
  simp only [List.headD_cons] at hmark
  simp only [hmark]
  rw [if_neg (by omega), if_neg (by omega),
    if_neg (by simp [bigEndianBytes_length]; omega)]
  have htake : ((id / 256 ^ m % 256) :: bigEndianBytes id m).take (idByteLen id)
      = (id / 256 ^ m % 256) :: bigEndianBytes id m := by
    apply List.take_of_length_le
    simp [bigEndianBytes_length]
    omega
  rw [htake, ← hcons, foldl_bigEndianBytes]
  rw [Nat.mod_eq_of_lt (id_lt_pow hid4)]
  norm_num

/-- Reading the header of a serialized element embedded in a file. -/
theorem readElementHeader_elemBytes {f pre post content : Bytes} {id : Nat}
    (hf : f = pre ++ elemBytes id content ++ post)
    (hid4 : id ≤ 0xFFFFFFFF)
    (hmark : ebml_vint_length ((bigEndianBytes id (idByteLen id)).headD 0)
      = idByteLen id)
    (hlen : content.length ≤ 2 ^ 56 - 2) :
    ebml_read_element_header f pre.length = .ok
      { id := id, size := content.length,
        data_offset := pre.length + idByteLen id + ebml_vint_size content.length,
        end_offset := pre.length + idByteLen id + ebml_vint_size content.length
          + content.length,
        size_length := ebml_vint_size content.length,
        id_length := idByteLen id, is_unknown_size := false } := by
  obtain ⟨hb1, hb2⟩ := idByteLen_bounds id
  obtain ⟨hs1, hs2, hs3⟩ := vint_size_pos hlen
  obtain ⟨m, hm⟩ : ∃ m, idByteLen id = m + 1 := ⟨idByteLen id - 1, by omega⟩
  have hcons : bigEndianBytes id (idByteLen id)
      = (id / 256 ^ m % 256) :: bigEndianBytes id m := by
    rw [hm, bigEndianBytes_succ]
  have hidblen : (bigEndianBytes id (idByteLen id)).length = idByteLen id :=
    bigEndianBytes_length _ _
  have hvblen : (vintBytes content.length).length = ebml_vint_size content.length :=
    vintBytes_length hlen
  -- the four reads
  have hr1 : file_read_exact f pre.length 1 = .ok [id / 256 ^ m % 256] := by
    rw [hf, file_read_exact_at pre _ post 1
      (by rw [elemBytes_length id hlen]; omega)]
    unfold elemBytes
    rw [hcons]
    rfl
  have hrid : file_read_exact f pre.length (idByteLen id)
      = .ok (bigEndianBytes id (idByteLen id)) := by
    rw [hf, file_read_exact_at pre _ post (idByteLen id)
      (by rw [elemBytes_length id hlen]; omega)]
    unfold elemBytes
    rw [List.append_assoc, take_append_le hidblen.ge,
      List.take_of_length_le hidblen.le]
  have hsplit2 : f = (pre ++ bigEndianBytes id (idByteLen id)) ++
      vintBytes content.length ++ (content ++ post) := by
    rw [hf]
    unfold elemBytes
    simp [List.append_assoc]
  have hlen2 : (pre ++ bigEndianBytes id (idByteLen id)).length
      = pre.length + idByteLen id := by
    simp [hidblen]
  have hr2 : file_read_exact f (pre.length + idByteLen id) 1
      = .ok [(vintBytes content.length).headD 0] := by
    rw [hsplit2, ← hlen2, file_read_exact_at _ _ _ 1 (by rw [hvblen]; omega)]
    unfold vintBytes
    rfl
  have hrsz : file_read_exact f (pre.length + idByteLen id)
      (ebml_vint_size content.length) = .ok (vintBytes content.length) := by
    rw [hsplit2, ← hlen2, file_read_exact_at _ _ _ _ (by rw [hvblen])]
    rw [List.take_of_length_le (by rw [hvblen])]
  -- unfold the reader
  unfold ebml_read_element_header
  rw [hr1]
  simp only [bind, Except.bind, pure, Except.pure, List.headD_cons]
  rw [hcons] at hmark
  simp only [List.headD_cons] at hmark
  rw [hmark]
  rw [if_neg (by omega)]
  rw [hrid]
  dsimp only
  rw [ebml_id_decode_bytes hid4 (by rw [hcons]; simpa using hmark)]
  dsimp only
  rw [hr2]
  dsimp only [List.headD_cons]
  rw [vintBytes_head_length hlen]
  rw [if_neg (by omega)]
  rw [hrsz]
  dsimp only
  rw [vint_decode_vintBytes hlen]
  dsimp only
  rw [vint_is_unknown_false hs1 hs2 hs3]
  simp

/-!  ## Leaf content readers on embedded regions  -/

theorem read_string_at {pre content post : Bytes} {e : EbmlElem}
    (hoff : e.data_offset = pre.length) (hsz : e.size = content.length) :
    ebml_read_string_alloc (pre ++ content ++ post) e
      = .ok (dropTrailingZeros content) := by
  unfold ebml_read_string_alloc
  rw [hoff, hsz, file_read_exact_at pre content post _ le_rfl, List.take_length]
  simp only [bind, Except.bind, pure, Except.pure]

theorem read_uint_at {pre post : Bytes} {v ds : Nat} {e : EbmlElem}
    (hoff : e.data_offset = pre.length) (hsz : e.size = ds)
    (h1 : 1 ≤ ds) (h8 : ds ≤ 8) (hv : v < 256 ^ ds) :
    ebml_read_uint (pre ++ bigEndianBytes v ds ++ post) e = .ok v := by
  unfold ebml_read_uint
  rw [hsz, if_neg (by omega), if_neg (by omega), hoff]
  rw [file_read_exact_at pre _ post ds (by rw [bigEndianBytes_length])]
  rw [List.take_of_length_le (by rw [bigEndianBytes_length])]
  simp only [bind, Except.bind, pure, Except.pure]
  rw [foldl_bigEndianBytes]
  rw [Nat.mod_eq_of_lt hv]
  norm_num

theorem read_binary_at {pre content post : Bytes} {e : EbmlElem}
    (hoff : e.data_offset = pre.length) (hsz : e.size = content.length)
    (hne : content ≠ []) :
    ebml_read_binary_alloc (pre ++ content ++ post) e = .ok (some content) := by
  unfold ebml_read_binary_alloc
  rw [hsz, if_neg (by simpa [List.length_eq_zero] using hne), hoff,
    file_read_exact_at pre content post _ le_rfl, List.take_length]
  simp only [bind, Except.bind, pure, Except.pure]

theorem dropWhile_zero_eq_self {l : Bytes} (h : ∀ b ∈ l, 0 < b) :
    l.dropWhile (fun b => b = 0) = l := by
  cases l with
  | nil => rfl
  | cons a t =>
    rw [List.dropWhile_cons_of_neg]
    have := h a (List.mem_cons_self a t)
    simp
    omega

/-- With no NUL bytes there is nothing to trim. -/
theorem dropTrailingZeros_of_wf {s : Bytes} (h : wfStr s) :
    dropTrailingZeros s = s := by
  unfold dropTrailingZeros
  rw [dropWhile_zero_eq_self
      (by intro b hb; exact (h b (by simpa using hb)).1),
    List.reverse_reverse]

/-- With no NUL bytes `strlen` keeps the whole string. -/
theorem strlenB_of_wf {s : Bytes} (h : wfStr s) : strlenB s = s := by
  unfold strlenB
  apply List.takeWhile_eq_self_iff.mpr
  intro x hx
  have := (h x hx).1
  simp
  omega

/-!  ## Serializer inversion  -/

theorem vint_encode_err {v : Nat} (hgt : 2 ^ 56 - 2 < v) :
    ebml_vint_encode v = .error MKVTAG_ERR_VINT_OVERFLOW := by
  have hsz : ebml_vint_size v = 0 := by
    unfold ebml_vint_size EBML_VINT_MAX
    norm_num
    split_ifs <;> omega
  unfold ebml_vint_encode
  rw [hsz]
  simp

theorem write_string_inv {id : Nat} (hid : id ≠ 0) {s c : Bytes}
    (h : ebml_write_string_element id s = .ok c) :
    (strlenB s).length ≤ 2 ^ 56 - 2 ∧ c = elemBytes id (strlenB s) := by
  have hb : (strlenB s).length ≤ 2 ^ 56 - 2 := by
    by_contra hgt
    push_neg at hgt
    unfold ebml_write_string_element at h
    simp only [bind, Except.bind] at h
    rw [id_encode_ok hid] at h
    dsimp only at h
    rw [vint_encode_err hgt] at h
    simp at h
  refine ⟨hb, ?_⟩
  rw [ebml_write_string_element_eq hid hb] at h
  injection h with h
  exact h.symm

theorem write_binary_inv {id : Nat} (hid : id ≠ 0) {data c : Bytes}
    (h : ebml_write_binary_element id data = .ok c) :
    data.length ≤ 2 ^ 56 - 2 ∧ c = elemBytes id data := by
  have hb : data.length ≤ 2 ^ 56 - 2 := by
    by_contra hgt
    push_neg at hgt
    unfold ebml_write_binary_element at h
    simp only [bind, Except.bind] at h
    rw [id_encode_ok hid] at h
    dsimp only at h
    rw [vint_encode_err hgt] at h
    simp at h
  refine ⟨hb, ?_⟩
  rw [ebml_write_binary_element_eq hid hb] at h
  injection h with h
  exact h.symm

theorem master_header_inv {id : Nat} (hid : id ≠ 0) {n : Nat} {c : Bytes}
    (h : ebml_write_master_element_header id n = .ok c) :
    n ≤ 2 ^ 56 - 2 ∧ c = bigEndianBytes id (idByteLen id) ++ vintBytes n := by
  have hb : n ≤ 2 ^ 56 - 2 := by
    by_contra hgt
    push_neg at hgt
    unfold ebml_write_master_element_header at h
    simp only [bind, Except.bind] at h
    rw [id_encode_ok hid] at h
    dsimp only at h
    rw [vint_encode_err hgt] at h
    simp at h
  refine ⟨hb, ?_⟩
  rw [ebml_write_master_element_header_eq hid hb] at h
  injection h with h
  exact h.symm

theorem writeUids_eq {id : Nat} (hid : id ≠ 0) (uids : List Nat) :
    writeUids id uids = .ok (uidsBytes id uids) := by
  induction uids with
  | nil => rfl
  | cons u rest ih =>
    unfold writeUids
    rw [ebml_write_uint_element_eq hid u]
    simp only [bind, Except.bind, pure, Except.pure]
    rw [ih]
    rfl

theorem uint_value_lt (v : Nat) (h : v < 2 ^ 64) :
    v < 256 ^ max (uint_data_size v) 1 := by
  unfold uint_data_size
  split_ifs <;> norm_num <;> omega

/-!  ## Leaf reads of embedded serialized elements  -/

theorem string_leaf_read {f pre post s : Bytes} {id : Nat}
    (hf : f = pre ++ elemBytes id s ++ post) (hs : s.length ≤ 2 ^ 56 - 2) :
    ebml_read_string_alloc f
      { id := id, size := s.length,
        data_offset := pre.length + idByteLen id + ebml_vint_size s.length,
        end_offset := pre.length + idByteLen id + ebml_vint_size s.length
          + s.length,
        size_length := ebml_vint_size s.length,
        id_length := idByteLen id, is_unknown_size := false }
      = .ok (dropTrailingZeros s) := by
  have hsplit : f = (pre ++ bigEndianBytes id (idByteLen id)
      ++ vintBytes s.length) ++ s ++ post := by
    rw [hf]
    unfold elemBytes
    simp [List.append_assoc]
  have hplen : (pre ++ bigEndianBytes id (idByteLen id)
      ++ vintBytes s.length).length
      = pre.length + idByteLen id + ebml_vint_size s.length := by
    simp [bigEndianBytes_length, vintBytes_length hs]
    omega
  rw [hsplit]
  exact read_string_at (by rw [hplen]) rfl

theorem uint_leaf_read {f pre post : Bytes} {id v : Nat}
    (hf : f = pre ++ uintElemBytes id v ++ post) (hv : v < 2 ^ 64) :
    ebml_read_uint f
      { id := id, size := max (uint_data_size v) 1,
        data_offset := pre.length + idByteLen id
          + ebml_vint_size (max (uint_data_size v) 1),
        end_offset := pre.length + idByteLen id
          + ebml_vint_size (max (uint_data_size v) 1)
          + max (uint_data_size v) 1,
        size_length := ebml_vint_size (max (uint_data_size v) 1),
        id_length := idByteLen id, is_unknown_size := false }
      = .ok v := by
  obtain ⟨hb1, hb2⟩ := uint_data_size_bounds v
  have hlenb : (bigEndianBytes v (max (uint_data_size v) 1)).length
      = max (uint_data_size v) 1 := bigEndianBytes_length _ _
  have hsplit : f = (pre ++ bigEndianBytes id (idByteLen id)
      ++ vintBytes (max (uint_data_size v) 1))
      ++ bigEndianBytes v (max (uint_data_size v) 1) ++ post := by
    rw [hf]
    unfold uintElemBytes elemBytes
    rw [hlenb]
    simp [List.append_assoc]
  have hplen : (pre ++ bigEndianBytes id (idByteLen id)
      ++ vintBytes (max (uint_data_size v) 1)).length
      = pre.length + idByteLen id
        + ebml_vint_size (max (uint_data_size v) 1) := by
    simp [bigEndianBytes_length, vintBytes_length
      (show max (uint_data_size v) 1 ≤ 2 ^ 56 - 2 by omega)]
    omega
  rw [hsplit]
  exact read_uint_at (by rw [hplen]) rfl (by omega) (by omega)
    (uint_value_lt v hv)

theorem binary_leaf_read {f pre post b : Bytes} {id : Nat}
    (hf : f = pre ++ elemBytes id b ++ post) (hb : b.length ≤ 2 ^ 56 - 2)
    (hne : b ≠ []) :
    ebml_read_binary_alloc f
      { id := id, size := b.length,
        data_offset := pre.length + idByteLen id + ebml_vint_size b.length,
        end_offset := pre.length + idByteLen id + ebml_vint_size b.length
          + b.length,
        size_length := ebml_vint_size b.length,
        id_length := idByteLen id, is_unknown_size := false }
      = .ok (some b) := by
  have hsplit : f = (pre ++ bigEndianBytes id (idByteLen id)
      ++ vintBytes b.length) ++ b ++ post := by
    rw [hf]
    unfold elemBytes
    simp [List.append_assoc]
  have hplen : (pre ++ bigEndianBytes id (idByteLen id)
      ++ vintBytes b.length).length
      = pre.length + idByteLen id + ebml_vint_size b.length := by
    simp [bigEndianBytes_length, vintBytes_length hb]
    omega
  rw [hsplit]
  exact read_binary_at (by rw [hplen]) rfl hne

theorem elem_end_eq {pre : Bytes} (id : Nat) {content : Bytes}
    (h : content.length ≤ 2 ^ 56 - 2) :
    pre.length + idByteLen id + ebml_vint_size content.length + content.length
      = pre.length + (elemBytes id content).length := by
  rw [elemBytes_length id h]
  omega

/-!  ## One-child steps of the parsing loops  -/

theorem simple_loop_name_step {f pre post s : Bytes} {elem : EbmlElem}
    {name value binary language : Option Bytes} {d : Nat} {ns : List SimpleTag}
    {fuel : Nat}
    (hf : f = pre ++ elemBytes MKV_ID_TAG_NAME s ++ post)
    (hlt : pre.length < elem.end_offset)
    (hs : s.length ≤ 2 ^ 56 - 2) :
    parse_simple_tag_loop f elem pre.length
        (.mk name value binary language d ns) (fuel + 1)
      = parse_simple_tag_loop f elem
          (pre.length + (elemBytes MKV_ID_TAG_NAME s).length)
          (.mk (some (dropTrailingZeros s)) value binary language d ns) fuel := by
  have hhdr := readElementHeader_elemBytes hf (by decide) (by decide) hs
  have hrd := string_leaf_read hf hs
  simp only [parse_simple_tag_loop]
  rw [show ebml_at_element_end pre.length elem = false by
    simp [ebml_at_element_end]; omega]
  rw [hhdr]
  simp only [Bool.false_eq_true, if_false]
  dsimp only
  rw [if_neg (by decide), if_pos True.intro, hrd]
  dsimp only [child_cont]
  rw [if_neg (by simp)]
  rw [elem_end_eq MKV_ID_TAG_NAME hs]

theorem simple_loop_string_step {f pre post s : Bytes} {elem : EbmlElem}
    {name value binary language : Option Bytes} {d : Nat} {ns : List SimpleTag}
    {fuel : Nat}
    (hf : f = pre ++ elemBytes MKV_ID_TAG_STRING s ++ post)
    (hlt : pre.length < elem.end_offset)
    (hs : s.length ≤ 2 ^ 56 - 2) :
    parse_simple_tag_loop f elem pre.length
        (.mk name value binary language d ns) (fuel + 1)
      = parse_simple_tag_loop f elem
          (pre.length + (elemBytes MKV_ID_TAG_STRING s).length)
          (.mk name (some (dropTrailingZeros s)) binary language d ns) fuel := by
  have hhdr := readElementHeader_elemBytes hf (by decide) (by decide) hs
  have hrd := string_leaf_read hf hs
  simp only [parse_simple_tag_loop]
  rw [show ebml_at_element_end pre.length elem = false by
    simp [ebml_at_element_end]; omega]
  rw [hhdr]
  simp only [Bool.false_eq_true, if_false]
  dsimp only
  rw [if_neg (by decide), if_neg (by decide), if_pos True.intro, hrd]
  dsimp only [child_cont]
  rw [if_neg (by simp)]
  rw [elem_end_eq MKV_ID_TAG_STRING hs]

theorem simple_loop_binary_step {f pre post b : Bytes} {elem : EbmlElem}
    {name value binary language : Option Bytes} {d : Nat} {ns : List SimpleTag}
    {fuel : Nat}
    (hf : f = pre ++ elemBytes MKV_ID_TAG_BINARY b ++ post)
    (hlt : pre.length < elem.end_offset)
    (hb : b.length ≤ 2 ^ 56 - 2) (hne : b ≠ []) :
    parse_simple_tag_loop f elem pre.length
        (.mk name value binary language d ns) (fuel + 1)
      = parse_simple_tag_loop f elem
          (pre.length + (elemBytes MKV_ID_TAG_BINARY b).length)
          (.mk name value (some b) language d ns) fuel := by
  have hhdr := readElementHeader_elemBytes hf (by decide) (by decide) hb
  have hrd := binary_leaf_read hf hb hne
  simp only [parse_simple_tag_loop]
  rw [show ebml_at_element_end pre.length elem = false by
    simp [ebml_at_element_end]; omega]
  rw [hhdr]
  simp only [Bool.false_eq_true, if_false]
  dsimp only
  rw [if_neg (by decide), if_neg (by decide), if_neg (by decide),
    if_pos True.intro, hrd]
  dsimp only [child_cont]
  rw [if_neg (by simp)]
  rw [elem_end_eq MKV_ID_TAG_BINARY hb]

theorem simple_loop_lang_step {f pre post s : Bytes} {elem : EbmlElem}
    {name value binary language : Option Bytes} {d : Nat} {ns : List SimpleTag}
    {fuel : Nat}
    (hf : f = pre ++ elemBytes MKV_ID_TAG_LANGUAGE s ++ post)
    (hlt : pre.length < elem.end_offset)
    (hs : s.length ≤ 2 ^ 56 - 2) :
    parse_simple_tag_loop f elem pre.length
        (.mk name value binary language d ns) (fuel + 1)
      = parse_simple_tag_loop f elem
          (pre.length + (elemBytes MKV_ID_TAG_LANGUAGE s).length)
          (.mk name value binary (some (dropTrailingZeros s)) d ns) fuel := by
  have hhdr := readElementHeader_elemBytes hf (by decide) (by decide) hs
  have hrd := string_leaf_read hf hs
  simp only [parse_simple_tag_loop]
  rw [show ebml_at_element_end pre.length elem = false by
    simp [ebml_at_element_end]; omega]
  rw [hhdr]
  simp only [Bool.false_eq_true, if_false]
  dsimp only
  rw [if_neg (by decide), if_neg (by decide), if_neg (by decide),
    if_neg (by decide), if_pos (Or.inl True.intro), hrd]
  dsimp only [child_cont]
  rw [if_neg (by simp)]
  rw [elem_end_eq MKV_ID_TAG_LANGUAGE hs]

theorem simple_loop_default_step {f pre post : Bytes} {v : Nat} {elem : EbmlElem}
    {name value binary language : Option Bytes} {d : Nat} {ns : List SimpleTag}
    {fuel : Nat}
    (hf : f = pre ++ uintElemBytes MKV_ID_TAG_DEFAULT v ++ post)
    (hlt : pre.length < elem.end_offset)
    (hv : v < 2 ^ 64) :
    parse_simple_tag_loop f elem pre.length
        (.mk name value binary language d ns) (fuel + 1)
      = parse_simple_tag_loop f elem
          (pre.length + (uintElemBytes MKV_ID_TAG_DEFAULT v).length)
          (.mk name value binary language v ns) fuel := by
  obtain ⟨hb1, hb2⟩ := uint_data_size_bounds v
  have hlenb : (bigEndianBytes v (max (uint_data_size v) 1)).length
      = max (uint_data_size v) 1 := bigEndianBytes_length _ _
  have hf' : f = pre ++ elemBytes MKV_ID_TAG_DEFAULT
      (bigEndianBytes v (max (uint_data_size v) 1)) ++ post := hf
  have hc : (bigEndianBytes v (max (uint_data_size v) 1)).length ≤ 2 ^ 56 - 2 := by
    rw [hlenb]; omega
  have hhdr := readElementHeader_elemBytes hf' (by decide) (by decide) hc
  rw [hlenb] at hhdr
  have hrd := uint_leaf_read hf hv
  simp only [parse_simple_tag_loop]
  rw [show ebml_at_element_end pre.length elem = false by
    simp [ebml_at_element_end]; omega]
  rw [hhdr]
  simp only [Bool.false_eq_true, if_false]
  try dsimp only
  rw [if_neg (by decide), if_neg (by decide), if_neg (by decide),
    if_neg (by decide), if_neg (by decide), if_pos True.intro, hrd]
  dsimp only [child_cont]
  rw [if_neg (by simp)]
  have hend : pre.length + idByteLen MKV_ID_TAG_DEFAULT
      + ebml_vint_size (max (uint_data_size v) 1) + max (uint_data_size v) 1
      = pre.length + (uintElemBytes MKV_ID_TAG_DEFAULT v).length := by
    unfold uintElemBytes
    rw [elemBytes_length _ hc, hlenb]
    omega
  rw [hend]

theorem simple_loop_nested_step {f pre post c : Bytes} {elem : EbmlElem}
    {name value binary language : Option Bytes} {d : Nat} {ns : List SimpleTag}
    {fuel : Nat} {inner : SimpleTag} {ipos : Nat}
    (hf : f = pre ++ elemBytes MKV_ID_SIMPLE_TAG c ++ post)
    (hlt : pre.length < elem.end_offset)
    (hc : c.length ≤ 2 ^ 56 - 2)
    (hinner : parse_simple_tag_loop f
        { id := MKV_ID_SIMPLE_TAG, size := c.length,
          data_offset := pre.length + idByteLen MKV_ID_SIMPLE_TAG
            + ebml_vint_size c.length,
          end_offset := pre.length + idByteLen MKV_ID_SIMPLE_TAG
            + ebml_vint_size c.length + c.length,
          size_length := ebml_vint_size c.length,
          id_length := idByteLen MKV_ID_SIMPLE_TAG, is_unknown_size := false }
        (pre.length + idByteLen MKV_ID_SIMPLE_TAG + ebml_vint_size c.length)
        emptySimpleTag fuel = (inner, ipos)) :
    parse_simple_tag_loop f elem pre.length
        (.mk name value binary language d ns) (fuel + 1)
      = parse_simple_tag_loop f elem
          (pre.length + (elemBytes MKV_ID_SIMPLE_TAG c).length)
          (.mk name value binary language d (inner :: ns)) fuel := by
  have hhdr := readElementHeader_elemBytes hf (by decide) (by decide) hc
  simp only [parse_simple_tag_loop]
  rw [show ebml_at_element_end pre.length elem = false by
    simp [ebml_at_element_end]; omega]
  rw [hhdr]
  simp only [Bool.false_eq_true, if_false]
  dsimp only
  rw [if_pos True.intro, hinner]
  try dsimp only
  rw [elem_end_eq MKV_ID_SIMPLE_TAG hc]

theorem simple_loop_at_end {f : Bytes} {elem : EbmlElem} {pos : Nat}
    {acc : SimpleTag} {fuel : Nat} (h : elem.end_offset ≤ pos) :
    parse_simple_tag_loop f elem pos acc fuel = (acc, pos) := by
  cases fuel with
  | zero => rfl
  | succ n =>
    simp only [parse_simple_tag_loop]
    rw [if_pos (show ebml_at_element_end pos elem = true by
      simp [ebml_at_element_end]; omega)]

theorem targets_loop_ttv_step {f pre post : Bytes} {v : Nat} {elem : EbmlElem}
    {t : Tag} {fuel : Nat}
    (hf : f = pre ++ uintElemBytes MKV_ID_TARGET_TYPE_VALUE v ++ post)
    (hlt : pre.length < elem.end_offset)
    (hv : v < 2 ^ 64) :
    parse_targets_loop f elem pre.length t (fuel + 1)
      = parse_targets_loop f elem
          (pre.length + (uintElemBytes MKV_ID_TARGET_TYPE_VALUE v).length)
          { t with target_type := v } fuel := by
  obtain ⟨hb1, hb2⟩ := uint_data_size_bounds v
  have hlenb : (bigEndianBytes v (max (uint_data_size v) 1)).length
      = max (uint_data_size v) 1 := bigEndianBytes_length _ _
  have hf' : f = pre ++ elemBytes MKV_ID_TARGET_TYPE_VALUE
      (bigEndianBytes v (max (uint_data_size v) 1)) ++ post := hf
  have hc : (bigEndianBytes v (max (uint_data_size v) 1)).length ≤ 2 ^ 56 - 2 := by
    rw [hlenb]; omega
  have hhdr := readElementHeader_elemBytes hf' (by decide) (by decide) hc
  rw [hlenb] at hhdr
  have hrd := uint_leaf_read hf hv
  simp only [parse_targets_loop]
  rw [show ebml_at_element_end pre.length elem = false by
    simp [ebml_at_element_end]; omega]
  rw [hhdr]
  simp only [Bool.false_eq_true, if_false]
  try dsimp only
  rw [if_pos True.intro, hrd]
  dsimp only [child_cont]
  rw [if_neg (by simp)]
  have hend : pre.length + idByteLen MKV_ID_TARGET_TYPE_VALUE
      + ebml_vint_size (max (uint_data_size v) 1) + max (uint_data_size v) 1
      = pre.length + (uintElemBytes MKV_ID_TARGET_TYPE_VALUE v).length := by
    unfold uintElemBytes
    rw [elemBytes_length _ hc, hlenb]
    omega
  rw [hend]

theorem targets_loop_tts_step {f pre post s : Bytes} {elem : EbmlElem}
    {t : Tag} {fuel : Nat}
    (hf : f = pre ++ elemBytes MKV_ID_TARGET_TYPE s ++ post)
    (hlt : pre.length < elem.end_offset)
    (hs : s.length ≤ 2 ^ 56 - 2) :
    parse_targets_loop f elem pre.length t (fuel + 1)
      = parse_targets_loop f elem
          (pre.length + (elemBytes MKV_ID_TARGET_TYPE s).length)
          { t with target_type_str := some (dropTrailingZeros s) } fuel := by
  have hhdr := readElementHeader_elemBytes hf (by decide) (by decide) hs
  have hrd := string_leaf_read hf hs
  simp only [parse_targets_loop]
  rw [show ebml_at_element_end pre.length elem = false by
    simp [ebml_at_element_end]; omega]
  rw [hhdr]
  simp only [Bool.false_eq_true, if_false]
  try dsimp only
  rw [if_neg (by decide), if_pos True.intro, hrd]
  dsimp only [child_cont]
  rw [if_neg (by simp)]
  rw [elem_end_eq MKV_ID_TARGET_TYPE hs]

theorem targets_loop_track_step {f pre post : Bytes} {v : Nat} {elem : EbmlElem}
    {t : Tag} {fuel : Nat}
    (hf : f = pre ++ uintElemBytes MKV_ID_TAG_TRACK_UID v ++ post)
    (hlt : pre.length < elem.end_offset)
    (hv : v < 2 ^ 64) :
    parse_targets_loop f elem pre.length t (fuel + 1)
      = parse_targets_loop f elem
          (pre.length + (uintElemBytes MKV_ID_TAG_TRACK_UID v).length)
          { t with track_uids := t.track_uids ++ [v] } fuel := by
  obtain ⟨hb1, hb2⟩ := uint_data_size_bounds v
  have hlenb : (bigEndianBytes v (max (uint_data_size v) 1)).length
      = max (uint_data_size v) 1 := bigEndianBytes_length _ _
  have hf' : f = pre ++ elemBytes MKV_ID_TAG_TRACK_UID
      (bigEndianBytes v (max (uint_data_size v) 1)) ++ post := hf
  have hc : (bigEndianBytes v (max (uint_data_size v) 1)).length ≤ 2 ^ 56 - 2 := by
    rw [hlenb]; omega
  have hhdr := readElementHeader_elemBytes hf' (by decide) (by decide) hc
  rw [hlenb] at hhdr
  have hrd := uint_leaf_read hf hv
  simp only [parse_targets_loop]
  rw [show ebml_at_element_end pre.length elem = false by
    simp [ebml_at_element_end]; omega]
  rw [hhdr]
  simp only [Bool.false_eq_true, if_false]
  try dsimp only
  rw [if_neg (by decide), if_neg (by decide), if_pos True.intro, hrd]
  dsimp only [child_cont]
  rw [if_neg (by simp)]
  have hend : pre.length + idByteLen MKV_ID_TAG_TRACK_UID
      + ebml_vint_size (max (uint_data_size v) 1) + max (uint_data_size v) 1
      = pre.length + (uintElemBytes MKV_ID_TAG_TRACK_UID v).length := by
    unfold uintElemBytes
    rw [elemBytes_length _ hc, hlenb]
    omega
  rw [hend]

theorem targets_loop_edition_step {f pre post : Bytes} {v : Nat} {elem : EbmlElem}
    {t : Tag} {fuel : Nat}
    (hf : f = pre ++ uintElemBytes MKV_ID_TAG_EDITION_UID v ++ post)
    (hlt : pre.length < elem.end_offset)
    (hv : v < 2 ^ 64) :
    parse_targets_loop f elem pre.length t (fuel + 1)
      = parse_targets_loop f elem
          (pre.length + (uintElemBytes MKV_ID_TAG_EDITION_UID v).length)
          { t with edition_uids := t.edition_uids ++ [v] } fuel := by
  obtain ⟨hb1, hb2⟩ := uint_data_size_bounds v
  have hlenb : (bigEndianBytes v (max (uint_data_size v) 1)).length
      = max (uint_data_size v) 1 := bigEndianBytes_length _ _
  have hf' : f = pre ++ elemBytes MKV_ID_TAG_EDITION_UID
      (bigEndianBytes v (max (uint_data_size v) 1)) ++ post := hf
  have hc : (bigEndianBytes v (max (uint_data_size v) 1)).length ≤ 2 ^ 56 - 2 := by
    rw [hlenb]; omega
  have hhdr := readElementHeader_elemBytes hf' (by decide) (by decide) hc
  rw [hlenb] at hhdr
  have hrd := uint_leaf_read hf hv
  simp only [parse_targets_loop]
  rw [show ebml_at_element_end pre.length elem = false by
    simp [ebml_at_element_end]; omega]
  rw [hhdr]
  simp only [Bool.false_eq_true, if_false]
  try dsimp only
  rw [if_neg (by decide), if_neg (by decide), if_neg (by decide),
    if_pos True.intro, hrd]
  dsimp only [child_cont]
  rw [if_neg (by simp)]
  have hend : pre.length + idByteLen MKV_ID_TAG_EDITION_UID
      + ebml_vint_size (max (uint_data_size v) 1) + max (uint_data_size v) 1
      = pre.length + (uintElemBytes MKV_ID_TAG_EDITION_UID v).length := by
    unfold uintElemBytes
    rw [elemBytes_length _ hc, hlenb]
    omega
  rw [hend]

theorem targets_loop_chapter_step {f pre post : Bytes} {v : Nat} {elem : EbmlElem}
    {t : Tag} {fuel : Nat}
    (hf : f = pre ++ uintElemBytes MKV_ID_TAG_CHAPTER_UID v ++ post)
    (hlt : pre.length < elem.end_offset)
    (hv : v < 2 ^ 64) :
    parse_targets_loop f elem pre.length t (fuel + 1)
      = parse_targets_loop f elem
          (pre.length + (uintElemBytes MKV_ID_TAG_CHAPTER_UID v).length)
          { t with chapter_uids := t.chapter_uids ++ [v] } fuel := by
  obtain ⟨hb1, hb2⟩ := uint_data_size_bounds v
  have hlenb : (bigEndianBytes v (max (uint_data_size v) 1)).length
      = max (uint_data_size v) 1 := bigEndianBytes_length _ _
  have hf' : f = pre ++ elemBytes MKV_ID_TAG_CHAPTER_UID
      (bigEndianBytes v (max (uint_data_size v) 1)) ++ post := hf
  have hc : (bigEndianBytes v (max (uint_data_size v) 1)).length ≤ 2 ^ 56 - 2 := by
    rw [hlenb]; omega
  have hhdr := readElementHeader_elemBytes hf' (by decide) (by decide) hc
  rw [hlenb] at hhdr
  have hrd := uint_leaf_read hf hv
  simp only [parse_targets_loop]
  rw [show ebml_at_element_end pre.length elem = false by
    simp [ebml_at_element_end]; omega]
  rw [hhdr]
  simp only [Bool.false_eq_true, if_false]
  try dsimp only
  rw [if_neg (by decide), if_neg (by decide), if_neg (by decide),
    if_neg (by decide), if_pos True.intro, hrd]
  dsimp only [child_cont]
  rw [if_neg (by simp)]
  have hend : pre.length + idByteLen MKV_ID_TAG_CHAPTER_UID
      + ebml_vint_size (max (uint_data_size v) 1) + max (uint_data_size v) 1
      = pre.length + (uintElemBytes MKV_ID_TAG_CHAPTER_UID v).length := by
    unfold uintElemBytes
    rw [elemBytes_length _ hc, hlenb]
    omega
  rw [hend]

theorem targets_loop_attach_step {f pre post : Bytes} {v : Nat} {elem : EbmlElem}
    {t : Tag} {fuel : Nat}
    (hf : f = pre ++ uintElemBytes MKV_ID_TAG_ATTACHMENT_UID v ++ post)
    (hlt : pre.length < elem.end_offset)
    (hv : v < 2 ^ 64) :
    parse_targets_loop f elem pre.length t (fuel + 1)
      = parse_targets_loop f elem
          (pre.length + (uintElemBytes MKV_ID_TAG_ATTACHMENT_UID v).length)
          { t with attachment_uids := t.attachment_uids ++ [v] } fuel := by
  obtain ⟨hb1, hb2⟩ := uint_data_size_bounds v
  have hlenb : (bigEndianBytes v (max (uint_data_size v) 1)).length
      = max (uint_data_size v) 1 := bigEndianBytes_length _ _
  have hf' : f = pre ++ elemBytes MKV_ID_TAG_ATTACHMENT_UID
      (bigEndianBytes v (max (uint_data_size v) 1)) ++ post := hf
  have hc : (bigEndianBytes v (max (uint_data_size v) 1)).length ≤ 2 ^ 56 - 2 := by
    rw [hlenb]; omega
  have hhdr := readElementHeader_elemBytes hf' (by decide) (by decide) hc
  rw [hlenb] at hhdr
  have hrd := uint_leaf_read hf hv
  simp only [parse_targets_loop]
  rw [show ebml_at_element_end pre.length elem = false by
    simp [ebml_at_element_end]; omega]
  rw [hhdr]
  simp only [Bool.false_eq_true, if_false]
  try dsimp only
  rw [if_neg (by decide), if_neg (by decide), if_neg (by decide),
    if_neg (by decide), if_neg (by decide), if_pos True.intro, hrd]
  dsimp only [child_cont]
  rw [if_neg (by simp)]
  have hend : pre.length + idByteLen MKV_ID_TAG_ATTACHMENT_UID
      + ebml_vint_size (max (uint_data_size v) 1) + max (uint_data_size v) 1
      = pre.length + (uintElemBytes MKV_ID_TAG_ATTACHMENT_UID v).length := by
    unfold uintElemBytes
    rw [elemBytes_length _ hc, hlenb]
    omega
  rw [hend]

theorem targets_loop_at_end {f : Bytes} {elem : EbmlElem} {pos : Nat}
    {acc : Tag} {fuel : Nat} (h : elem.end_offset ≤ pos) :
    parse_targets_loop f elem pos acc fuel = (acc, pos) := by
  cases fuel with
  | zero => rfl
  | succ n =>
    simp only [parse_targets_loop]
    rw [if_pos (show ebml_at_element_end pos elem = true by
      simp [ebml_at_element_end]; omega)]

theorem tag_loop_targets_step {f pre post c : Bytes} {elem : EbmlElem}
    {t : Tag} {fuel : Nat} {inner : Tag} {ipos : Nat}
    (hf : f = pre ++ elemBytes MKV_ID_TARGETS c ++ post)
    (hlt : pre.length < elem.end_offset)
    (hc : c.length ≤ 2 ^ 56 - 2)
    (hinner : parse_targets f
        { id := MKV_ID_TARGETS, size := c.length,
          data_offset := pre.length + idByteLen MKV_ID_TARGETS
            + ebml_vint_size c.length,
          end_offset := pre.length + idByteLen MKV_ID_TARGETS
            + ebml_vint_size c.length + c.length,
          size_length := ebml_vint_size c.length,
          id_length := idByteLen MKV_ID_TARGETS, is_unknown_size := false }
        t fuel = (inner, ipos)) :
    parse_tag_loop f elem pre.length t (fuel + 1)
      = parse_tag_loop f elem
          (pre.length + (elemBytes MKV_ID_TARGETS c).length) inner fuel := by
  have hhdr := readElementHeader_elemBytes hf (by decide) (by decide) hc
  simp only [parse_tag_loop]
  rw [show ebml_at_element_end pre.length elem = false by
    simp [ebml_at_element_end]; omega]
  rw [hhdr]
  simp only [Bool.false_eq_true, if_false]
  try dsimp only
  rw [if_pos True.intro, hinner]
  try dsimp only
  rw [elem_end_eq MKV_ID_TARGETS hc]

theorem tag_loop_simple_step {f pre post c : Bytes} {elem : EbmlElem}
    {t : Tag} {fuel : Nat} {inner : SimpleTag} {ipos : Nat}
    (hf : f = pre ++ elemBytes MKV_ID_SIMPLE_TAG c ++ post)
    (hlt : pre.length < elem.end_offset)
    (hc : c.length ≤ 2 ^ 56 - 2)
    (hinner : parse_simple_tag f
        { id := MKV_ID_SIMPLE_TAG, size := c.length,
          data_offset := pre.length + idByteLen MKV_ID_SIMPLE_TAG
            + ebml_vint_size c.length,
          end_offset := pre.length + idByteLen MKV_ID_SIMPLE_TAG
            + ebml_vint_size c.length + c.length,
          size_length := ebml_vint_size c.length,
          id_length := idByteLen MKV_ID_SIMPLE_TAG, is_unknown_size := false }
        fuel = (inner, ipos)) :
    parse_tag_loop f elem pre.length t (fuel + 1)
      = parse_tag_loop f elem
          (pre.length + (elemBytes MKV_ID_SIMPLE_TAG c).length)
          { t with simple_tags := inner :: t.simple_tags } fuel := by
  have hhdr := readElementHeader_elemBytes hf (by decide) (by decide) hc
  simp only [parse_tag_loop]
  rw [show ebml_at_element_end pre.length elem = false by
    simp [ebml_at_element_end]; omega]
  rw [hhdr]
  simp only [Bool.false_eq_true, if_false]
  try dsimp only
  rw [if_neg (by decide), if_pos True.intro, hinner]
  try dsimp only
  rw [elem_end_eq MKV_ID_SIMPLE_TAG hc]

theorem tag_loop_at_end {f : Bytes} {elem : EbmlElem} {pos : Nat}
    {acc : Tag} {fuel : Nat} (h : elem.end_offset ≤ pos) :
    parse_tag_loop f elem pos acc fuel = (acc, pos) := by
  cases fuel with
  | zero => rfl
  | succ n =>
    simp only [parse_tag_loop]
    rw [if_pos (show ebml_at_element_end pos elem = true by
      simp [ebml_at_element_end]; omega)]

theorem tags_loop_tag_step {f pre post c : Bytes} {elem : EbmlElem}
    {acc : List Tag} {fuel : Nat} {inner : Tag} {ipos : Nat}
    (hf : f = pre ++ elemBytes MKV_ID_TAG c ++ post)
    (hlt : pre.length < elem.end_offset)
    (hc : c.length ≤ 2 ^ 56 - 2)
    (hinner : parse_tag f
        { id := MKV_ID_TAG, size := c.length,
          data_offset := pre.length + idByteLen MKV_ID_TAG
            + ebml_vint_size c.length,
          end_offset := pre.length + idByteLen MKV_ID_TAG
            + ebml_vint_size c.length + c.length,
          size_length := ebml_vint_size c.length,
          id_length := idByteLen MKV_ID_TAG, is_unknown_size := false }
        fuel = (inner, ipos)) :
    parse_tags_loop f elem pre.length acc (fuel + 1)
      = parse_tags_loop f elem
          (pre.length + (elemBytes MKV_ID_TAG c).length)
          (acc ++ [inner]) fuel := by
  have hhdr := readElementHeader_elemBytes hf (by decide) (by decide) hc
  simp only [parse_tags_loop]
  rw [show ebml_at_element_end pre.length elem = false by
    simp [ebml_at_element_end]; omega]
  rw [hhdr]
  simp only [Bool.false_eq_true, if_false]
  try dsimp only
  rw [if_pos True.intro, hinner]
  try dsimp only
  rw [elem_end_eq MKV_ID_TAG hc]

theorem tags_loop_at_end {f : Bytes} {elem : EbmlElem} {pos : Nat}
    {acc : List Tag} {fuel : Nat} (h : elem.end_offset ≤ pos) :
    parse_tags_loop f elem pos acc fuel = acc := by
  cases fuel with
  | zero => rfl
  | succ n =>
    simp only [parse_tags_loop]
    rw [if_pos (show ebml_at_element_end pos elem = true by
      simp [ebml_at_element_end]; omega)]

/-!  ## Region lemmas: UID sequences inside Targets  -/

theorem elemBytes_two_le (id : Nat) (c : Bytes) : 2 ≤ (elemBytes id c).length := by
  obtain ⟨h1, h2⟩ := idByteLen_bounds id
  simp [elemBytes, bigEndianBytes_length, vintBytes]
  omega

theorem uintElemBytes_two_le (id v : Nat) : 2 ≤ (uintElemBytes id v).length :=
  elemBytes_two_le id _

theorem uidsBytes_cons (id u : Nat) (rest : List Nat) :
    uidsBytes id (u :: rest) = uintElemBytes id u ++ uidsBytes id rest := by
  simp [uidsBytes]

theorem uidsBytes_count_le (id : Nat) (uids : List Nat) :
    uids.length ≤ (uidsBytes id uids).length := by
  induction uids with
  | nil => simp [uidsBytes]
  | cons u rest ih =>
    rw [uidsBytes_cons]
    have := uintElemBytes_two_le id u
    simp only [List.length_append, List.length_cons]
    omega

theorem track_chain (uids : List Nat) :
    ∀ (f pre post : Bytes) (elem : EbmlElem) (t : Tag) (fuel : Nat),
    f = pre ++ uidsBytes MKV_ID_TAG_TRACK_UID uids ++ post →
    (∀ u ∈ uids, u < 2 ^ 64) →
    pre.length + (uidsBytes MKV_ID_TAG_TRACK_UID uids).length ≤ elem.end_offset →
    uids.length ≤ fuel →
    parse_targets_loop f elem pre.length t fuel
      = parse_targets_loop f elem
          (pre.length + (uidsBytes MKV_ID_TAG_TRACK_UID uids).length)
          { t with track_uids := t.track_uids ++ uids } (fuel - uids.length) := by
  induction uids with
  | nil =>
    intro f pre post elem t fuel hf hb hend hfuel
    simp [uidsBytes]
  | cons u rest ih =>
    intro f pre post elem t fuel hf hb hend hfuel
    rw [uidsBytes_cons] at hf hend
    simp only [List.length_cons] at hfuel
    obtain ⟨g, rfl⟩ : ∃ g, fuel = g + 1 := ⟨fuel - 1, by omega⟩
    have hchunk2 := uintElemBytes_two_le MKV_ID_TAG_TRACK_UID u
    have hstep := @targets_loop_track_step _ _ _ _ elem t g
      (show f = pre ++ uintElemBytes MKV_ID_TAG_TRACK_UID u
        ++ (uidsBytes MKV_ID_TAG_TRACK_UID rest ++ post) by
        rw [hf]; simp [List.append_assoc])
      (by simp only [List.length_append] at hend; omega)
      (hb u (List.mem_cons_self u rest))
    rw [hstep]
    have hrest := ih f (pre ++ uintElemBytes MKV_ID_TAG_TRACK_UID u) post elem
      { t with track_uids := t.track_uids ++ [u] } g
      (by rw [hf]; simp [List.append_assoc])
      (fun x hx => hb x (List.mem_cons_of_mem _ hx))
      (by simp only [List.length_append] at hend ⊢; omega)
      (by omega)
    simp only [List.length_append] at hrest
    rw [hrest]
    have hpos : pre.length + (uintElemBytes MKV_ID_TAG_TRACK_UID u).length
        + (uidsBytes MKV_ID_TAG_TRACK_UID rest).length
        = pre.length + ((uintElemBytes MKV_ID_TAG_TRACK_UID u).length
          + (uidsBytes MKV_ID_TAG_TRACK_UID rest).length) := by omega
    have hlist : (t.track_uids ++ [u]) ++ rest = t.track_uids ++ (u :: rest) := by
      simp
    have hfuel2 : g - rest.length = g + 1 - (rest.length + 1) := by omega
    try simp only [List.length_append]
    rw [hpos, hlist, hfuel2]
    rw [uidsBytes_cons]
    simp only [List.length_append, List.length_cons]

theorem edition_chain (uids : List Nat) :
    ∀ (f pre post : Bytes) (elem : EbmlElem) (t : Tag) (fuel : Nat),
    f = pre ++ uidsBytes MKV_ID_TAG_EDITION_UID uids ++ post →
    (∀ u ∈ uids, u < 2 ^ 64) →
    pre.length + (uidsBytes MKV_ID_TAG_EDITION_UID uids).length ≤ elem.end_offset →
    uids.length ≤ fuel →
    parse_targets_loop f elem pre.length t fuel
      = parse_targets_loop f elem
          (pre.length + (uidsBytes MKV_ID_TAG_EDITION_UID uids).length)
          { t with edition_uids := t.edition_uids ++ uids } (fuel - uids.length) := by
  induction uids with
  | nil =>
    intro f pre post elem t fuel hf hb hend hfuel
    simp [uidsBytes]
  | cons u rest ih =>
    intro f pre post elem t fuel hf hb hend hfuel
    rw [uidsBytes_cons] at hf hend
    simp only [List.length_cons] at hfuel
    obtain ⟨g, rfl⟩ : ∃ g, fuel = g + 1 := ⟨fuel - 1, by omega⟩
    have hchunk2 := uintElemBytes_two_le MKV_ID_TAG_EDITION_UID u
    have hstep := @targets_loop_edition_step _ _ _ _ elem t g
      (show f = pre ++ uintElemBytes MKV_ID_TAG_EDITION_UID u
        ++ (uidsBytes MKV_ID_TAG_EDITION_UID rest ++ post) by
        rw [hf]; simp [List.append_assoc])
      (by simp only [List.length_append] at hend; omega)
      (hb u (List.mem_cons_self u rest))
    rw [hstep]
    have hrest := ih f (pre ++ uintElemBytes MKV_ID_TAG_EDITION_UID u) post elem
      { t with edition_uids := t.edition_uids ++ [u] } g
      (by rw [hf]; simp [List.append_assoc])
      (fun x hx => hb x (List.mem_cons_of_mem _ hx))
      (by simp only [List.length_append] at hend ⊢; omega)
      (by omega)
    simp only [List.length_append] at hrest
    rw [hrest]
    have hpos : pre.length + (uintElemBytes MKV_ID_TAG_EDITION_UID u).length
        + (uidsBytes MKV_ID_TAG_EDITION_UID rest).length
        = pre.length + ((uintElemBytes MKV_ID_TAG_EDITION_UID u).length
          + (uidsBytes MKV_ID_TAG_EDITION_UID rest).length) := by omega
    have hlist : (t.edition_uids ++ [u]) ++ rest = t.edition_uids ++ (u :: rest) := by
      simp
    have hfuel2 : g - rest.length = g + 1 - (rest.length + 1) := by omega
    try simp only [List.length_append]
    rw [hpos, hlist, hfuel2]
    rw [uidsBytes_cons]
    simp only [List.length_append, List.length_cons]

theorem chapter_chain (uids : List Nat) :
    ∀ (f pre post : Bytes) (elem : EbmlElem) (t : Tag) (fuel : Nat),
    f = pre ++ uidsBytes MKV_ID_TAG_CHAPTER_UID uids ++ post →
    (∀ u ∈ uids, u < 2 ^ 64) →
    pre.length + (uidsBytes MKV_ID_TAG_CHAPTER_UID uids).length ≤ elem.end_offset →
    uids.length ≤ fuel →
    parse_targets_loop f elem pre.length t fuel
      = parse_targets_loop f elem
          (pre.length + (uidsBytes MKV_ID_TAG_CHAPTER_UID uids).length)
          { t with chapter_uids := t.chapter_uids ++ uids } (fuel - uids.length) := by
  induction uids with
  | nil =>
    intro f pre post elem t fuel hf hb hend hfuel
    simp [uidsBytes]
  | cons u rest ih =>
    intro f pre post elem t fuel hf hb hend hfuel
    rw [uidsBytes_cons] at hf hend
    simp only [List.length_cons] at hfuel
    obtain ⟨g, rfl⟩ : ∃ g, fuel = g + 1 := ⟨fuel - 1, by omega⟩
    have hchunk2 := uintElemBytes_two_le MKV_ID_TAG_CHAPTER_UID u
    have hstep := @targets_loop_chapter_step _ _ _ _ elem t g
      (show f = pre ++ uintElemBytes MKV_ID_TAG_CHAPTER_UID u
        ++ (uidsBytes MKV_ID_TAG_CHAPTER_UID rest ++ post) by
        rw [hf]; simp [List.append_assoc])
      (by simp only [List.length_append] at hend; omega)
      (hb u (List.mem_cons_self u rest))
    rw [hstep]
    have hrest := ih f (pre ++ uintElemBytes MKV_ID_TAG_CHAPTER_UID u) post elem
      { t with chapter_uids := t.chapter_uids ++ [u] } g
      (by rw [hf]; simp [List.append_assoc])
      (fun x hx => hb x (List.mem_cons_of_mem _ hx))
      (by simp only [List.length_append] at hend ⊢; omega)
      (by omega)
    simp only [List.length_append] at hrest
    rw [hrest]
    have hpos : pre.length + (uintElemBytes MKV_ID_TAG_CHAPTER_UID u).length
        + (uidsBytes MKV_ID_TAG_CHAPTER_UID rest).length
        = pre.length + ((uintElemBytes MKV_ID_TAG_CHAPTER_UID u).length
          + (uidsBytes MKV_ID_TAG_CHAPTER_UID rest).length) := by omega
    have hlist : (t.chapter_uids ++ [u]) ++ rest = t.chapter_uids ++ (u :: rest) := by
      simp
    have hfuel2 : g - rest.length = g + 1 - (rest.length + 1) := by omega
    try simp only [List.length_append]
    rw [hpos, hlist, hfuel2]
    rw [uidsBytes_cons]
    simp only [List.length_append, List.length_cons]

theorem attach_chain (uids : List Nat) :
    ∀ (f pre post : Bytes) (elem : EbmlElem) (t : Tag) (fuel : Nat),
    f = pre ++ uidsBytes MKV_ID_TAG_ATTACHMENT_UID uids ++ post →
    (∀ u ∈ uids, u < 2 ^ 64) →
    pre.length + (uidsBytes MKV_ID_TAG_ATTACHMENT_UID uids).length
      ≤ elem.end_offset →
    uids.length ≤ fuel →
    parse_targets_loop f elem pre.length t fuel
      = parse_targets_loop f elem
          (pre.length + (uidsBytes MKV_ID_TAG_ATTACHMENT_UID uids).length)
          { t with attachment_uids := t.attachment_uids ++ uids }
          (fuel - uids.length) := by
  induction uids with
  | nil =>
    intro f pre post elem t fuel hf hb hend hfuel
    simp [uidsBytes]
  | cons u rest ih =>
    intro f pre post elem t fuel hf hb hend hfuel
    rw [uidsBytes_cons] at hf hend
    simp only [List.length_cons] at hfuel
    obtain ⟨g, rfl⟩ : ∃ g, fuel = g + 1 := ⟨fuel - 1, by omega⟩
    have hchunk2 := uintElemBytes_two_le MKV_ID_TAG_ATTACHMENT_UID u
    have hstep := @targets_loop_attach_step _ _ _ _ elem t g
      (show f = pre ++ uintElemBytes MKV_ID_TAG_ATTACHMENT_UID u
        ++ (uidsBytes MKV_ID_TAG_ATTACHMENT_UID rest ++ post) by
        rw [hf]; simp [List.append_assoc])
      (by simp only [List.length_append] at hend; omega)
      (hb u (List.mem_cons_self u rest))
    rw [hstep]
    have hrest := ih f (pre ++ uintElemBytes MKV_ID_TAG_ATTACHMENT_UID u) post elem
      { t with attachment_uids := t.attachment_uids ++ [u] } g
      (by rw [hf]; simp [List.append_assoc])
      (fun x hx => hb x (List.mem_cons_of_mem _ hx))
      (by simp only [List.length_append] at hend ⊢; omega)
      (by omega)
    simp only [List.length_append] at hrest
    rw [hrest]
    have hpos : pre.length + (uintElemBytes MKV_ID_TAG_ATTACHMENT_UID u).length
        + (uidsBytes MKV_ID_TAG_ATTACHMENT_UID rest).length
        = pre.length + ((uintElemBytes MKV_ID_TAG_ATTACHMENT_UID u).length
          + (uidsBytes MKV_ID_TAG_ATTACHMENT_UID rest).length) := by omega
    have hlist : (t.attachment_uids ++ [u]) ++ rest
        = t.attachment_uids ++ (u :: rest) := by
      simp
    have hfuel2 : g - rest.length = g + 1 - (rest.length + 1) := by omega
    try simp only [List.length_append]
    rw [hpos, hlist, hfuel2]
    rw [uidsBytes_cons]
    simp only [List.length_append, List.length_cons]

theorem targets_uids_tail (utr ued uch uat : List Nat)
    (htr : ∀ u ∈ utr, u < 2 ^ 64) (hed : ∀ u ∈ ued, u < 2 ^ 64)
    (hch : ∀ u ∈ uch, u < 2 ^ 64) (hat : ∀ u ∈ uat, u < 2 ^ 64) :
    ∀ (f pre post : Bytes) (elem : EbmlElem) (tacc : Tag) (fuel : Nat),
    f = pre ++ (uidsBytes MKV_ID_TAG_TRACK_UID utr
      ++ uidsBytes MKV_ID_TAG_EDITION_UID ued
      ++ uidsBytes MKV_ID_TAG_CHAPTER_UID uch
      ++ uidsBytes MKV_ID_TAG_ATTACHMENT_UID uat) ++ post →
    elem.end_offset = pre.length + (uidsBytes MKV_ID_TAG_TRACK_UID utr
      ++ uidsBytes MKV_ID_TAG_EDITION_UID ued
      ++ uidsBytes MKV_ID_TAG_CHAPTER_UID uch
      ++ uidsBytes MKV_ID_TAG_ATTACHMENT_UID uat).length →
    (uidsBytes MKV_ID_TAG_TRACK_UID utr
      ++ uidsBytes MKV_ID_TAG_EDITION_UID ued
      ++ uidsBytes MKV_ID_TAG_CHAPTER_UID uch
      ++ uidsBytes MKV_ID_TAG_ATTACHMENT_UID uat).length ≤ fuel →
    parse_targets_loop f elem pre.length tacc fuel
      = ({ tacc with
              track_uids := tacc.track_uids ++ utr,
              edition_uids := tacc.edition_uids ++ ued,
              chapter_uids := tacc.chapter_uids ++ uch,
              attachment_uids := tacc.attachment_uids ++ uat },
         elem.end_offset) := by
  intro f pre post elem tacc fuel hf hend hfuel
  have hctr := uidsBytes_count_le MKV_ID_TAG_TRACK_UID utr
  have hced := uidsBytes_count_le MKV_ID_TAG_EDITION_UID ued
  have hcch := uidsBytes_count_le MKV_ID_TAG_CHAPTER_UID uch
  have hcat := uidsBytes_count_le MKV_ID_TAG_ATTACHMENT_UID uat
  simp only [List.length_append] at hend hfuel
  have h1 := track_chain utr f pre
    (uidsBytes MKV_ID_TAG_EDITION_UID ued
      ++ uidsBytes MKV_ID_TAG_CHAPTER_UID uch
      ++ uidsBytes MKV_ID_TAG_ATTACHMENT_UID uat ++ post) elem tacc fuel
    (by rw [hf]; simp [List.append_assoc]) htr (by omega) (by omega)
  rw [h1]
  have h2 := edition_chain ued f (pre ++ uidsBytes MKV_ID_TAG_TRACK_UID utr)
    (uidsBytes MKV_ID_TAG_CHAPTER_UID uch
      ++ uidsBytes MKV_ID_TAG_ATTACHMENT_UID uat ++ post) elem
    { tacc with track_uids := tacc.track_uids ++ utr } (fuel - utr.length)
    (by rw [hf]; simp [List.append_assoc]) hed
    (by simp only [List.length_append]; omega) (by omega)
  simp only [List.length_append] at h2
  rw [h2]
  have h3 := chapter_chain uch f (pre ++ uidsBytes MKV_ID_TAG_TRACK_UID utr
      ++ uidsBytes MKV_ID_TAG_EDITION_UID ued)
    (uidsBytes MKV_ID_TAG_ATTACHMENT_UID uat ++ post) elem
    { tacc with
        track_uids := tacc.track_uids ++ utr,
        edition_uids := tacc.edition_uids ++ ued }
    (fuel - utr.length - ued.length)
    (by rw [hf]; simp [List.append_assoc]) hch
    (by simp only [List.length_append]; omega) (by omega)
  simp only [List.length_append] at h3
  rw [h3]
  have h4 := attach_chain uat f (pre ++ uidsBytes MKV_ID_TAG_TRACK_UID utr
      ++ uidsBytes MKV_ID_TAG_EDITION_UID ued
      ++ uidsBytes MKV_ID_TAG_CHAPTER_UID uch) post elem
    { tacc with
        track_uids := tacc.track_uids ++ utr,
        edition_uids := tacc.edition_uids ++ ued,
        chapter_uids := tacc.chapter_uids ++ uch }
    (fuel - utr.length - ued.length - uch.length)
    (by rw [hf]; simp [List.append_assoc]) hat
    (by simp only [List.length_append]; omega) (by omega)
  simp only [List.length_append] at h4
  rw [h4]
  rw [targets_loop_at_end (by omega)]
  apply Prod.ext
  · rfl
  · omega

set_option maxHeartbeats 1000000 in
theorem parse_targets_of_serialize {t : Tag} (hwf : wfTag t) {w : Bytes}
    (hser : serialize_targets t = .ok w) :
    ∃ content : Bytes, w = elemBytes MKV_ID_TARGETS content ∧
      content.length ≤ 2 ^ 56 - 2 ∧
      ∀ (f pre post : Bytes) (elem : EbmlElem) (t0 : Tag) (fuel : Nat),
        f = pre ++ content ++ post →
        elem.data_offset = pre.length →
        elem.end_offset = pre.length + content.length →
        t0.target_type_str = none →
        content.length ≤ fuel →
        parse_targets f elem t0 fuel
          = ({ target_type := t.target_type,
               target_type_str := t.target_type_str,
               track_uids := t0.track_uids ++ t.track_uids,
               edition_uids := t0.edition_uids ++ t.edition_uids,
               chapter_uids := t0.chapter_uids ++ t.chapter_uids,
               attachment_uids := t0.attachment_uids ++ t.attachment_uids,
               simple_tags := t0.simple_tags },
             pre.length + content.length) := by
  obtain ⟨hwtt, hwtts, hwtrk, hwed, hwch, hwat, -⟩ := hwf
  unfold serialize_targets at hser
  simp only [bind, Except.bind, pure, Except.pure] at hser
  rw [ebml_write_uint_element_eq (by decide) t.target_type] at hser
  try dsimp only at hser
  cases hts : t.target_type_str with
  | none =>
    rw [hts] at hser
    try dsimp only at hser
    rw [writeUids_eq (by decide) t.track_uids,
      writeUids_eq (by decide) t.edition_uids,
      writeUids_eq (by decide) t.chapter_uids,
      writeUids_eq (by decide) t.attachment_uids] at hser
    try dsimp only at hser
    generalize hC : elemBytes MKV_ID_TARGET_TYPE_VALUE
          (bigEndianBytes t.target_type (max (uint_data_size t.target_type) 1))
        ++ [] ++ uidsBytes MKV_ID_TAG_TRACK_UID t.track_uids
        ++ uidsBytes MKV_ID_TAG_EDITION_UID t.edition_uids
        ++ uidsBytes MKV_ID_TAG_CHAPTER_UID t.chapter_uids
        ++ uidsBytes MKV_ID_TAG_ATTACHMENT_UID t.attachment_uids = C at hser
    cases hhd : ebml_write_master_element_header MKV_ID_TARGETS C.length with
    | error e =>
      rw [hhd] at hser
      simp at hser
    | ok hdr =>
      rw [hhd] at hser
      try dsimp only at hser
      injection hser with hw
      obtain ⟨hclen, hhdr⟩ := master_header_inv (by decide) hhd
      refine ⟨C, ?_, hclen, ?_⟩
      · rw [← hw, hhdr, elemBytes, List.append_assoc]
      intro f pre post elem t0 fuel hf hdo hend ht0 hfuel
      subst hC
      unfold parse_targets
      rw [hdo]
      have h2le := uintElemBytes_two_le MKV_ID_TARGET_TYPE_VALUE t.target_type
      rw [show (elemBytes MKV_ID_TARGET_TYPE_VALUE
          (bigEndianBytes t.target_type (max (uint_data_size t.target_type) 1)))
        = uintElemBytes MKV_ID_TARGET_TYPE_VALUE t.target_type from rfl]
        at hf hend hfuel ⊢
      simp only [List.length_append, List.length_nil] at hend hfuel ⊢
      obtain ⟨g, rfl⟩ : ∃ g, fuel = g + 1 := ⟨fuel - 1, by omega⟩
      have hstep := @targets_loop_ttv_step _ _ _ _ elem
        { t0 with target_type := MKVTAG_TARGET_ALBUM } g
        (show f = pre ++ uintElemBytes MKV_ID_TARGET_TYPE_VALUE t.target_type
          ++ (uidsBytes MKV_ID_TAG_TRACK_UID t.track_uids
            ++ uidsBytes MKV_ID_TAG_EDITION_UID t.edition_uids
            ++ uidsBytes MKV_ID_TAG_CHAPTER_UID t.chapter_uids
            ++ uidsBytes MKV_ID_TAG_ATTACHMENT_UID t.attachment_uids ++ post) by
          rw [hf]; simp [List.append_assoc])
        (by omega) hwtt
      rw [hstep]
      have htail := targets_uids_tail t.track_uids t.edition_uids
        t.chapter_uids t.attachment_uids hwtrk hwed hwch hwat f
        (pre ++ uintElemBytes MKV_ID_TARGET_TYPE_VALUE t.target_type) post elem
        { { t0 with target_type := MKVTAG_TARGET_ALBUM } with
            target_type := t.target_type } g
        (by rw [hf]; simp [List.append_assoc])
        (by simp only [List.length_append]; omega)
        (by simp only [List.length_append]; omega)
      simp only [List.length_append] at htail
      rw [htail]
      refine Prod.ext ?_ ?_
      · simp [ht0]
      · simp
        omega
  | some s =>
    have hwfs := hwtts s hts
    have hstr := strlenB_of_wf hwfs
    have hdrop := dropTrailingZeros_of_wf hwfs
    rw [hts] at hser
    try dsimp only at hser
    cases hws : ebml_write_string_element MKV_ID_TARGET_TYPE s with
    | error e =>
      rw [hws] at hser
      simp at hser
    | ok c2 =>
      obtain ⟨hbl, rfl⟩ := write_string_inv (by decide) hws
      rw [hstr] at hws hbl
      rw [hws] at hser
      try dsimp only at hser
      rw [writeUids_eq (by decide) t.track_uids,
        writeUids_eq (by decide) t.edition_uids,
        writeUids_eq (by decide) t.chapter_uids,
        writeUids_eq (by decide) t.attachment_uids] at hser
      try dsimp only at hser
      generalize hC : elemBytes MKV_ID_TARGET_TYPE_VALUE
            (bigEndianBytes t.target_type (max (uint_data_size t.target_type) 1))
          ++ elemBytes MKV_ID_TARGET_TYPE s
          ++ uidsBytes MKV_ID_TAG_TRACK_UID t.track_uids
          ++ uidsBytes MKV_ID_TAG_EDITION_UID t.edition_uids
          ++ uidsBytes MKV_ID_TAG_CHAPTER_UID t.chapter_uids
          ++ uidsBytes MKV_ID_TAG_ATTACHMENT_UID t.attachment_uids = C at hser
      cases hhd : ebml_write_master_element_header MKV_ID_TARGETS C.length with
      | error e =>
        rw [hhd] at hser
        simp at hser
      | ok hdr =>
        rw [hhd] at hser
        try dsimp only at hser
        injection hser with hw
        obtain ⟨hclen, hhdr⟩ := master_header_inv (by decide) hhd
        refine ⟨C, ?_, hclen, ?_⟩
        · rw [← hw, hhdr, elemBytes, List.append_assoc]
        intro f pre post elem t0 fuel hf hdo hend ht0 hfuel
        subst hC
        unfold parse_targets
        rw [hdo]
        have h2le := uintElemBytes_two_le MKV_ID_TARGET_TYPE_VALUE t.target_type
        have h2le' := elemBytes_two_le MKV_ID_TARGET_TYPE s
        rw [show (elemBytes MKV_ID_TARGET_TYPE_VALUE
            (bigEndianBytes t.target_type (max (uint_data_size t.target_type) 1)))
          = uintElemBytes MKV_ID_TARGET_TYPE_VALUE t.target_type from rfl]
          at hf hend hfuel ⊢
        simp only [List.length_append] at hend hfuel ⊢
        obtain ⟨g, rfl⟩ : ∃ g, fuel = g + 1 := ⟨fuel - 1, by omega⟩
        have hstep := @targets_loop_ttv_step _ _ _ _ elem
          { t0 with target_type := MKVTAG_TARGET_ALBUM } g
          (show f = pre ++ uintElemBytes MKV_ID_TARGET_TYPE_VALUE t.target_type
            ++ (elemBytes MKV_ID_TARGET_TYPE s
              ++ (uidsBytes MKV_ID_TAG_TRACK_UID t.track_uids
              ++ uidsBytes MKV_ID_TAG_EDITION_UID t.edition_uids
              ++ uidsBytes MKV_ID_TAG_CHAPTER_UID t.chapter_uids
              ++ uidsBytes MKV_ID_TAG_ATTACHMENT_UID t.attachment_uids ++ post)) by
            rw [hf]; simp [List.append_assoc])
          (by omega) hwtt
        rw [hstep]
        obtain ⟨g2, rfl⟩ : ∃ g2, g = g2 + 1 := ⟨g - 1, by omega⟩
        have hstep2 := @targets_loop_tts_step _ _ _ _ elem
          { { t0 with target_type := MKVTAG_TARGET_ALBUM } with
              target_type := t.target_type } g2
          (show f = (pre ++ uintElemBytes MKV_ID_TARGET_TYPE_VALUE t.target_type)
            ++ elemBytes MKV_ID_TARGET_TYPE s
            ++ (uidsBytes MKV_ID_TAG_TRACK_UID t.track_uids
              ++ uidsBytes MKV_ID_TAG_EDITION_UID t.edition_uids
              ++ uidsBytes MKV_ID_TAG_CHAPTER_UID t.chapter_uids
              ++ uidsBytes MKV_ID_TAG_ATTACHMENT_UID t.attachment_uids ++ post) by
            rw [hf]; simp [List.append_assoc])
          (by simp only [List.length_append]; omega) hbl
        simp only [List.length_append] at hstep2
        rw [hstep2]
        have htail := targets_uids_tail t.track_uids t.edition_uids
          t.chapter_uids t.attachment_uids hwtrk hwed hwch hwat f
          (pre ++ uintElemBytes MKV_ID_TARGET_TYPE_VALUE t.target_type
            ++ elemBytes MKV_ID_TARGET_TYPE s) post elem
          { { { t0 with target_type := MKVTAG_TARGET_ALBUM } with
                target_type := t.target_type } with
              target_type_str := some (dropTrailingZeros s) } g2
          (by rw [hf]; simp [List.append_assoc])
          (by simp only [List.length_append]; omega)
          (by simp only [List.length_append]; omega)
        simp only [List.length_append] at htail
        rw [htail]
        refine Prod.ext ?_ ?_
        · simp [hdrop]
        · simp
          omega

/-!  ## SimpleTag round-trip  -/

theorem optWriteString_inv {id : Nat} (hid : id ≠ 0) {o : Option Bytes}
    {c : Bytes} (hwf : ∀ s, o = some s → wfStr s)
    (h : optWriteString id o = .ok c) :
    c = optStrBytes id o ∧ (∀ s, o = some s → s.length ≤ 2 ^ 56 - 2) := by
  cases o with
  | none =>
    injection h with h
    exact ⟨h.symm, by intro s hs; cases hs⟩
  | some s =>
    have hstr := strlenB_of_wf (hwf s rfl)
    have h' : ebml_write_string_element id s = .ok c := h
    obtain ⟨hbl, hc⟩ := write_string_inv hid h'
    refine ⟨hc, ?_⟩
    intro s' hs'
    injection hs' with hs'
    subst hs'
    rw [hstr] at hbl
    exact hbl

theorem optWriteBinary_inv {o : Option Bytes} {c : Bytes}
    (hwf : ∀ b, o = some b → wfBin b)
    (h : optWriteBinary o = .ok c) :
    c = optBinBytes o ∧ (∀ b, o = some b → b.length ≤ 2 ^ 56 - 2) := by
  cases o with
  | none =>
    injection h with h
    exact ⟨h.symm, by intro b hb; cases hb⟩
  | some b =>
    have hne : b ≠ [] := (hwf b rfl).1
    have hpos : b.length > 0 := List.length_pos.mpr hne
    have h' : ebml_write_binary_element MKV_ID_TAG_BINARY b = .ok c := by
      have hx := h
      simp only [optWriteBinary] at hx
      rw [if_pos hpos] at hx
      exact hx
    obtain ⟨hbl, hc⟩ := write_binary_inv (by decide) h'
    refine ⟨?_, ?_⟩
    · rw [hc]
      simp only [optBinBytes]
      rw [if_pos hpos]
    · intro b' hb'
      injection hb' with hb'
      subst hb'
      exact hbl

theorem default_write_eq (d : Nat) :
    defaultWrite d = .ok (defaultBytes d) := by
  unfold defaultWrite defaultBytes
  by_cases hd : d = 0
  · rw [if_pos hd, if_pos hd]
    exact ebml_write_uint_element_eq (by decide) 0
  · rw [if_neg hd, if_neg hd]

theorem name_chunk_chain {o : Option Bytes}
    (hwf : ∀ s, o = some s → wfStr s)
    (hbnd : ∀ s, o = some s → s.length ≤ 2 ^ 56 - 2) :
    ∀ (f pre post : Bytes) (elem : EbmlElem)
      (value binary language : Option Bytes) (d : Nat) (ns : List SimpleTag)
      (fuel : Nat),
    f = pre ++ optStrBytes MKV_ID_TAG_NAME o ++ post →
    pre.length + (optStrBytes MKV_ID_TAG_NAME o).length ≤ elem.end_offset →
    (optStrBytes MKV_ID_TAG_NAME o).length ≤ fuel →
    ∃ g, fuel ≤ g + (optStrBytes MKV_ID_TAG_NAME o).length ∧ g ≤ fuel ∧
      parse_simple_tag_loop f elem pre.length
          (.mk none value binary language d ns) fuel
        = parse_simple_tag_loop f elem
            (pre.length + (optStrBytes MKV_ID_TAG_NAME o).length)
            (.mk o value binary language d ns) g := by
  intro f pre post elem value binary language d ns fuel hf hend hfuel
  cases o with
  | none =>
    exact ⟨fuel, by simp [optStrBytes], le_rfl, by simp [optStrBytes]⟩
  | some s =>
    have hwfs := hwf s rfl
    have hb := hbnd s rfl
    have hstr := strlenB_of_wf hwfs
    have hdrop := dropTrailingZeros_of_wf hwfs
    have h2 := elemBytes_two_le MKV_ID_TAG_NAME (strlenB s)
    simp only [optStrBytes] at hfuel hend
    obtain ⟨g, rfl⟩ : ∃ g, fuel = g + 1 := ⟨fuel - 1, by omega⟩
    refine ⟨g, ?_, by omega, ?_⟩
    · simp only [optStrBytes]
      omega
    · have hstep := @simple_loop_name_step _ _ _ _ elem none value binary language d ns g
        (show f = pre ++ elemBytes MKV_ID_TAG_NAME (strlenB s) ++ post from hf)
        (by have := elemBytes_two_le MKV_ID_TAG_NAME (strlenB s)
            omega)
        (by rw [hstr]; exact hb)
      rw [hstr, hdrop] at hstep
      rw [show optStrBytes MKV_ID_TAG_NAME (some s) = elemBytes MKV_ID_TAG_NAME s by
        simp only [optStrBytes]; rw [hstr]]
      exact hstep

theorem lang_chunk_chain {o : Option Bytes}
    (hwf : ∀ s, o = some s → wfStr s)
    (hbnd : ∀ s, o = some s → s.length ≤ 2 ^ 56 - 2) :
    ∀ (f pre post : Bytes) (elem : EbmlElem)
      (name value binary : Option Bytes) (d : Nat) (ns : List SimpleTag)
      (fuel : Nat),
    f = pre ++ optStrBytes MKV_ID_TAG_LANGUAGE o ++ post →
    pre.length + (optStrBytes MKV_ID_TAG_LANGUAGE o).length ≤ elem.end_offset →
    (optStrBytes MKV_ID_TAG_LANGUAGE o).length ≤ fuel →
    ∃ g, fuel ≤ g + (optStrBytes MKV_ID_TAG_LANGUAGE o).length ∧ g ≤ fuel ∧
      parse_simple_tag_loop f elem pre.length
          (.mk name value binary none d ns) fuel
        = parse_simple_tag_loop f elem
            (pre.length + (optStrBytes MKV_ID_TAG_LANGUAGE o).length)
            (.mk name value binary o d ns) g := by
  intro f pre post elem name value binary d ns fuel hf hend hfuel
  cases o with
  | none =>
    exact ⟨fuel, by simp [optStrBytes], le_rfl, by simp [optStrBytes]⟩
  | some s =>
    have hwfs := hwf s rfl
    have hb := hbnd s rfl
    have hstr := strlenB_of_wf hwfs
    have hdrop := dropTrailingZeros_of_wf hwfs
    have h2 := elemBytes_two_le MKV_ID_TAG_LANGUAGE (strlenB s)
    simp only [optStrBytes] at hfuel hend
    obtain ⟨g, rfl⟩ : ∃ g, fuel = g + 1 := ⟨fuel - 1, by omega⟩
    refine ⟨g, ?_, by omega, ?_⟩
    · simp only [optStrBytes]
      omega
    · have hstep := @simple_loop_lang_step _ _ _ _ elem name value binary none d ns g
        (show f = pre ++ elemBytes MKV_ID_TAG_LANGUAGE (strlenB s) ++ post
          from hf)
        (by have := elemBytes_two_le MKV_ID_TAG_LANGUAGE (strlenB s)
            omega)
        (by rw [hstr]; exact hb)
      rw [hstr, hdrop] at hstep
      rw [show optStrBytes MKV_ID_TAG_LANGUAGE (some s) = elemBytes MKV_ID_TAG_LANGUAGE s by
        simp only [optStrBytes]; rw [hstr]]
      exact hstep

theorem value_chunk_chain {o : Option Bytes}
    (hwf : ∀ s, o = some s → wfStr s)
    (hbnd : ∀ s, o = some s → s.length ≤ 2 ^ 56 - 2) :
    ∀ (f pre post : Bytes) (elem : EbmlElem)
      (name binary language : Option Bytes) (d : Nat) (ns : List SimpleTag)
      (fuel : Nat),
    f = pre ++ optStrBytes MKV_ID_TAG_STRING o ++ post →
    pre.length + (optStrBytes MKV_ID_TAG_STRING o).length ≤ elem.end_offset →
    (optStrBytes MKV_ID_TAG_STRING o).length ≤ fuel →
    ∃ g, fuel ≤ g + (optStrBytes MKV_ID_TAG_STRING o).length ∧ g ≤ fuel ∧
      parse_simple_tag_loop f elem pre.length
          (.mk name none binary language d ns) fuel
        = parse_simple_tag_loop f elem
            (pre.length + (optStrBytes MKV_ID_TAG_STRING o).length)
            (.mk name o binary language d ns) g := by
  intro f pre post elem name binary language d ns fuel hf hend hfuel
  cases o with
  | none =>
    exact ⟨fuel, by simp [optStrBytes], le_rfl, by simp [optStrBytes]⟩
  | some s =>
    have hwfs := hwf s rfl
    have hb := hbnd s rfl
    have hstr := strlenB_of_wf hwfs
    have hdrop := dropTrailingZeros_of_wf hwfs
    have h2 := elemBytes_two_le MKV_ID_TAG_STRING (strlenB s)
    simp only [optStrBytes] at hfuel hend
    obtain ⟨g, rfl⟩ : ∃ g, fuel = g + 1 := ⟨fuel - 1, by omega⟩
    refine ⟨g, ?_, by omega, ?_⟩
    · simp only [optStrBytes]
      omega
    · have hstep := @simple_loop_string_step _ _ _ _ elem name none binary language d ns g
        (show f = pre ++ elemBytes MKV_ID_TAG_STRING (strlenB s) ++ post
          from hf)
        (by have := elemBytes_two_le MKV_ID_TAG_STRING (strlenB s)
            omega)
        (by rw [hstr]; exact hb)
      rw [hstr, hdrop] at hstep
      rw [show optStrBytes MKV_ID_TAG_STRING (some s) = elemBytes MKV_ID_TAG_STRING s by
        simp only [optStrBytes]; rw [hstr]]
      exact hstep

theorem default_chunk_chain {d : Nat} (hd : d ≤ 1) :
    ∀ (f pre post : Bytes) (elem : EbmlElem)
      (name value binary language : Option Bytes) (ns : List SimpleTag)
      (fuel : Nat),
    f = pre ++ defaultBytes d ++ post →
    pre.length + (defaultBytes d).length ≤ elem.end_offset →
    (defaultBytes d).length ≤ fuel →
    ∃ g, fuel ≤ g + (defaultBytes d).length ∧ g ≤ fuel ∧
      parse_simple_tag_loop f elem pre.length
          (.mk name value binary language 1 ns) fuel
        = parse_simple_tag_loop f elem
            (pre.length + (defaultBytes d).length)
            (.mk name value binary language d ns) g := by
  intro f pre post elem name value binary language ns fuel hf hend hfuel
  by_cases hd0 : d = 0
  · subst hd0
    have hdb : defaultBytes 0 = uintElemBytes MKV_ID_TAG_DEFAULT 0 := by
      simp [defaultBytes]
    have h2 := uintElemBytes_two_le MKV_ID_TAG_DEFAULT 0
    rw [hdb] at hfuel hend
    obtain ⟨g, rfl⟩ : ∃ g, fuel = g + 1 := ⟨fuel - 1, by omega⟩
    refine ⟨g, ?_, by omega, ?_⟩
    · rw [hdb]
      omega
    · have hstep := @simple_loop_default_step _ _ _ 0 elem name value binary language 1 ns g
        (show f = pre ++ uintElemBytes MKV_ID_TAG_DEFAULT 0 ++ post by
          rw [hf, hdb])
        (by omega)
        (by norm_num)
      rw [hdb]
      exact hstep
  · have hd1 : d = 1 := by omega
    subst hd1
    refine ⟨fuel, by simp [defaultBytes], le_rfl, by simp [defaultBytes]⟩

theorem binary_chunk_chain {o : Option Bytes}
    (hwf : ∀ b, o = some b → wfBin b)
    (hbnd : ∀ b, o = some b → b.length ≤ 2 ^ 56 - 2) :
    ∀ (f pre post : Bytes) (elem : EbmlElem)
      (name value language : Option Bytes) (d : Nat) (ns : List SimpleTag)
      (fuel : Nat),
    f = pre ++ optBinBytes o ++ post →
    pre.length + (optBinBytes o).length ≤ elem.end_offset →
    (optBinBytes o).length ≤ fuel →
    ∃ g, fuel ≤ g + (optBinBytes o).length ∧ g ≤ fuel ∧
      parse_simple_tag_loop f elem pre.length
          (.mk name value none language d ns) fuel
        = parse_simple_tag_loop f elem
            (pre.length + (optBinBytes o).length)
            (.mk name value o language d ns) g := by
  intro f pre post elem name value language d ns fuel hf hend hfuel
  cases o with
  | none =>
    exact ⟨fuel, by simp [optBinBytes], le_rfl, by simp [optBinBytes]⟩
  | some b =>
    have hne : b ≠ [] := (hwf b rfl).1
    have hpos : b.length > 0 := List.length_pos.mpr hne
    have hb := hbnd b rfl
    have h2 := elemBytes_two_le MKV_ID_TAG_BINARY b
    have hob : optBinBytes (some b) = elemBytes MKV_ID_TAG_BINARY b := by
      simp only [optBinBytes]
      rw [if_pos hpos]
    rw [hob] at hfuel hend
    obtain ⟨g, rfl⟩ : ∃ g, fuel = g + 1 := ⟨fuel - 1, by omega⟩
    refine ⟨g, ?_, by omega, ?_⟩
    · rw [hob]
      omega
    · have hstep := @simple_loop_binary_step _ _ _ _ elem name value none language d ns g
        (show f = pre ++ elemBytes MKV_ID_TAG_BINARY b ++ post by
          rw [hf, hob])
        (by omega) hb hne
      rw [hob]
      exact hstep

set_option maxHeartbeats 2000000 in
theorem simple_roundtrip (n : Nat) :
    (∀ st : SimpleTag, sizeST st ≤ n → wfSimpleTag st →
      ∀ w : Bytes, serialize_simple_tag st = .ok w →
      ∃ content : Bytes, w = elemBytes MKV_ID_SIMPLE_TAG content ∧
        content.length ≤ 2 ^ 56 - 2 ∧
        ∀ (f pre post : Bytes) (elem : EbmlElem) (fuel : Nat),
          f = pre ++ content ++ post →
          elem.end_offset = pre.length + content.length →
          content.length ≤ fuel →
          parse_simple_tag_loop f elem pre.length emptySimpleTag fuel
            = (revSimpleTag st, pre.length + content.length))
    ∧ (∀ ns : List SimpleTag, sizeSTL ns ≤ n → wfSimpleTagList ns →
      ∀ w : Bytes, serialize_simple_tag_list ns = .ok w →
      ∀ (f pre post : Bytes) (elem : EbmlElem)
        (name value binary language : Option Bytes) (d : Nat)
        (acc0 : List SimpleTag) (fuel : Nat),
        f = pre ++ w ++ post →
        elem.end_offset = pre.length + w.length →
        w.length ≤ fuel →
        parse_simple_tag_loop f elem pre.length
            (.mk name value binary language d acc0) fuel
          = (.mk name value binary language d
              ((revSimpleTagList ns).reverse ++ acc0),
             pre.length + w.length)) := by
  induction n with
  | zero =>
    constructor
    · intro st hsize
      cases st with
      | mk nm v b l d ns =>
        exfalso
        simp [sizeST] at hsize
    · intro ns hsize hwf w hser f pre post elem name value binary language d
        acc0 fuel hf hend hfuel
      cases ns with
      | nil =>
        simp only [serialize_simple_tag_list] at hser
        injection hser with hw
        subst hw
        rw [simple_loop_at_end (by simp at hend; omega)]
        simp [revSimpleTagList]
      | cons st rest =>
        exfalso
        cases st with
        | mk nm v b l dd nns => simp [sizeSTL, sizeST] at hsize
    | succ n ih =>
    obtain ⟨ihST, ihNL⟩ := ih
    constructor
    · intro st hsize hwf w hser
      cases st with
      | mk nm v b l d ns =>
      simp only [sizeST] at hsize
      have hns : sizeSTL ns ≤ n := by omega
      simp only [wfSimpleTag] at hwf
      obtain ⟨hwn, hwv, hwb, hwl, hwd, hwns⟩ := hwf
      simp only [serialize_simple_tag] at hser
      simp only [bind, Except.bind, pure, Except.pure] at hser
      cases hc1 : optWriteString MKV_ID_TAG_NAME nm with
      | error e =>
        rw [hc1] at hser
        simp at hser
      | ok c1 =>
      rw [hc1] at hser
      try dsimp only at hser
      obtain ⟨hc1e, hbnd1⟩ := optWriteString_inv (by decide) hwn hc1
      subst hc1e
      cases hc2 : optWriteString MKV_ID_TAG_LANGUAGE l with
      | error e =>
        rw [hc2] at hser
        simp at hser
      | ok c2 =>
      rw [hc2] at hser
      try dsimp only at hser
      obtain ⟨hc2e, hbnd2⟩ := optWriteString_inv (by decide) hwl hc2
      subst hc2e
      rw [default_write_eq d] at hser
      try dsimp only at hser
      cases hc4 : optWriteString MKV_ID_TAG_STRING v with
      | error e =>
        rw [hc4] at hser
        simp at hser
      | ok c4 =>
      rw [hc4] at hser
      try dsimp only at hser
      obtain ⟨hc4e, hbnd4⟩ := optWriteString_inv (by decide) hwv hc4
      subst hc4e
      cases hc5 : optWriteBinary b with
      | error e =>
        rw [hc5] at hser
        simp at hser
      | ok c5 =>
      rw [hc5] at hser
      try dsimp only at hser
      obtain ⟨hc5e, hbnd5⟩ := optWriteBinary_inv hwb hc5
      subst hc5e
      cases hc6 : serialize_simple_tag_list ns with
      | error e =>
        rw [hc6] at hser
        simp at hser
      | ok c6 =>
      rw [hc6] at hser
      try dsimp only at hser
      generalize hC : optStrBytes MKV_ID_TAG_NAME nm
          ++ optStrBytes MKV_ID_TAG_LANGUAGE l
          ++ defaultBytes d
          ++ optStrBytes MKV_ID_TAG_STRING v
          ++ optBinBytes b
          ++ c6 = C at hser
      cases hhd : ebml_write_master_element_header MKV_ID_SIMPLE_TAG
          C.length with
      | error e =>
        rw [hhd] at hser
        simp at hser
      | ok hdr =>
      rw [hhd] at hser
      try dsimp only at hser
      injection hser with hw
      obtain ⟨hclen, hhdr⟩ := master_header_inv (by decide) hhd
      refine ⟨C, ?_, hclen, ?_⟩
      · rw [← hw, hhdr, elemBytes, List.append_assoc]
      intro f pre post elem fuel hf hend hfuel
      subst hC
      simp only [List.length_append] at hend hfuel
      rw [show (emptySimpleTag : SimpleTag)
        = SimpleTag.mk none none none none 1 [] from rfl]
      obtain ⟨g1, hg1a, hg1b, he1⟩ := name_chunk_chain hwn hbnd1 f pre
        (optStrBytes MKV_ID_TAG_LANGUAGE l ++ defaultBytes d
          ++ optStrBytes MKV_ID_TAG_STRING v ++ optBinBytes b ++ c6 ++ post)
        elem none none none 1 [] fuel
        (by rw [hf]; simp [List.append_assoc]) (by omega) (by omega)
      rw [he1]
      obtain ⟨g2, hg2a, hg2b, he2⟩ := lang_chunk_chain hwl hbnd2 f
        (pre ++ optStrBytes MKV_ID_TAG_NAME nm)
        (defaultBytes d ++ optStrBytes MKV_ID_TAG_STRING v
          ++ optBinBytes b ++ c6 ++ post)
        elem nm none none 1 [] g1
        (by rw [hf]; simp [List.append_assoc])
        (by simp only [List.length_append]; omega)
        (by omega)
      simp only [List.length_append] at he2
      rw [he2]
      obtain ⟨g3, hg3a, hg3b, he3⟩ := default_chunk_chain hwd f
        (pre ++ optStrBytes MKV_ID_TAG_NAME nm
          ++ optStrBytes MKV_ID_TAG_LANGUAGE l)
        (optStrBytes MKV_ID_TAG_STRING v ++ optBinBytes b ++ c6 ++ post)
        elem nm none none l [] g2
        (by rw [hf]; simp [List.append_assoc])
        (by simp only [List.length_append]; omega)
        (by omega)
      simp only [List.length_append] at he3
      rw [he3]
      obtain ⟨g4, hg4a, hg4b, he4⟩ := value_chunk_chain hwv hbnd4 f
        (pre ++ optStrBytes MKV_ID_TAG_NAME nm
          ++ optStrBytes MKV_ID_TAG_LANGUAGE l ++ defaultBytes d)
        (optBinBytes b ++ c6 ++ post)
        elem nm none l d [] g3
        (by rw [hf]; simp [List.append_assoc])
        (by simp only [List.length_append]; omega)
        (by omega)
      simp only [List.length_append] at he4
      rw [he4]
      obtain ⟨g5, hg5a, hg5b, he5⟩ := binary_chunk_chain hwb hbnd5 f
        (pre ++ optStrBytes MKV_ID_TAG_NAME nm
          ++ optStrBytes MKV_ID_TAG_LANGUAGE l ++ defaultBytes d
          ++ optStrBytes MKV_ID_TAG_STRING v)
        (c6 ++ post)
        elem nm v l d [] g4
        (by rw [hf]; simp [List.append_assoc])
        (by simp only [List.length_append]; omega)
        (by omega)
      simp only [List.length_append] at he5
      rw [he5]
      have hnl := ihNL ns hns hwns c6 hc6 f
        (pre ++ optStrBytes MKV_ID_TAG_NAME nm
          ++ optStrBytes MKV_ID_TAG_LANGUAGE l ++ defaultBytes d
          ++ optStrBytes MKV_ID_TAG_STRING v ++ optBinBytes b)
        post elem nm v b l d [] g5
        (by rw [hf]; simp [List.append_assoc])
        (by simp only [List.length_append]; omega)
        (by omega)
      simp only [List.length_append] at hnl
      rw [hnl]
      refine Prod.ext ?_ ?_
      · simp [revSimpleTag]
      · simp
        omega
    · intro ns hsize hwf w hser f pre post elem name value binary language d
        acc0 fuel hf hend hfuel
      cases ns with
      | nil =>
        simp only [serialize_simple_tag_list] at hser
        injection hser with hw
        subst hw
        rw [simple_loop_at_end (by simp at hend; omega)]
        simp [revSimpleTagList]
      | cons st rest =>
      have hsizes : sizeST st ≤ n ∧ sizeSTL rest ≤ n := by
        cases st with
        | mk nm v b l dd nns =>
          simp only [sizeSTL] at hsize
          constructor <;> omega
      simp only [wfSimpleTagList] at hwf
      obtain ⟨hwst, hwrest⟩ := hwf
      simp only [serialize_simple_tag_list] at hser
      simp only [bind, Except.bind, pure, Except.pure] at hser
      cases hb1 : serialize_simple_tag st with
      | error e =>
        rw [hb1] at hser
        simp at hser
      | ok b1 =>
      rw [hb1] at hser
      try dsimp only at hser
      cases hr : serialize_simple_tag_list rest with
      | error e =>
        rw [hr] at hser
        simp at hser
      | ok r =>
      rw [hr] at hser
      try dsimp only at hser
      injection hser with hw
      subst hw
      obtain ⟨content, hbw, hclen, hcomp⟩ := ihST st hsizes.1 hwst b1 hb1
      subst hbw
      have hb2 := elemBytes_two_le MKV_ID_SIMPLE_TAG content
      have hblen := elemBytes_length MKV_ID_SIMPLE_TAG hclen
      obtain ⟨hv1, hv2, hv3⟩ := vint_size_pos hclen
      obtain ⟨hi1, hi2⟩ := idByteLen_bounds MKV_ID_SIMPLE_TAG
      simp only [List.length_append] at hend hfuel
      obtain ⟨g, rfl⟩ : ∃ g, fuel = g + 1 := ⟨fuel - 1, by omega⟩
      have hinner := hcomp f
        (pre ++ bigEndianBytes MKV_ID_SIMPLE_TAG (idByteLen MKV_ID_SIMPLE_TAG)
          ++ vintBytes content.length)
        (r ++ post)
        { id := MKV_ID_SIMPLE_TAG, size := content.length,
          data_offset := pre.length + idByteLen MKV_ID_SIMPLE_TAG
            + ebml_vint_size content.length,
          end_offset := pre.length + idByteLen MKV_ID_SIMPLE_TAG
            + ebml_vint_size content.length + content.length,
          size_length := ebml_vint_size content.length,
          id_length := idByteLen MKV_ID_SIMPLE_TAG, is_unknown_size := false }
        g
        (by rw [hf]; simp [elemBytes, List.append_assoc])
        (by simp only [List.length_append, bigEndianBytes_length,
              vintBytes_length hclen])
        (by omega)
      simp only [List.length_append, bigEndianBytes_length,
        vintBytes_length hclen] at hinner
      have hstep := @simple_loop_nested_step _ _ _ _ elem name value binary language d acc0 g _ _
        (show f = pre ++ elemBytes MKV_ID_SIMPLE_TAG content ++ (r ++ post) by
          rw [hf]; simp [List.append_assoc])
        (by omega) hclen hinner
      rw [hstep]
      have hrest := ihNL rest hsizes.2 hwrest r hr f
        (pre ++ elemBytes MKV_ID_SIMPLE_TAG content) post elem
        name value binary language d (revSimpleTag st :: acc0) g
        (by rw [hf]; simp [List.append_assoc])
        (by simp only [List.length_append]; omega)
        (by omega)
      simp only [List.length_append] at hrest
      rw [hrest]
      refine Prod.ext ?_ ?_
      · simp [revSimpleTagList]
      · simp
        omega

theorem simple_tag_serialize_parse {st : SimpleTag} (hwf : wfSimpleTag st)
    {w : Bytes} (hser : serialize_simple_tag st = .ok w) :
    ∃ content : Bytes, w = elemBytes MKV_ID_SIMPLE_TAG content ∧
      content.length ≤ 2 ^ 56 - 2 ∧
      ∀ (f pre post : Bytes) (elem : EbmlElem) (fuel : Nat),
        f = pre ++ content ++ post →
        elem.end_offset = pre.length + content.length →
        content.length ≤ fuel →
        parse_simple_tag_loop f elem pre.length emptySimpleTag fuel
          = (revSimpleTag st, pre.length + content.length) :=
  (simple_roundtrip (sizeST st)).1 st le_rfl hwf w hser

theorem tag_simple_list_complete (ns : List SimpleTag) :
    ∀ (_ : wfSimpleTagList ns) (w : Bytes)
      (_ : serialize_simple_tag_list ns = .ok w)
      (f pre post : Bytes) (elem : EbmlElem) (t0 : Tag) (fuel : Nat),
    f = pre ++ w ++ post →
    elem.end_offset = pre.length + w.length →
    w.length ≤ fuel →
    parse_tag_loop f elem pre.length t0 fuel
      = ({ t0 with
            simple_tags := (revSimpleTagList ns).reverse ++ t0.simple_tags },
         pre.length + w.length) := by
  induction ns with
  | nil =>
    intro hwf w hser f pre post elem t0 fuel hf hend hfuel
    simp only [serialize_simple_tag_list] at hser
    injection hser with hw
    subst hw
    rw [tag_loop_at_end (by simp at hend; omega)]
    refine Prod.ext ?_ ?_
    · simp [revSimpleTagList]
    · simp
  | cons st rest ih =>
    intro hwf w hser f pre post elem t0 fuel hf hend hfuel
    simp only [wfSimpleTagList] at hwf
    obtain ⟨hwst, hwrest⟩ := hwf
    simp only [serialize_simple_tag_list] at hser
    simp only [bind, Except.bind, pure, Except.pure] at hser
    cases hb1 : serialize_simple_tag st with
    | error e =>
      rw [hb1] at hser
      simp at hser
    | ok b1 =>
    rw [hb1] at hser
    try dsimp only at hser
    cases hr : serialize_simple_tag_list rest with
    | error e =>
      rw [hr] at hser
      simp at hser
    | ok r =>
    rw [hr] at hser
    try dsimp only at hser
    injection hser with hw
    subst hw
    obtain ⟨content, hbw, hclen, hcomp⟩ := simple_tag_serialize_parse hwst hb1
    subst hbw
    have hb2 := elemBytes_two_le MKV_ID_SIMPLE_TAG content
    have hblen := elemBytes_length MKV_ID_SIMPLE_TAG hclen
    obtain ⟨hv1, hv2, hv3⟩ := vint_size_pos hclen
    obtain ⟨hi1, hi2⟩ := idByteLen_bounds MKV_ID_SIMPLE_TAG
    simp only [List.length_append] at hend hfuel
    obtain ⟨g, rfl⟩ : ∃ g, fuel = g + 1 := ⟨fuel - 1, by omega⟩
    have hinner0 := hcomp f
      (pre ++ bigEndianBytes MKV_ID_SIMPLE_TAG (idByteLen MKV_ID_SIMPLE_TAG)
        ++ vintBytes content.length)
      (r ++ post)
      { id := MKV_ID_SIMPLE_TAG, size := content.length,
        data_offset := pre.length + idByteLen MKV_ID_SIMPLE_TAG
          + ebml_vint_size content.length,
        end_offset := pre.length + idByteLen MKV_ID_SIMPLE_TAG
          + ebml_vint_size content.length + content.length,
        size_length := ebml_vint_size content.length,
        id_length := idByteLen MKV_ID_SIMPLE_TAG, is_unknown_size := false }
      g
      (by rw [hf]; simp [elemBytes, List.append_assoc])
      (by simp only [List.length_append, bigEndianBytes_length,
            vintBytes_length hclen])
      (by omega)
    simp only [List.length_append, bigEndianBytes_length,
      vintBytes_length hclen] at hinner0
    have hinner : parse_simple_tag f
        { id := MKV_ID_SIMPLE_TAG, size := content.length,
          data_offset := pre.length + idByteLen MKV_ID_SIMPLE_TAG
            + ebml_vint_size content.length,
          end_offset := pre.length + idByteLen MKV_ID_SIMPLE_TAG
            + ebml_vint_size content.length + content.length,
          size_length := ebml_vint_size content.length,
          id_length := idByteLen MKV_ID_SIMPLE_TAG, is_unknown_size := false }
        g = (revSimpleTag st, pre.length + idByteLen MKV_ID_SIMPLE_TAG
          + ebml_vint_size content.length + content.length) := by
      unfold parse_simple_tag
      dsimp only
      rw [hinner0]
    have hstep := @tag_loop_simple_step _ _ _ _ elem t0 g _ _
      (show f = pre ++ elemBytes MKV_ID_SIMPLE_TAG content ++ (r ++ post) by
        rw [hf]; simp [List.append_assoc])
      (by omega) hclen hinner
    rw [hstep]
    have hrest := ih hwrest r hr f
      (pre ++ elemBytes MKV_ID_SIMPLE_TAG content) post elem
      { t0 with simple_tags := revSimpleTag st :: t0.simple_tags } g
      (by rw [hf]; simp [List.append_assoc])
      (by simp only [List.length_append]; omega)
      (by omega)
    simp only [List.length_append] at hrest
    rw [hrest]
    refine Prod.ext ?_ ?_
    · simp [revSimpleTagList]
    · simp
      omega

set_option maxHeartbeats 1000000 in
theorem parse_tag_of_serialize {t : Tag} (hwf : wfTag t) {w : Bytes}
    (hser : serialize_tag t = .ok w) :
    ∃ content : Bytes, w = elemBytes MKV_ID_TAG content ∧
      content.length ≤ 2 ^ 56 - 2 ∧
      ∀ (f pre post : Bytes) (elem : EbmlElem) (fuel : Nat),
        f = pre ++ content ++ post →
        elem.data_offset = pre.length →
        elem.end_offset = pre.length + content.length →
        content.length ≤ fuel →
        parse_tag f elem fuel = (revTag t, pre.length + content.length) := by
  have hwfst : wfSimpleTagList t.simple_tags := hwf.2.2.2.2.2.2
  unfold serialize_tag at hser
  simp only [bind, Except.bind, pure, Except.pure] at hser
  cases hts : serialize_targets t with
  | error e =>
    rw [hts] at hser
    simp at hser
  | ok cT =>
  rw [hts] at hser
  try dsimp only at hser
  cases hsl : serialize_simple_tag_list t.simple_tags with
  | error e =>
    rw [hsl] at hser
    simp at hser
  | ok cS =>
  rw [hsl] at hser
  try dsimp only at hser
  generalize hC : cT ++ cS = C at hser
  cases hhd : ebml_write_master_element_header MKV_ID_TAG C.length with
  | error e =>
    rw [hhd] at hser
    simp at hser
  | ok hdr =>
  rw [hhd] at hser
  try dsimp only at hser
  injection hser with hw
  obtain ⟨hclen, hhdr⟩ := master_header_inv (by decide) hhd
  obtain ⟨contentT, hTw, hTlen, hTcomp⟩ := parse_targets_of_serialize hwf hts
  subst hTw
  refine ⟨C, ?_, hclen, ?_⟩
  · rw [← hw, hhdr, elemBytes, List.append_assoc]
  intro f pre post elem fuel hf hdo hend hfuel
  subst hC
  unfold parse_tag
  rw [hdo]
  have hT2 := elemBytes_two_le MKV_ID_TARGETS contentT
  have hTblen := elemBytes_length MKV_ID_TARGETS hTlen
  obtain ⟨hv1, hv2, hv3⟩ := vint_size_pos hTlen
  obtain ⟨hi1, hi2⟩ := idByteLen_bounds MKV_ID_TARGETS
  simp only [List.length_append] at hend hfuel
  obtain ⟨g, rfl⟩ : ∃ g, fuel = g + 1 := ⟨fuel - 1, by omega⟩
  have hinner0 := hTcomp f
    (pre ++ bigEndianBytes MKV_ID_TARGETS (idByteLen MKV_ID_TARGETS)
      ++ vintBytes contentT.length)
    (cS ++ post)
    { id := MKV_ID_TARGETS, size := contentT.length,
      data_offset := pre.length + idByteLen MKV_ID_TARGETS
        + ebml_vint_size contentT.length,
      end_offset := pre.length + idByteLen MKV_ID_TARGETS
        + ebml_vint_size contentT.length + contentT.length,
      size_length := ebml_vint_size contentT.length,
      id_length := idByteLen MKV_ID_TARGETS, is_unknown_size := false }
    emptyTag g
    (by rw [hf]; simp [elemBytes, List.append_assoc])
    (by simp only [List.length_append, bigEndianBytes_length,
          vintBytes_length hTlen])
    (by simp only [List.length_append, bigEndianBytes_length,
          vintBytes_length hTlen])
    (by rfl)
    (by omega)
  simp only [List.length_append, bigEndianBytes_length,
    vintBytes_length hTlen] at hinner0
  have hstep := @tag_loop_targets_step _ _ _ _ elem emptyTag g _ _
    (show f = pre ++ elemBytes MKV_ID_TARGETS contentT ++ (cS ++ post) by
      rw [hf]; simp [List.append_assoc])
    (by omega) hTlen hinner0
  rw [hstep]
  have hrest := tag_simple_list_complete t.simple_tags hwfst cS hsl f
    (pre ++ elemBytes MKV_ID_TARGETS contentT) post elem
    { target_type := t.target_type,
      target_type_str := t.target_type_str,
      track_uids := emptyTag.track_uids ++ t.track_uids,
      edition_uids := emptyTag.edition_uids ++ t.edition_uids,
      chapter_uids := emptyTag.chapter_uids ++ t.chapter_uids,
      attachment_uids := emptyTag.attachment_uids ++ t.attachment_uids,
      simple_tags := emptyTag.simple_tags } g
    (by rw [hf]; simp [List.append_assoc])
    (by simp only [List.length_append]; omega)
    (by omega)
  simp only [List.length_append] at hrest
  rw [hrest]
  refine Prod.ext ?_ ?_
  · simp [revTag, emptyTag]
  · simp
    omega

theorem tags_list_complete (ts : List Tag) :
    ∀ (_ : ∀ t ∈ ts, wfTag t) (w : Bytes)
      (_ : serialize_tag_list ts = .ok w)
      (f pre post : Bytes) (elem : EbmlElem) (acc0 : List Tag) (fuel : Nat),
    f = pre ++ w ++ post →
    elem.end_offset = pre.length + w.length →
    w.length ≤ fuel →
    parse_tags_loop f elem pre.length acc0 fuel
      = acc0 ++ ts.map revTag := by
  induction ts with
  | nil =>
    intro hwf w hser f pre post elem acc0 fuel hf hend hfuel
    simp only [serialize_tag_list] at hser
    injection hser with hw
    subst hw
    rw [tags_loop_at_end (by simp at hend; omega)]
    simp
  | cons t rest ih =>
    intro hwf w hser f pre post elem acc0 fuel hf hend hfuel
    have hwt : wfTag t := hwf t (List.mem_cons_self t rest)
    have hwrest : ∀ x ∈ rest, wfTag x :=
      fun x hx => hwf x (List.mem_cons_of_mem _ hx)
    simp only [serialize_tag_list] at hser
    simp only [bind, Except.bind, pure, Except.pure] at hser
    cases hb1 : serialize_tag t with
    | error e =>
      rw [hb1] at hser
      simp at hser
    | ok b1 =>
    rw [hb1] at hser
    try dsimp only at hser
    cases hr : serialize_tag_list rest with
    | error e =>
      rw [hr] at hser
      simp at hser
    | ok r =>
    rw [hr] at hser
    try dsimp only at hser
    injection hser with hw
    subst hw
    obtain ⟨content, hbw, hclen, hcomp⟩ := parse_tag_of_serialize hwt hb1
    subst hbw
    have hb2 := elemBytes_two_le MKV_ID_TAG content
    have hblen := elemBytes_length MKV_ID_TAG hclen
    obtain ⟨hv1, hv2, hv3⟩ := vint_size_pos hclen
    obtain ⟨hi1, hi2⟩ := idByteLen_bounds MKV_ID_TAG
    simp only [List.length_append] at hend hfuel
    obtain ⟨g, rfl⟩ : ∃ g, fuel = g + 1 := ⟨fuel - 1, by omega⟩
    have hinner := hcomp f
      (pre ++ bigEndianBytes MKV_ID_TAG (idByteLen MKV_ID_TAG)
        ++ vintBytes content.length)
      (r ++ post)
      { id := MKV_ID_TAG, size := content.length,
        data_offset := pre.length + idByteLen MKV_ID_TAG
          + ebml_vint_size content.length,
        end_offset := pre.length + idByteLen MKV_ID_TAG
          + ebml_vint_size content.length + content.length,
        size_length := ebml_vint_size content.length,
        id_length := idByteLen MKV_ID_TAG, is_unknown_size := false }
      g
      (by rw [hf]; simp [elemBytes, List.append_assoc])
      (by simp only [List.length_append, bigEndianBytes_length,
            vintBytes_length hclen])
      (by simp only [List.length_append, bigEndianBytes_length,
            vintBytes_length hclen])
      (by omega)
    simp only [List.length_append, bigEndianBytes_length,
      vintBytes_length hclen] at hinner
    have hstep := @tags_loop_tag_step _ _ _ _ elem acc0 g _ _
      (show f = pre ++ elemBytes MKV_ID_TAG content ++ (r ++ post) by
        rw [hf]; simp [List.append_assoc])
      (by omega) hclen hinner
    rw [hstep]
    have hrest := ih hwrest r hr f
      (pre ++ elemBytes MKV_ID_TAG content) post elem
      (acc0 ++ [revTag t]) g
      (by rw [hf]; simp [List.append_assoc])
      (by simp only [List.length_append]; omega)
      (by omega)
    simp only [List.length_append] at hrest
    rw [hrest]
    simp

/-- The central round-trip: parsing a serialized collection yields the
collection with every simple-tag list recursively reversed. -/
theorem mkv_tags_parse_serialize {c : Collection} (hwf : wfCollection c)
    {w : Bytes} (hser : mkv_tags_serialize c = .ok w)
    (f pre post : Bytes) (elem : EbmlElem)
    (hf : f = pre ++ w ++ post)
    (hdo : elem.data_offset = pre.length)
    (hend : elem.end_offset = pre.length + w.length) :
    mkv_tags_parse f elem = .ok (revCollection c) := by
  unfold mkv_tags_parse
  rw [hdo]
  have hlen : w.length ≤ f.length + 1 := by
    rw [hf]
    simp only [List.length_append]
    omega
  rw [tags_list_complete c.tags hwf w hser f pre post elem [] (f.length + 1)
    hf hend hlen]
  rfl

theorem revSimpleTagList_map_name (ns : List SimpleTag) :
    (revSimpleTagList ns).map SimpleTag.name = ns.map SimpleTag.name := by
  induction ns with
  | nil => rfl
  | cons st rest ih =>
    cases st with
    | mk nm v b l d nns =>
      simp [revSimpleTagList, revSimpleTag, SimpleTag.name, ih]

/-- C2 counterexample: in `exFileBytes` the SimpleTag named "A" (0x41)
precedes the SimpleTag named "B" (0x42) in the file, yet `mkv_tags_parse`
returns the simple-tag list with "B" first — not file order, refuting the
claim that the first SimpleTag in the file is the first of the list. -/
theorem simple_tags_not_file_order :
    (match mkv_tags_parse exFileBytes exFileElem with
      | .ok c => c.tags.map (fun t => t.simple_tags.map SimpleTag.name)
      | .error _ => []) = [[some [66], some [65]]] := by
  set_option maxRecDepth 10000 in decide

/-- C2 (amended): `parse_tag` and `parse_simple_tag` PREPEND each
SimpleTag, so `mkv_tags_parse` of a serialized collection yields each
simple-tag list (recursively) in REVERSE file order: the parsed name
list of every tag is the reverse of the serialized (file-order) name
list. -/
theorem simple_tags_parsed_reversed (c : Collection) (hwf : wfCollection c)
    (w : Bytes) (hser : mkv_tags_serialize c = .ok w)
    (f pre post : Bytes) (elem : EbmlElem)
    (hf : f = pre ++ w ++ post) (hdo : elem.data_offset = pre.length)
    (hend : elem.end_offset = pre.length + w.length) :
    mkv_tags_parse f elem = .ok (revCollection c) ∧
    ∀ t ∈ c.tags, (revTag t).simple_tags.map SimpleTag.name
        = (t.simple_tags.map SimpleTag.name).reverse := by
  refine ⟨mkv_tags_parse_serialize hwf hser f pre post elem hf hdo hend, ?_⟩
  intro t ht
  simp [revTag, revSimpleTagList_map_name]

theorem simple_tags_parsed_reversed_witness :
    wfCollection exColl ∧ mkv_tags_serialize exColl = .ok exBytes ∧
      (mkv_tags_parse exBytes exTagsElem = .ok (revCollection exColl) ∧
       ∀ t ∈ exColl.tags, (revTag t).simple_tags.map SimpleTag.name
          = (t.simple_tags.map SimpleTag.name).reverse) := by
  have hwf : wfCollection exColl := by
    intro t ht
    simp only [exColl, List.mem_singleton] at ht
    subst ht
    refine ⟨by norm_num [exTag], by simp [exTag], by simp [exTag],
      by simp [exTag], by simp [exTag], by simp [exTag], ?_⟩
    simp only [exTag, wfSimpleTagList, wfSimpleTag, exSimpleA, exSimpleB]
    refine ⟨⟨?_, ?_, ?_, ?_, ?_, trivial⟩, ⟨?_, ?_, ?_, ?_, ?_, trivial⟩,
      trivial⟩ <;> first
      | omega
      | (intro s hs; injection hs with hs; subst hs;
         intro x hx; simp at hx; omega)
      | (intro s hs; cases hs)
  have hser : mkv_tags_serialize exColl = .ok exBytes := by rfl
  exact ⟨hwf, hser,
    simple_tags_parsed_reversed exColl hwf exBytes hser exBytes [] []
      exTagsElem (by simp) rfl (by simp [exTagsElem])⟩

/-- C3 counterexample: serializing the two-simple-tag collection `exColl`
("A" before "B") and parsing the result yields the simple tags as "B"
before "A" — NOT equivalent to the original collection up to the
canonical write order of §4.F, which keeps "A" first. -/
theorem tags_roundtrip_not_identity :
    (match mkv_tags_parse exBytes exTagsElem with
      | .ok c => c.tags.map (fun t => t.simple_tags.map SimpleTag.name)
      | .error _ => []) = [[some [66], some [65]]]
    ∧ exColl.tags.map (fun t => t.simple_tags.map SimpleTag.name)
      = [[some [65], some [66]]] := by
  constructor
  · set_option maxRecDepth 10000 in decide
  · decide

/-- C3 (amended): for a well-formed collection, serializing and parsing
is lossless EXCEPT that every simple-tag list comes back recursively
reversed: the round-trip yields exactly `revCollection c`, not `c`. -/
theorem tags_roundtrip_rev (c : Collection) (hwf : wfCollection c)
    (w : Bytes) (hser : mkv_tags_serialize c = .ok w)
    (f pre post : Bytes) (elem : EbmlElem)
    (hf : f = pre ++ w ++ post) (hdo : elem.data_offset = pre.length)
    (hend : elem.end_offset = pre.length + w.length) :
    mkv_tags_parse f elem = .ok (revCollection c) :=
  mkv_tags_parse_serialize hwf hser f pre post elem hf hdo hend

theorem tags_roundtrip_rev_witness :
    wfCollection exColl ∧ mkv_tags_serialize exColl = .ok exBytes ∧
      mkv_tags_parse exBytes exTagsElem = .ok (revCollection exColl) := by
  have hwf : wfCollection exColl := by
    intro t ht
    simp only [exColl, List.mem_singleton] at ht
    subst ht
    refine ⟨by norm_num [exTag], by simp [exTag], by simp [exTag],
      by simp [exTag], by simp [exTag], by simp [exTag], ?_⟩
    simp only [exTag, wfSimpleTagList, wfSimpleTag, exSimpleA, exSimpleB]
    refine ⟨⟨?_, ?_, ?_, ?_, ?_, trivial⟩, ⟨?_, ?_, ?_, ?_, ?_, trivial⟩,
      trivial⟩ <;> first
      | omega
      | (intro s hs; injection hs with hs; subst hs;
         intro x hx; simp at hx; omega)
      | (intro s hs; cases hs)
  have hser : mkv_tags_serialize exColl = .ok exBytes := by rfl
  exact ⟨hwf, hser,
    tags_roundtrip_rev exColl hwf exBytes hser exBytes [] []
      exTagsElem (by simp) rfl (by simp [exTagsElem])⟩

/-!  ## C4: serialization of name-less simple tags  -/

theorem optWriteString_eq_of_bound {id : Nat} (hid : id ≠ 0)
    {o : Option Bytes} (hb : ∀ s, o = some s → (strlenB s).length ≤ 2 ^ 56 - 2) :
    optWriteString id o = .ok (optStrBytes id o) := by
  cases o with
  | none => rfl
  | some s =>
    have : optStrBytes id (some s) = elemBytes id (strlenB s) := rfl
    rw [this]
    exact ebml_write_string_element_eq hid (hb s rfl)

theorem optWriteBinary_eq_of_bound {o : Option Bytes}
    (hb : ∀ s, o = some s → s.length ≤ 2 ^ 56 - 2) :
    optWriteBinary o = .ok (optBinBytes o) := by
  cases o with
  | none => rfl
  | some b =>
    simp only [optWriteBinary, optBinBytes]
    by_cases hpos : b.length > 0
    · rw [if_pos hpos, if_pos hpos]
      exact ebml_write_binary_element_eq (by decide) (hb b rfl)
    · rw [if_neg hpos, if_neg hpos]

/-- C4 counterexample: a collection whose only simple tag has NO name
serializes successfully — `mkv_tags_serialize` returns `ok` with the
TagName element silently omitted, refuting "rejects ... on
serialization". -/
theorem serialize_accepts_missing_name :
    mkv_tags_serialize
        ⟨[{ target_type := 50, target_type_str := none, track_uids := [],
            edition_uids := [], chapter_uids := [], attachment_uids := [],
            simple_tags := [.mk none (some [88]) none none 1 []] }]⟩
      = .ok [0x73, 0x73, 0x8E,
             0x63, 0xC0, 0x84, 0x68, 0xCA, 0x81, 50,
             0x67, 0xC8, 0x84, 0x44, 0x87, 0x81, 88] := by
  set_option maxRecDepth 10000 in rfl

/-- C4 (amended): `serialize_simple_tag` never rejects a simple tag for a
missing name: whenever the remaining fields serialize (bounded lengths,
nested list ok), a tag with `name = none` serializes successfully, with
the TagName chunk (`optStrBytes MKV_ID_TAG_NAME none = []`) omitted. -/
theorem serialize_none_name_ok
    (value binary language : Option Bytes) (d : Nat) (ns : List SimpleTag)
    (hval : ∀ s, value = some s → (strlenB s).length ≤ 2 ^ 56 - 2)
    (hbin : ∀ s, binary = some s → s.length ≤ 2 ^ 56 - 2)
    (hlang : ∀ s, language = some s → (strlenB s).length ≤ 2 ^ 56 - 2)
    (cN : Bytes) (hns : serialize_simple_tag_list ns = .ok cN)
    (hlen : (optStrBytes MKV_ID_TAG_NAME none
        ++ optStrBytes MKV_ID_TAG_LANGUAGE language ++ defaultBytes d
        ++ optStrBytes MKV_ID_TAG_STRING value ++ optBinBytes binary
        ++ cN).length ≤ 2 ^ 56 - 2) :
    serialize_simple_tag (.mk none value binary language d ns)
      = .ok (elemBytes MKV_ID_SIMPLE_TAG
          (optStrBytes MKV_ID_TAG_NAME none
            ++ optStrBytes MKV_ID_TAG_LANGUAGE language ++ defaultBytes d
            ++ optStrBytes MKV_ID_TAG_STRING value ++ optBinBytes binary
            ++ cN)) := by
  simp only [serialize_simple_tag]
  simp only [bind, Except.bind, pure, Except.pure]
  rw [show optWriteString MKV_ID_TAG_NAME none = .ok [] from rfl]
  try dsimp only
  rw [optWriteString_eq_of_bound (by decide) hlang]
  try dsimp only
  rw [default_write_eq d]
  try dsimp only
  rw [optWriteString_eq_of_bound (by decide) hval]
  try dsimp only
  rw [optWriteBinary_eq_of_bound hbin]
  try dsimp only
  rw [hns]
  try dsimp only
  rw [show ([] : Bytes) ++ optStrBytes MKV_ID_TAG_LANGUAGE language
      ++ defaultBytes d ++ optStrBytes MKV_ID_TAG_STRING value
      ++ optBinBytes binary ++ cN
    = optStrBytes MKV_ID_TAG_NAME none
      ++ optStrBytes MKV_ID_TAG_LANGUAGE language ++ defaultBytes d
      ++ optStrBytes MKV_ID_TAG_STRING value ++ optBinBytes binary
      ++ cN from rfl]
  rw [ebml_write_master_element_header_eq (by decide) hlen]
  try dsimp only
  rw [elemBytes, List.append_assoc]

theorem serialize_none_name_ok_witness :
    serialize_simple_tag (.mk none (some [88]) none none 1 [])
      = .ok (elemBytes MKV_ID_SIMPLE_TAG
          (optStrBytes MKV_ID_TAG_NAME none
            ++ optStrBytes MKV_ID_TAG_LANGUAGE none ++ defaultBytes 1
            ++ optStrBytes MKV_ID_TAG_STRING (some [88])
            ++ optBinBytes none ++ [])) :=
  serialize_none_name_ok (some [88]) none none 1 []
    (by intro s hs; injection hs with hs; subst hs; decide)
    (by intro s hs; cases hs)
    (by intro s hs; cases hs)
    [] rfl (by decide)

/-!  ## C8: what the `mkvtag_set_tag_string` copy preserves  -/

theorem clone_simple_list_nomatch (isAlbum : Bool) (name : Bytes)
    (value : Option Bytes) :
    ∀ sts : List SimpleTag,
    (∀ st ∈ sts, ¬(isAlbum = true ∧ st.name ≠ none ∧
      str_casecmp (st.name.getD []) name = 0)) →
    clone_simple_list isAlbum name value sts = sts.map stripSimpleTag := by
  intro sts
  induction sts with
  | nil =>
    intro h
    rfl
  | cons st rest ih =>
    intro h
    unfold clone_simple_list
    rw [if_neg (h st (List.mem_cons_self st rest))]
    rw [ih (fun x hx => h x (List.mem_cons_of_mem _ hx))]
    rfl

/-- C8 counterexample: the `mkvtag_set_tag_string` copy loses fields of
tags and simple tags that are NOT the one being replaced: the source tag
has edition/chapter/attachment UIDs `[7]/[8]/[9]` and a (non-matching)
simple tag with a binary payload, `is_default = 0` and one nested child;
after setting an unrelated name "X" the copied tag has empty
edition/chapter/attachment UID lists and its simple tag lost the binary
payload, the default flag and the nested child. -/
theorem set_tag_copy_loses_fields :
    ((set_tag_transform (some ⟨[c8SrcTag]⟩) [88] (some [89])).tags.map
        (fun t => (t.edition_uids, t.chapter_uids, t.attachment_uids))
      = [([], [], [])])
    ∧ (c8SrcTag.edition_uids, c8SrcTag.chapter_uids,
        c8SrcTag.attachment_uids) = ([7], [8], [9])
    ∧ ((set_tag_transform (some ⟨[c8SrcTag]⟩) [88] (some [89])).tags.map
        (fun t => t.simple_tags.map
          (fun st => (st.binary, st.is_default, st.nested.length))))
      = [[(none, 1, 0), (none, 1, 0)]]
    ∧ c8SrcTag.simple_tags.map
        (fun st => (st.binary, st.is_default, st.nested.length))
      = [(some [5], 0, 1)] := by
  refine ⟨?_, ?_, ?_, ?_⟩ <;> decide

/-- C8 (amended): `mkvtag_set_tag_string` does NOT copy every field.  The
removal transform is exactly a per-tag clone, and on a tag none of whose
simple tags matches the name, the clone keeps only the target type, the
target type string, the track UIDs, and each simple tag's name, value
and language; it EMPTIES the edition, chapter and attachment UID lists,
drops every binary payload, resets `is_default` to 1 and drops all
nested simple tags. -/
theorem set_tag_copy_partial (name : Bytes) (value : Option Bytes)
    (ex : Collection) (src : Tag)
    (hnomatch : ∀ st ∈ src.simple_tags,
      ¬(src.target_type = MKVTAG_TARGET_ALBUM ∧ st.name ≠ none ∧
        str_casecmp (st.name.getD []) name = 0)) :
    (set_tag_transform (some ex) name none).tags
        = ex.tags.map (clone_tag name none)
    ∧ clone_tag name value src
        = { target_type := src.target_type,
            target_type_str := src.target_type_str.map str_dup,
            track_uids := src.track_uids,
            edition_uids := [], chapter_uids := [], attachment_uids := [],
            simple_tags := src.simple_tags.map stripSimpleTag } := by
  constructor
  · simp [set_tag_transform]
  · unfold clone_tag
    rw [clone_simple_list_nomatch _ name value src.simple_tags]
    intro st hst
    have := hnomatch st hst
    simp only [decide_eq_true_eq]
    exact this

theorem set_tag_copy_partial_witness :
    (set_tag_transform (some ⟨[c8SrcTag]⟩) [88] none).tags
        = [c8SrcTag].map (clone_tag [88] none)
    ∧ clone_tag [88] (some [89]) c8SrcTag
        = { target_type := c8SrcTag.target_type,
            target_type_str := c8SrcTag.target_type_str.map str_dup,
            track_uids := c8SrcTag.track_uids,
            edition_uids := [], chapter_uids := [], attachment_uids := [],
            simple_tags := c8SrcTag.simple_tags.map stripSimpleTag } :=
  set_tag_copy_partial [88] (some [89]) ⟨[c8SrcTag]⟩ c8SrcTag
    (by intro st hst
        simp only [c8SrcTag] at hst
        simp only [List.mem_singleton] at hst
        subst hst
        decide)

/-!  ## C6: planner fall-through  -/

/-- C6 counterexample: in `c6Ctx` Strategy 1 fails with
`MKVTAG_ERR_INVALID_VINT` — an irrecoverable parse error, not `NoSpace`
— yet `mkvtag_write_tags` does not return it: Strategy 2 is tried and
succeeds, so the planner returns `MKVTAG_OK`. -/
theorem write_tags_falls_through_on_error :
    (try_replace_existing_tags c6Ctx ⟨[]⟩).1 = MKVTAG_ERR_INVALID_VINT
    ∧ MKVTAG_ERR_INVALID_VINT ≠ MKVTAG_ERR_NO_SPACE
    ∧ (mkvtag_write_tags c6Ctx ⟨[]⟩).1 = MKVTAG_OK := by
  refine ⟨?_, by decide, ?_⟩ <;>
    set_option maxRecDepth 10000 in decide

/-- C6 (amended): `mkvtag_write_tags` falls through to the next strategy
on ANY failure of Strategy 1 (not only `NoSpace`): whenever Strategy 1
does not return `MKVTAG_OK`, the planner's result is exactly the
Strategy-2/Strategy-3 continuation, regardless of which error Strategy 1
produced — that error is never surfaced to the caller. -/
theorem write_tags_fallthrough (ctx : Ctx) (tags : Collection)
    (hopen : ctx.is_open = true) (hw : ctx.is_writable = true)
    (htoff : ctx.mkv.tags_offset ≥ 0)
    (hfail : (try_replace_existing_tags { ctx with cached_tags := none }
        tags).1 ≠ MKVTAG_OK) :
    mkvtag_write_tags ctx tags
      = (let c1 := (try_replace_existing_tags { ctx with cached_tags := none }
            tags).2
         let s2 := try_replace_void c1 tags
         if s2.1 = MKVTAG_OK then (MKVTAG_OK, s2.2)
         else try_append_tags s2.2 tags) := by
  unfold mkvtag_write_tags
  rw [if_neg (by simp [hopen]), if_neg (by simp [hw])]
  dsimp only
  rw [if_pos htoff]
  rw [if_neg (by
    intro hcon
    exact hfail hcon.2)]

theorem write_tags_fallthrough_witness :
    (try_replace_existing_tags { c6Ctx with cached_tags := none }
        ⟨[]⟩).1 ≠ MKVTAG_OK ∧
    mkvtag_write_tags c6Ctx ⟨[]⟩
      = (let c1 := (try_replace_existing_tags
            { c6Ctx with cached_tags := none } ⟨[]⟩).2
         let s2 := try_replace_void c1 ⟨[]⟩
         if s2.1 = MKVTAG_OK then (MKVTAG_OK, s2.2)
         else try_append_tags s2.2 ⟨[]⟩) :=
  ⟨by set_option maxRecDepth 10000 in decide,
   write_tags_fallthrough c6Ctx ⟨[]⟩ rfl rfl (by decide)
     (by set_option maxRecDepth 10000 in decide)⟩

/-!  ## C9: Strategy-1 frame effect  -/

theorem void_try_succ {total k : Nat} (rest : List Nat) (hk1 : 1 ≤ k)
    (hk8 : k ≤ 8) (htot : 1 + k ≤ total)
    (hok : total - 1 - k ≤ 2 ^ (7 * k) - 2)
    (hsz : ebml_vint_size (total - 1 - k) ≤ k) :
    ∃ v, void_try total (k :: rest) = .ok v ∧ v.length = total - 1 := by
  unfold void_try
  rw [if_pos (by omega)]
  rw [vint_encode_fixed_ok hk1 hk8 hok]
  simp only [bind, Except.bind, pure, Except.pure]
  refine ⟨_, rfl, ?_⟩
  simp [bigEndianBytes_length, List.length_replicate]
  omega

theorem void_try_fail {total k : Nat} (rest : List Nat)
    (hsz : ¬ ebml_vint_size (total - 1 - k) ≤ k) :
    void_try total (k :: rest) = void_try total rest := by
  conv_lhs => unfold void_try
  rw [if_neg (by omega)]

set_option maxHeartbeats 3000000 in
/-- A Void element of any total size from 2 bytes up to `2^56` can be
written and fills exactly that many bytes. -/
theorem void_element_length {total : Nat} (h2 : 2 ≤ total)
    (hb : total ≤ 2 ^ 56) :
    ∃ v, ebml_write_void_element total = .ok v ∧ v.length = total
      ∧ v.headD 0 = EBML_ID_VOID := by
  unfold ebml_write_void_element
  rw [if_neg (by omega)]
  have hb' : total ≤ 72057594037927936 := by norm_num at hb ⊢; omega
  have key : ∃ body, void_try total [1, 2, 3, 4, 5, 6, 7, 8] = .ok body
      ∧ body.length = total - 1 := by
    by_cases c1 : total ≤ 128
    · exact void_try_succ _ (by norm_num) (by norm_num) (by omega)
        (by norm_num; omega)
        (by unfold ebml_vint_size EBML_VINT_MAX; norm_num; split_ifs <;> omega)
    · rw [void_try_fail _
        (by unfold ebml_vint_size EBML_VINT_MAX; norm_num; split_ifs <;> omega)]
      by_cases c2 : total ≤ 16385
      · exact void_try_succ _ (by norm_num) (by norm_num) (by omega)
          (by norm_num; omega)
          (by unfold ebml_vint_size EBML_VINT_MAX; norm_num; split_ifs <;> omega)
      · rw [void_try_fail _
          (by unfold ebml_vint_size EBML_VINT_MAX; norm_num; split_ifs <;> omega)]
        by_cases c3 : total ≤ 2097154
        · exact void_try_succ _ (by norm_num) (by norm_num) (by omega)
            (by norm_num; omega)
            (by unfold ebml_vint_size EBML_VINT_MAX; norm_num; split_ifs <;> omega)
        · rw [void_try_fail _
            (by unfold ebml_vint_size EBML_VINT_MAX; norm_num; split_ifs <;> omega)]
          by_cases c4 : total ≤ 268435459
          · exact void_try_succ _ (by norm_num) (by norm_num) (by omega)
              (by norm_num; omega)
              (by unfold ebml_vint_size EBML_VINT_MAX; norm_num; split_ifs <;> omega)
          · rw [void_try_fail _
              (by unfold ebml_vint_size EBML_VINT_MAX; norm_num; split_ifs <;> omega)]
            by_cases c5 : total ≤ 34359738372
            · exact void_try_succ _ (by norm_num) (by norm_num) (by omega)
                (by norm_num; omega)
                (by unfold ebml_vint_size EBML_VINT_MAX; norm_num; split_ifs <;> omega)
            · rw [void_try_fail _
                (by unfold ebml_vint_size EBML_VINT_MAX; norm_num; split_ifs <;> omega)]
              by_cases c6 : total ≤ 4398046511109
              · exact void_try_succ _ (by norm_num) (by norm_num) (by omega)
                  (by norm_num; omega)
                  (by unfold ebml_vint_size EBML_VINT_MAX; norm_num; split_ifs <;> omega)
              · rw [void_try_fail _
                  (by unfold ebml_vint_size EBML_VINT_MAX; norm_num; split_ifs <;> omega)]
                by_cases c7 : total ≤ 562949953421318
                · exact void_try_succ _ (by norm_num) (by norm_num) (by omega)
                    (by norm_num; omega)
                    (by unfold ebml_vint_size EBML_VINT_MAX; norm_num; split_ifs <;> omega)
                · rw [void_try_fail _
                    (by unfold ebml_vint_size EBML_VINT_MAX; norm_num; split_ifs <;> omega)]
                  exact void_try_succ _ (by norm_num) (by norm_num) (by omega)
                    (by norm_num; omega)
                    (by unfold ebml_vint_size EBML_VINT_MAX; norm_num; split_ifs <;> omega)
  obtain ⟨body, hbody, hlen⟩ := key
  rw [hbody]
  simp only [bind, Except.bind, pure, Except.pure]
  refine ⟨_, rfl, ?_, rfl⟩
  simp [hlen]
  omega

theorem file_write_at_left {f pre mid post d : Bytes}
    (hf : f = pre ++ mid ++ post) (hd : d.length ≤ mid.length) :
    file_write_at f pre.length d
      = pre ++ d ++ (mid.drop d.length ++ post) := by
  unfold file_write_at
  have hfl : pre.length ≤ f.length := by
    rw [hf]
    simp only [List.length_append]
    omega
  rw [if_pos hfl]
  dsimp only
  have htake : f.take pre.length = pre := by
    rw [hf, List.append_assoc, take_append_le le_rfl, List.take_length]
  have hdrop : f.drop (pre.length + d.length) = mid.drop d.length ++ post := by
    rw [hf, List.append_assoc, ← List.drop_drop, List.drop_left]
    exact List.drop_append_of_le_length hd
  rw [htake, hdrop]

theorem file_write_at_exact {f pre mid post d : Bytes}
    (hf : f = pre ++ mid ++ post) (hd : d.length = mid.length) :
    file_write_at f pre.length d = pre ++ d ++ post := by
  rw [file_write_at_left hf hd.le, hd, List.drop_length]
  simp

theorem write_tags_at_frame {f pre slot post content : Bytes} {tags : Collection}
    (hf : f = pre ++ slot ++ post)
    (hser : mkv_tags_serialize tags = .ok content)
    (hclen : content.length ≤ 2 ^ 56 - 2)
    (hW : (elemBytes MKV_ID_TAGS content).length ≤ slot.length)
    (hS : slot.length ≤ 2 ^ 56) :
    ∃ fill, write_tags_at f pre.length slot.length tags
        = (MKVTAG_OK, pre ++ (elemBytes MKV_ID_TAGS content ++ fill) ++ post)
      ∧ (elemBytes MKV_ID_TAGS content ++ fill).length = slot.length
      ∧ (fill = [] ∨ fill = [0] ∨ fill.headD 0 = EBML_ID_VOID) := by
  have htb : (bigEndianBytes MKV_ID_TAGS (idByteLen MKV_ID_TAGS)
      ++ vintBytes content.length) ++ content = elemBytes MKV_ID_TAGS content := by
    simp [elemBytes]
  unfold write_tags_at
  rw [hser]
  dsimp only
  rw [ebml_write_master_element_header_eq (by decide) hclen]
  dsimp only
  rw [htb]
  rw [if_neg (by omega)]
  rw [file_write_at_left hf hW]
  have hf1 : pre ++ elemBytes MKV_ID_TAGS content
        ++ (slot.drop (elemBytes MKV_ID_TAGS content).length ++ post)
      = (pre ++ elemBytes MKV_ID_TAGS content)
        ++ slot.drop (elemBytes MKV_ID_TAGS content).length ++ post := by
    simp [List.append_assoc]
  have hpos : pre.length + (elemBytes MKV_ID_TAGS content).length
      = (pre ++ elemBytes MKV_ID_TAGS content).length := by
    simp
  have hdroplen : (slot.drop (elemBytes MKV_ID_TAGS content).length).length
      = slot.length - (elemBytes MKV_ID_TAGS content).length := by
    simp
  by_cases hrem : slot.length - (elemBytes MKV_ID_TAGS content).length ≥ 2
  · rw [if_pos hrem]
    obtain ⟨vb, hvb, hvlen, hvhead⟩ :=
      void_element_length hrem (le_trans (Nat.sub_le _ _) hS)
    rw [hvb, hpos]
    dsimp only
    rw [file_write_at_exact hf1 (by rw [hvlen, hdroplen])]
    refine ⟨vb, by simp [List.append_assoc], ?_, Or.inr (Or.inr hvhead)⟩
    simp only [List.length_append, hvlen]
    omega
  · rw [if_neg hrem]
    by_cases hone : slot.length - (elemBytes MKV_ID_TAGS content).length = 1
    · rw [if_pos hone, hpos,
        file_write_at_exact hf1 (by rw [hdroplen, hone]; rfl)]
      refine ⟨[0], by simp [List.append_assoc], ?_, Or.inr (Or.inl rfl)⟩
      simp only [List.length_append]
      simp
      omega
    · rw [if_neg hone]
      have hz : slot.length = (elemBytes MKV_ID_TAGS content).length := by omega
      have hnil : slot.drop (elemBytes MKV_ID_TAGS content).length = [] := by
        apply List.drop_eq_nil_of_le
        omega
      refine ⟨[], ?_, by simp; omega, Or.inl rfl⟩
      rw [hnil]
      simp

/-- C5 counterexample: `v = 2^32` needs 5 content bytes, yet the source
writes it with 8 content bytes (the ladder jumps from 4 to 8), so the
claim "values needing 5, 6 or 7 bytes are written with exactly 5, 6 or 7
content bytes" is false. -/
theorem write_int_element_not_minimal :
    twosComplementMinBytes 4294967296 = 5 ∧
      ebml_write_int_element 0x4484 4294967296 =
        .ok ([0x44, 0x84] ++ [0x88] ++ [0, 0, 0, 1, 0, 0, 0, 0]) := by
  constructor
  · decide
  · rfl

theorem seekhead_update_noop {mkv : MkvFileRec} (f : Bytes) (off : Int)
    (h : mkv.seekhead_offset < 0) :
    mkv_seekhead_update_tags mkv f off = (MKVTAG_OK, f) := by
  unfold mkv_seekhead_update_tags
  rw [if_pos h]

set_option maxHeartbeats 1000000 in
/-- C9: when the file carries an existing Tags element immediately
followed by a Void element — a slot of `S` bytes starting at the
recorded tags offset — and the newly serialized Tags element has total
size `W ≤ S` (with no SeekHead to update), Strategy 1
(`try_replace_existing_tags`) succeeds, its only change to the context
is the file contents, the bytes before and after the slot are
untouched, the slot now holds the new Tags element followed by a fill
(empty, a single zero byte, or a Void element) of exactly `S − W`
bytes, and the file size is unchanged. -/
theorem strategy1_preserves_slot {ctx : Ctx} {pre post oldC vc content : Bytes}
    {tags : Collection}
    (hf : ctx.file
      = pre ++ (elemBytes MKV_ID_TAGS oldC ++ elemBytes EBML_ID_VOID vc) ++ post)
    (hoff : ctx.mkv.tags_offset = (pre.length : Int))
    (hsh : ctx.mkv.seekhead_offset < 0)
    (hold : oldC.length ≤ 2 ^ 56 - 2)
    (hvc : vc.length ≤ 2 ^ 56 - 2)
    (hser : mkv_tags_serialize tags = .ok content)
    (hclen : content.length ≤ 2 ^ 56 - 2)
    (hW : (elemBytes MKV_ID_TAGS content).length
        ≤ (elemBytes MKV_ID_TAGS oldC ++ elemBytes EBML_ID_VOID vc).length)
    (hS : (elemBytes MKV_ID_TAGS oldC ++ elemBytes EBML_ID_VOID vc).length
        ≤ 2 ^ 56) :
    ∃ fill,
      try_replace_existing_tags ctx tags
        = (MKVTAG_OK,
           { ctx with
              file := pre ++ (elemBytes MKV_ID_TAGS content ++ fill) ++ post })
      ∧ (elemBytes MKV_ID_TAGS content ++ fill).length
          = (elemBytes MKV_ID_TAGS oldC ++ elemBytes EBML_ID_VOID vc).length
      ∧ (pre ++ (elemBytes MKV_ID_TAGS content ++ fill) ++ post).length
          = ctx.file.length
      ∧ (fill = [] ∨ fill = [0] ∨ fill.headD 0 = EBML_ID_VOID) := by
  have hf1 : ctx.file = pre ++ elemBytes MKV_ID_TAGS oldC
      ++ (elemBytes EBML_ID_VOID vc ++ post) := by
    rw [hf]
    simp [List.append_assoc]
  have hf2 : ctx.file = (pre ++ elemBytes MKV_ID_TAGS oldC)
      ++ elemBytes EBML_ID_VOID vc ++ post := by
    rw [hf]
    simp [List.append_assoc]
  unfold try_replace_existing_tags
  rw [hoff]
  rw [if_neg (by omega)]
  dsimp only
  simp only [Int.toNat_natCast]
  rw [readElementHeader_elemBytes hf1 (by decide) (by decide) hold]
  dsimp only
  have hend : pre.length + idByteLen MKV_ID_TAGS + ebml_vint_size oldC.length
      + oldC.length = (pre ++ elemBytes MKV_ID_TAGS oldC).length := by
    rw [List.length_append, elemBytes_length _ hold]
    omega
  rw [hend]
  rw [readElementHeader_elemBytes hf2 (by decide) (by decide) hvc]
  dsimp only
  rw [if_pos rfl]
  have hbase : (pre ++ elemBytes MKV_ID_TAGS oldC).length - pre.length
      = (elemBytes MKV_ID_TAGS oldC).length := by
    simp
  have hnext : (pre ++ elemBytes MKV_ID_TAGS oldC).length + idByteLen EBML_ID_VOID
      + ebml_vint_size vc.length + vc.length
      - (pre ++ elemBytes MKV_ID_TAGS oldC).length
      = (elemBytes EBML_ID_VOID vc).length := by
    rw [elemBytes_length _ hvc]
    omega
  rw [hbase, hnext, ← List.length_append]
  obtain ⟨fill, hwr, hlen, hshape⟩ := write_tags_at_frame hf hser hclen hW hS
  rw [hwr]
  dsimp only
  rw [if_pos rfl]
  rw [seekhead_update_noop _ _ hsh]
  refine ⟨fill, rfl, hlen, ?_, hshape⟩
  rw [hf]
  simp only [List.length_append] at hlen ⊢
  omega

/-- C9 witness: a 7-byte file holding an empty Tags element (5 bytes)
and an empty Void element (2 bytes); the empty collection serializes to
a 5-byte Tags element and the slot is refilled exactly. -/
theorem strategy1_preserves_slot_witness :
    ∃ fill,
      try_replace_existing_tags c9Ctx ⟨[]⟩
        = (MKVTAG_OK,
           { c9Ctx with
              file := [] ++ (elemBytes MKV_ID_TAGS [] ++ fill) ++ [] })
      ∧ (elemBytes MKV_ID_TAGS [] ++ fill).length
          = (elemBytes MKV_ID_TAGS [] ++ elemBytes EBML_ID_VOID []).length
      ∧ ([] ++ (elemBytes MKV_ID_TAGS [] ++ fill) ++ []).length
          = c9Ctx.file.length
      ∧ (fill = [] ∨ fill = [0] ∨ fill.headD 0 = EBML_ID_VOID) :=
  @strategy1_preserves_slot c9Ctx [] [] [] [] [] ⟨[]⟩
    (by decide) rfl (by decide) (by decide) (by decide) rfl (by decide)
    (by decide) (by decide)

theorem except_bind_err {α β : Type} {x : Except Int α} {f : α → Except Int β}
    {e : Int} (h : x >>= f = .error e) :
    x = .error e ∨ ∃ a, x = .ok a ∧ f a = .error e := by
  cases x with
  | error e1 =>
    left
    simp only [bind, Except.bind] at h
    injection h with h2
    rw [h2]
  | ok a =>
    right
    refine ⟨a, rfl, ?_⟩
    simpa only [bind, Except.bind] using h

theorem id_encode_err_ne {id : Nat} {e : Int}
    (h : ebml_id_encode id = .error e) : e ≠ MKVTAG_ERR_TAG_NOT_FOUND := by
  unfold ebml_id_encode at h
  split_ifs at h
  injection h with h2
  subst h2
  decide

theorem vint_encode_fixed_err_ne {v n : Nat} {e : Int}
    (h : ebml_vint_encode_fixed v n = .error e) :
    e ≠ MKVTAG_ERR_TAG_NOT_FOUND := by
  unfold ebml_vint_encode_fixed at h
  split_ifs at h
  · injection h with h2
    subst h2
    decide
  · injection h with h2
    subst h2
    decide
  · rcases hb : bigEndianBytes v n with _ | ⟨b0, rest⟩ <;> rw [hb] at h <;>
      simp at h

theorem vint_encode_err_ne {v : Nat} {e : Int}
    (h : ebml_vint_encode v = .error e) : e ≠ MKVTAG_ERR_TAG_NOT_FOUND := by
  unfold ebml_vint_encode at h
  dsimp only at h
  split_ifs at h
  · injection h with h2
    subst h2
    decide
  · exact vint_encode_fixed_err_ne h

theorem write_uint_err_ne {id v : Nat} {e : Int}
    (h : ebml_write_uint_element id v = .error e) :
    e ≠ MKVTAG_ERR_TAG_NOT_FOUND := by
  unfold ebml_write_uint_element at h
  dsimp only at h
  rcases except_bind_err h with h | ⟨a, _, h⟩
  · exact id_encode_err_ne h
  · rcases except_bind_err h with h | ⟨b, _, h⟩
    · exact vint_encode_err_ne h
    · simp [pure, Except.pure] at h

theorem write_string_err_ne {id : Nat} {s : Bytes} {e : Int}
    (h : ebml_write_string_element id s = .error e) :
    e ≠ MKVTAG_ERR_TAG_NOT_FOUND := by
  unfold ebml_write_string_element at h
  dsimp only at h
  rcases except_bind_err h with h | ⟨a, _, h⟩
  · exact id_encode_err_ne h
  · rcases except_bind_err h with h | ⟨b, _, h⟩
    · exact vint_encode_err_ne h
    · simp [pure, Except.pure] at h

theorem write_binary_err_ne {id : Nat} {d : Bytes} {e : Int}
    (h : ebml_write_binary_element id d = .error e) :
    e ≠ MKVTAG_ERR_TAG_NOT_FOUND := by
  unfold ebml_write_binary_element at h
  rcases except_bind_err h with h | ⟨a, _, h⟩
  · exact id_encode_err_ne h
  · rcases except_bind_err h with h | ⟨b, _, h⟩
    · exact vint_encode_err_ne h
    · simp [pure, Except.pure] at h

theorem master_header_err_ne {id n : Nat} {e : Int}
    (h : ebml_write_master_element_header id n = .error e) :
    e ≠ MKVTAG_ERR_TAG_NOT_FOUND := by
  unfold ebml_write_master_element_header at h
  rcases except_bind_err h with h | ⟨a, _, h⟩
  · exact id_encode_err_ne h
  · rcases except_bind_err h with h | ⟨b, _, h⟩
    · exact vint_encode_err_ne h
    · simp [pure, Except.pure] at h

theorem writeUids_err_ne {id : Nat} {uids : List Nat} {e : Int}
    (h : writeUids id uids = .error e) : e ≠ MKVTAG_ERR_TAG_NOT_FOUND := by
  induction uids generalizing e with
  | nil => simp [writeUids] at h
  | cons u rest ih =>
    unfold writeUids at h
    rcases except_bind_err h with h | ⟨a, _, h⟩
    · exact write_uint_err_ne h
    · rcases except_bind_err h with h | ⟨b, _, h⟩
      · exact ih h
      · simp [pure, Except.pure] at h

theorem optWriteString_err_ne {id : Nat} {o : Option Bytes} {e : Int}
    (h : optWriteString id o = .error e) : e ≠ MKVTAG_ERR_TAG_NOT_FOUND := by
  cases o with
  | none => simp [optWriteString] at h
  | some s =>
    simp only [optWriteString] at h
    exact write_string_err_ne h

theorem optWriteBinary_err_ne {o : Option Bytes} {e : Int}
    (h : optWriteBinary o = .error e) : e ≠ MKVTAG_ERR_TAG_NOT_FOUND := by
  cases o with
  | none => simp [optWriteBinary] at h
  | some b =>
    simp only [optWriteBinary] at h
    split_ifs at h
    exact write_binary_err_ne h

theorem defaultWrite_err_ne {d : Nat} {e : Int}
    (h : defaultWrite d = .error e) : e ≠ MKVTAG_ERR_TAG_NOT_FOUND := by
  unfold defaultWrite at h
  split_ifs at h
  exact write_uint_err_ne h

theorem serialize_simple_err_ne (n : Nat) :
    (∀ st, sizeST st ≤ n → ∀ e, serialize_simple_tag st = .error e →
      e ≠ MKVTAG_ERR_TAG_NOT_FOUND) ∧
    (∀ l, sizeSTL l ≤ n → ∀ e, serialize_simple_tag_list l = .error e →
      e ≠ MKVTAG_ERR_TAG_NOT_FOUND) := by
  induction n with
  | zero =>
    constructor
    · intro st hst
      cases st with
      | mk a b c d f ns => simp [sizeST] at hst
    · intro l hl e h
      cases l with
      | nil => simp [serialize_simple_tag_list] at h
      | cons st rest => simp [sizeSTL] at hl
  | succ n ih =>
    obtain ⟨ihST, ihSTL⟩ := ih
    constructor
    · intro st hst e h
      cases st with
      | mk name value binary language is_default nested =>
        unfold serialize_simple_tag at h
        try dsimp only at h
        rcases except_bind_err h with h | ⟨a, _, h⟩
        · exact optWriteString_err_ne h
        · rcases except_bind_err h with h | ⟨b, _, h⟩
          · exact optWriteString_err_ne h
          · rcases except_bind_err h with h | ⟨c, _, h⟩
            · exact defaultWrite_err_ne h
            · rcases except_bind_err h with h | ⟨d2, _, h⟩
              · exact optWriteString_err_ne h
              · rcases except_bind_err h with h | ⟨b2, _, h⟩
                · exact optWriteBinary_err_ne h
                · rcases except_bind_err h with h | ⟨ns2, _, h⟩
                  · exact ihSTL nested (by simp [sizeST] at hst; omega) e h
                  · rcases except_bind_err h with h | ⟨hd, _, h⟩
                    · exact master_header_err_ne h
                    · simp [pure, Except.pure] at h
    · intro l hl e h
      cases l with
      | nil => simp [serialize_simple_tag_list] at h
      | cons st rest =>
        unfold serialize_simple_tag_list at h
        rcases except_bind_err h with h | ⟨a, _, h⟩
        · exact ihST st (by simp [sizeSTL] at hl; omega) e h
        · rcases except_bind_err h with h | ⟨b, _, h⟩
          · exact ihSTL rest (by simp [sizeSTL] at hl; omega) e h
          · simp [pure, Except.pure] at h

theorem serialize_simple_tag_list_err_ne {l : List SimpleTag} {e : Int}
    (h : serialize_simple_tag_list l = .error e) :
    e ≠ MKVTAG_ERR_TAG_NOT_FOUND :=
  (serialize_simple_err_ne (sizeSTL l)).2 l le_rfl e h

theorem serialize_targets_err_ne {t : Tag} {e : Int}
    (h : serialize_targets t = .error e) : e ≠ MKVTAG_ERR_TAG_NOT_FOUND := by
  unfold serialize_targets at h
  try dsimp only at h
  rcases except_bind_err h with h | ⟨a, _, h⟩
  · exact write_uint_err_ne h
  · cases hts : t.target_type_str with
    | none =>
      rw [hts] at h
      dsimp only at h
      rcases except_bind_err h with h | ⟨b, _, h⟩
      · simp at h
      · rcases except_bind_err h with h | ⟨c, _, h⟩
        · exact writeUids_err_ne h
        · rcases except_bind_err h with h | ⟨d2, _, h⟩
          · exact writeUids_err_ne h
          · rcases except_bind_err h with h | ⟨f2, _, h⟩
            · exact writeUids_err_ne h
            · rcases except_bind_err h with h | ⟨g2, _, h⟩
              · exact writeUids_err_ne h
              · rcases except_bind_err h with h | ⟨hh, _, h⟩
                · exact master_header_err_ne h
                · simp [pure, Except.pure] at h
    | some s =>
      rw [hts] at h
      dsimp only at h
      rcases except_bind_err h with h | ⟨b, _, h⟩
      · exact write_string_err_ne h
      · rcases except_bind_err h with h | ⟨c, _, h⟩
        · exact writeUids_err_ne h
        · rcases except_bind_err h with h | ⟨d2, _, h⟩
          · exact writeUids_err_ne h
          · rcases except_bind_err h with h | ⟨f2, _, h⟩
            · exact writeUids_err_ne h
            · rcases except_bind_err h with h | ⟨g2, _, h⟩
              · exact writeUids_err_ne h
              · rcases except_bind_err h with h | ⟨hh, _, h⟩
                · exact master_header_err_ne h
                · simp [pure, Except.pure] at h

theorem serialize_tag_err_ne {t : Tag} {e : Int}
    (h : serialize_tag t = .error e) : e ≠ MKVTAG_ERR_TAG_NOT_FOUND := by
  unfold serialize_tag at h
  try dsimp only at h
  rcases except_bind_err h with h | ⟨a, _, h⟩
  · exact serialize_targets_err_ne h
  · rcases except_bind_err h with h | ⟨b, _, h⟩
    · exact serialize_simple_tag_list_err_ne h
    · rcases except_bind_err h with h | ⟨c, _, h⟩
      · exact master_header_err_ne h
      · simp [pure, Except.pure] at h

theorem serialize_tag_list_err_ne {l : List Tag} {e : Int}
    (h : serialize_tag_list l = .error e) : e ≠ MKVTAG_ERR_TAG_NOT_FOUND := by
  induction l generalizing e with
  | nil => simp [serialize_tag_list] at h
  | cons t rest ih =>
    unfold serialize_tag_list at h
    rcases except_bind_err h with h | ⟨a, _, h⟩
    · exact serialize_tag_err_ne h
    · rcases except_bind_err h with h | ⟨b, _, h⟩
      · exact ih h
      · simp [pure, Except.pure] at h

theorem mkv_tags_serialize_err_ne {c : Collection} {e : Int}
    (h : mkv_tags_serialize c = .error e) : e ≠ MKVTAG_ERR_TAG_NOT_FOUND := by
  unfold mkv_tags_serialize at h
  exact serialize_tag_list_err_ne h

theorem file_read_exact_err_ne {f : Bytes} {p n : Nat} {e : Int}
    (h : file_read_exact f p n = .error e) : e ≠ MKVTAG_ERR_TAG_NOT_FOUND := by
  unfold file_read_exact at h
  split_ifs at h
  injection h with h2
  subst h2
  decide

theorem try_append_err_ne (ctx : Ctx) (tags : Collection) :
    (try_append_tags ctx tags).1 ≠ MKVTAG_ERR_TAG_NOT_FOUND := by
  unfold try_append_tags
  dsimp only
  cases hser : mkv_tags_serialize tags with
  | error e =>
    dsimp only
    exact mkv_tags_serialize_err_ne hser
  | ok content =>
    dsimp only
    cases hhdr : ebml_write_master_element_header MKV_ID_TAGS content.length with
    | error e =>
      dsimp only
      exact master_header_err_ne hhdr
    | ok hdr =>
      dsimp only
      by_cases hunk : ctx.mkv.segment_unknown_size = true
      · rw [if_neg (by simp [hunk])]
        dsimp only
        decide
      · rw [if_pos hunk]
        cases hre : file_read_exact ctx.file
            (ctx.mkv.segment_offset + (ebml_id_size MKV_ID_SEGMENT : Int)).toNat 1 with
        | error e =>
          dsimp only
          by_cases hz : e = MKVTAG_OK
          · subst hz
            rw [if_neg (by simp)]
            dsimp only
            decide
          · rw [if_pos hz]
            dsimp only
            exact file_read_exact_err_ne hre
        | ok fb =>
          dsimp only
          cases henc : ebml_vint_encode_fixed
              (ctx.mkv.segment_size + (hdr ++ content).length)
              (ebml_vint_length (fb.headD 0)) with
          | error e2 =>
            dsimp only
            rw [if_pos (by decide)]
            dsimp only
            decide
          | ok nsb =>
            dsimp only
            rw [if_neg (by simp)]
            dsimp only
            decide

theorem write_tags_err_ne (ctx : Ctx) (tags : Collection) :
    (mkvtag_write_tags ctx tags).1 ≠ MKVTAG_ERR_TAG_NOT_FOUND := by
  unfold mkvtag_write_tags
  dsimp only
  repeat' split
  all_goals try dsimp only
  all_goals first
    | decide
    | exact try_append_err_ne _ _

/-- C10: `mkvtag_remove_tag` is literally `mkvtag_set_tag_string(name,
NULL)` and never returns `MKVTAG_ERR_TAG_NOT_FOUND` — for every context
and name, even when no simple tag with that name exists, the working
collection is built and the planner's verdict (OK, NotOpen, ReadOnly, a
serialization error, Truncated or NoSpace) is returned, never
TagNotFound. -/
theorem remove_tag_never_not_found (ctx : Ctx) (name : Bytes) :
    mkvtag_remove_tag ctx name = mkvtag_set_tag_string ctx name none ∧
    (mkvtag_remove_tag ctx name).1 ≠ MKVTAG_ERR_TAG_NOT_FOUND := by
  refine ⟨rfl, ?_⟩
  unfold mkvtag_remove_tag mkvtag_set_tag_string
  dsimp only
  repeat' split
  all_goals try dsimp only
  all_goals first
    | decide
    | exact write_tags_err_ne _ _

/-- C10 at a concrete context: removing a tag from the 32-zero-byte file
(no Tags parseable) returns a code other than TagNotFound. -/
theorem remove_tag_never_not_found_witness :
    mkvtag_remove_tag c6Ctx [65] = mkvtag_set_tag_string c6Ctx [65] none ∧
    (mkvtag_remove_tag c6Ctx [65]).1 ≠ MKVTAG_ERR_TAG_NOT_FOUND :=
  remove_tag_never_not_found c6Ctx [65]

set_option maxRecDepth 100000 in
/-- C1 (code bug at `mkvtag.c` line 270): the claimed postcondition
holds for every stage of the pipeline except the final copy.  On a
concrete file, `mkvtag_set_tag_string` with name `[88]` and value `[89]`
succeeds, the subsequent read path's search over the re-parsed
collection finds exactly `some [89]`, and a `str_copy` call agreeing
with the declaration `str_copy(dst, src, dst_size)` places exactly that
value in a large-enough buffer.  The source instead calls
`str_copy(value, size, stag->value)` — the integer `size` as the source
pointer and the value pointer as the capacity — so the buffer receives
bytes read from the address `size`, not the stored value, and the
claim's postcondition is not met by the code as written. -/
theorem set_then_read_search_delivers_value :
    (mkvtag_set_tag_string c1Ctx [88] (some [89])).1 = MKVTAG_OK ∧
    mkvtag_read_tag_string_found
        (mkvtag_set_tag_string c1Ctx [88] (some [89])).2 [88]
      = (MKVTAG_OK, some [89]) ∧
    str_copy (some [89]) 4 = (1, [89]) := by
  refine ⟨?_, ?_, ?_⟩ <;> rfl

end MkvTag
